import Mathlib

/-!
Verification of the akavesdk-py upload/download data-plane pipeline.

Shallow embedding of the SDK's Python sources:
* `private/encryption/splitter.py` — the encrypt-on-read block splitter,
* `private/ipc/client.py` — the per-account nonce manager,
* `private/eip712.py` — EIP-712 typed-data hashing and signing,
* `sdk/dag.py` — UnixFS/DAG-PB node building and extraction,
* `sdk/erasure_code.py` — Reed–Solomon stripe erasure coding.

Bytes are modelled as `Nat` (with explicit `< 256` bounds where they matter),
byte strings as `List Nat`, fallible code as `Except String` or `Option`,
stateful code as explicit state passing.  External collaborators that are not
part of the repository (keccak-256, sha2-256, secp256k1, the `reedsolo` RS
codec, the `ipld_dag_pb` encoder) are either taken as function parameters or
modelled from the specification, as marked in their doc comments.
-/

set_option autoImplicit false

namespace Akave

/-! ## Splitter (`private/encryption/splitter.py`)

The reader is modelled as a byte stream (`source : List Nat`) plus a read
position carried in the state; `reader.read(n)` returns the next `n` bytes.
The AES-GCM `encrypt(key, data, info)` function is an external collaborator
and is taken as a parameter; the `info` argument is the UTF-8 encoding of the
string we pass, so we model it as a `String`. -/

structure SplitterState where
  pos : Nat
  counter : Nat
  eofReached : Bool
  deriving Repr, DecidableEq

/-- Initial splitter state: position 0, counter 0, EOF flag clear. -/
def SplitterState.init : SplitterState := ⟨0, 0, false⟩

/-- `reader.read(n)` on a stream at position `pos`. -/
def readerRead (source : List Nat) (pos n : Nat) : List Nat :=
  (source.drop pos).take n

/-- `Splitter.next_bytes`: returns `(yielded block?, new state)`. -/
def Splitter.next_bytes (encrypt : List Nat → List Nat → String → List Nat)
    (key source : List Nat) (blockSize : Nat) (st : SplitterState) :
    Option (List Nat) × SplitterState :=
  if st.eofReached then
    (none, st)
  else
    let data := readerRead source st.pos blockSize
    if data = [] then
      (none, { st with eofReached := true })
    else
      let info := "block_" ++ toString st.counter
      let encrypted := encrypt key data info
      (some encrypted, { st with pos := st.pos + data.length,
                                 counter := st.counter + 1 })

/-- `Splitter.reset()` with a seekable reader: seek to 0, zero the counter,
clear the EOF flag. -/
def Splitter.reset (_st : SplitterState) : SplitterState := ⟨0, 0, false⟩

/-- Run `next_bytes` a number of times, collecting every call's output. -/
def Splitter.run (encrypt : List Nat → List Nat → String → List Nat)
    (key source : List Nat) (blockSize : Nat) :
    Nat → SplitterState → List (Option (List Nat)) × SplitterState
  | 0, st => ([], st)
  | n + 1, st =>
    let (out, st') := Splitter.next_bytes encrypt key source blockSize st
    let (outs, stFin) := Splitter.run encrypt key source blockSize n st'
    (out :: outs, stFin)

/-! ## NonceManager (`private/ipc/client.py`)

`get_nonce` resyncs the cached nonce from the node when it is unset or the
last sync is more than 30 seconds old, then returns the cached value and
post-increments it; `reset_nonce` clears the cache.  The node's
`get_transaction_count` responses and the clock are inputs of each call.
Times are integers (seconds). -/

structure NonceState where
  nonce : Option Nat
  lastSync : Int
  deriving Repr, DecidableEq

def NonceState.init : NonceState := ⟨none, 0⟩

/-- Does this `get_nonce` call resync from the node? -/
def NonceManager.resyncs (st : NonceState) (now : Int) : Bool :=
  st.nonce.isNone || (now - st.lastSync > 30)

/-- `NonceManager.get_nonce`, with the current time and the node's
`get_transaction_count` answer supplied as inputs. -/
def NonceManager.get_nonce (st : NonceState) (now : Int) (nodeCount : Nat) :
    Nat × NonceState :=
  if NonceManager.resyncs st now then
    (nodeCount, ⟨some (nodeCount + 1), now⟩)
  else
    match st.nonce with
    | some n => (n, ⟨some (n + 1), st.lastSync⟩)
    | none => (nodeCount, ⟨some (nodeCount + 1), now⟩)

/-- `NonceManager.reset_nonce`. -/
def NonceManager.reset_nonce (st : NonceState) : NonceState :=
  ⟨none, st.lastSync⟩

/-- One event of a `NonceManager` history: a `get_nonce` call (with its
observed clock value and node answer) or a `reset_nonce` call. -/
inductive NonceEvent where
  | get (now : Int) (nodeCount : Nat)
  | reset
  deriving Repr, DecidableEq

/-- Run a sequence of events, collecting the nonce returned by each
`get_nonce` call. -/
def NonceManager.run (st : NonceState) : List NonceEvent → List Nat × NonceState
  | [] => ([], st)
  | NonceEvent.get now cnt :: es =>
    let (n, st') := NonceManager.get_nonce st now cnt
    let (outs, stFin) := NonceManager.run st' es
    (n :: outs, stFin)
  | NonceEvent.reset :: es =>
    NonceManager.run (NonceManager.reset_nonce st) es

/-- A run is `sane` when every `get_nonce` call that triggers a resync
receives a node transaction count of at least `bound`, where `bound` is kept
one above every nonce returned so far. -/
def NonceManager.sane (st : NonceState) (bound : Nat) : List NonceEvent → Bool
  | [] => true
  | NonceEvent.get now cnt :: es =>
    let (n, st') := NonceManager.get_nonce st now cnt
    (!NonceManager.resyncs st now || decide (bound ≤ cnt)) &&
      NonceManager.sane st' (n + 1) es
  | NonceEvent.reset :: es =>
    NonceManager.sane (NonceManager.reset_nonce st) bound es

/-- Strictly increasing list of naturals. -/
def StrictlyIncreasing (l : List Nat) : Prop := l.Chain' (· < ·)

/-- Number of `some` entries in a list of optional values. -/
def countSome {α : Type} (l : List (Option α)) : Nat := (l.filterMap id).length

theorem countSome_nil {α : Type} : countSome ([] : List (Option α)) = 0 := rfl

theorem countSome_cons_none {α : Type} (l : List (Option α)) :
    countSome (none :: l) = countSome l := rfl

theorem countSome_cons_some {α : Type} (a : α) (l : List (Option α)) :
    countSome (some a :: l) = countSome l + 1 := by
  simp [countSome, Nat.add_comm]

theorem Splitter.next_bytes_eof (encrypt : List Nat → List Nat → String → List Nat)
    (key source : List Nat) (blockSize : Nat) (st : SplitterState)
    (heof : st.eofReached = true) :
    Splitter.next_bytes encrypt key source blockSize st = (none, st) := by
  simp [Splitter.next_bytes, heof]

theorem Splitter.next_bytes_empty (encrypt : List Nat → List Nat → String → List Nat)
    (key source : List Nat) (blockSize : Nat) (st : SplitterState)
    (heof : st.eofReached = false)
    (hdata : readerRead source st.pos blockSize = []) :
    Splitter.next_bytes encrypt key source blockSize st
      = (none, { st with eofReached := true }) := by
  simp [Splitter.next_bytes, heof, hdata]

theorem Splitter.next_bytes_yield (encrypt : List Nat → List Nat → String → List Nat)
    (key source : List Nat) (blockSize : Nat) (st : SplitterState)
    (heof : st.eofReached = false)
    (hdata : ¬ readerRead source st.pos blockSize = []) :
    Splitter.next_bytes encrypt key source blockSize st
      = (some (encrypt key (readerRead source st.pos blockSize)
                ("block_" ++ toString st.counter)),
         { st with pos := st.pos + (readerRead source st.pos blockSize).length,
                   counter := st.counter + 1 }) := by
  simp [Splitter.next_bytes, heof, hdata]

theorem Splitter.run_succ (encrypt : List Nat → List Nat → String → List Nat)
    (key source : List Nat) (blockSize n : Nat) (st : SplitterState) :
    Splitter.run encrypt key source blockSize (n + 1) st
      = ((Splitter.next_bytes encrypt key source blockSize st).1
          :: (Splitter.run encrypt key source blockSize n
              (Splitter.next_bytes encrypt key source blockSize st).2).1,
         (Splitter.run encrypt key source blockSize n
              (Splitter.next_bytes encrypt key source blockSize st).2).2) := by
  cases h : Splitter.next_bytes encrypt key source blockSize st with
  | mk o s => simp [Splitter.run, h]

/-- Invariant of a splitter run: the final counter advances by the number of
yielded blocks, and every call that yields a block seals it with the info
counter `st.counter + (number of blocks yielded before it)`. -/
theorem Splitter.run_invariant (encrypt : List Nat → List Nat → String → List Nat)
    (key source : List Nat) (blockSize : Nat) (n : Nat) (st : SplitterState) :
    (Splitter.run encrypt key source blockSize n st).2.counter
        = st.counter + countSome (Splitter.run encrypt key source blockSize n st).1 ∧
    (∀ i b, (Splitter.run encrypt key source blockSize n st).1[i]?
            = some (some b) →
      ∃ d, b = encrypt key d
        ("block_" ++ toString (st.counter +
          countSome ((Splitter.run encrypt key source blockSize n st).1.take i)))) := by
  induction n generalizing st with
  | zero =>
    refine ⟨rfl, ?_⟩
    intro i b h
    rw [show (Splitter.run encrypt key source blockSize 0 st).1 = [] from rfl] at h
    simp at h
  | succ n ih =>
    rw [Splitter.run_succ]
    by_cases heof : st.eofReached = true
    · rw [Splitter.next_bytes_eof encrypt key source blockSize st heof]
      obtain ⟨ih1, ih2⟩ := ih st
      refine ⟨by simpa [countSome_cons_none] using ih1, ?_⟩
      intro i b hb
      match i, hb with
      | 0, hb => exact absurd hb (by simp)
      | i + 1, hb =>
        simp only [List.getElem?_cons_succ] at hb
        obtain ⟨d, hd⟩ := ih2 i b hb
        exact ⟨d, by simpa [countSome_cons_none] using hd⟩
    · replace heof : st.eofReached = false := by
        cases h : st.eofReached
        · rfl
        · exact absurd h heof
      by_cases hdata : readerRead source st.pos blockSize = []
      · rw [Splitter.next_bytes_empty encrypt key source blockSize st heof hdata]
        obtain ⟨ih1, ih2⟩ := ih { st with eofReached := true }
        refine ⟨by simpa [countSome_cons_none] using ih1, ?_⟩
        intro i b hb
        match i, hb with
        | 0, hb => exact absurd hb (by simp)
        | i + 1, hb =>
          simp only [List.getElem?_cons_succ] at hb
          obtain ⟨d, hd⟩ := ih2 i b hb
          exact ⟨d, by simpa [countSome_cons_none] using hd⟩
      · rw [Splitter.next_bytes_yield encrypt key source blockSize st heof hdata]
        obtain ⟨ih1, ih2⟩ :=
          ih { st with pos := st.pos + (readerRead source st.pos blockSize).length,
                       counter := st.counter + 1 }
        refine ⟨?_, ?_⟩
        · simp only [countSome_cons_some, ih1]
          omega
        · intro i b hb
          match i, hb with
          | 0, hb =>
            simp only [List.getElem?_cons_zero, Option.some.injEq] at hb
            exact ⟨readerRead source st.pos blockSize,
              by simp [← hb, countSome_nil]⟩
          | i + 1, hb =>
            simp only [List.getElem?_cons_succ] at hb
            obtain ⟨d, hd⟩ := ih2 i b hb
            refine ⟨d, ?_⟩
            simp only [List.take_succ_cons, countSome_cons_some] at hd ⊢
            convert hd using 4
            omega

/-- C10.  End-of-stream in `Splitter` is sticky and the counter counts
exactly the yielded blocks: once `next_bytes` returns `None` the EOF flag is
set and every further call returns `None` with the state (counter included)
unchanged, without reading or encrypting; in a run from the initial state the
final counter equals the number of yielded blocks and the `i`-th yielded
block (0-indexed) is sealed with info string `"block_i"` (the number of
blocks yielded before it), so the info counters are consecutive from 0; and
`reset()` restores counter 0 and clears the EOF flag. -/
theorem splitter_eof_sticky_counter_info
    (encrypt : List Nat → List Nat → String → List Nat)
    (key source : List Nat) (blockSize : Nat) :
    (∀ st, st.eofReached = true →
      Splitter.next_bytes encrypt key source blockSize st = (none, st)) ∧
    (∀ st st', Splitter.next_bytes encrypt key source blockSize st = (none, st') →
      st'.eofReached = true ∧ st'.counter = st.counter) ∧
    (∀ n,
      (Splitter.run encrypt key source blockSize n SplitterState.init).2.counter
        = countSome (Splitter.run encrypt key source blockSize n SplitterState.init).1 ∧
      (∀ i b,
        (Splitter.run encrypt key source blockSize n SplitterState.init).1[i]?
          = some (some b) →
        ∃ d, b = encrypt key d ("block_" ++ toString
          (countSome ((Splitter.run encrypt key source blockSize n
            SplitterState.init).1.take i))))) ∧
    (∀ st, (Splitter.reset st).counter = 0 ∧ (Splitter.reset st).eofReached = false) := by
  refine ⟨?_, ?_, ?_, ?_⟩
  · intro st h
    exact Splitter.next_bytes_eof encrypt key source blockSize st h
  · intro st st' h
    by_cases heof : st.eofReached = true
    · rw [Splitter.next_bytes_eof encrypt key source blockSize st heof] at h
      cases h
      exact ⟨heof, rfl⟩
    · replace heof : st.eofReached = false := by
        cases hh : st.eofReached
        · rfl
        · exact absurd hh heof
      by_cases hdata : readerRead source st.pos blockSize = []
      · rw [Splitter.next_bytes_empty encrypt key source blockSize st heof hdata] at h
        cases h
        exact ⟨rfl, rfl⟩
      · rw [Splitter.next_bytes_yield encrypt key source blockSize st heof hdata] at h
        exact absurd (congrArg Prod.fst h) (by simp)
  · intro n
    have h := Splitter.run_invariant encrypt key source blockSize n SplitterState.init
    exact ⟨by simpa [SplitterState.init] using h.1,
      fun i b hb => by simpa [SplitterState.init] using h.2 i b hb⟩
  · intro st
    exact ⟨rfl, rfl⟩

/-- Witness for C10 at concrete inputs: a sticky-EOF state stays unchanged,
a 3-step run over a 2-byte source with block size 1 yields two blocks with
info counters 0 and 1 and final counter 2, and `reset` zeroes the state. -/
theorem splitter_eof_sticky_counter_info_witness :
    Splitter.next_bytes (fun _ d _ => d) [0] [1, 2] 1 ⟨0, 5, true⟩
      = (none, ⟨0, 5, true⟩) ∧
    (Splitter.run (fun _ d _ => d) [0] [1, 2] 1 3 SplitterState.init).2.counter
      = countSome (Splitter.run (fun _ d _ => d) [0] [1, 2] 1 3 SplitterState.init).1 := by
  have h := splitter_eof_sticky_counter_info (fun _ d _ => d) [0] [1, 2] 1
  exact ⟨h.1 ⟨0, 5, true⟩ rfl, (h.2.2.1 3).1⟩

/-- Invariant of a sane `NonceManager` run: if the cached nonce (when set) is
at least `bound`, the outputs are strictly increasing and all at least
`bound`. -/
theorem NonceManager.run_mono (es : List NonceEvent) :
    ∀ (st : NonceState) (bound : Nat),
    NonceManager.sane st bound es = true →
    (∀ v, st.nonce = some v → bound ≤ v) →
    StrictlyIncreasing (NonceManager.run st es).1 ∧
      ∀ o ∈ (NonceManager.run st es).1, bound ≤ o := by
  induction es with
  | nil =>
    intro st bound _ _
    exact ⟨List.chain'_nil, by intro o ho; simp [NonceManager.run] at ho⟩
  | cons e es ih =>
    intro st bound hsane hb
    cases e with
    | reset =>
      simp only [NonceManager.run, NonceManager.sane] at hsane ⊢
      exact ih _ bound hsane (by intro v hv; simp [NonceManager.reset_nonce] at hv)
    | get now cnt =>
      simp only [NonceManager.run, NonceManager.sane, Bool.and_eq_true,
        Bool.or_eq_true, Bool.not_eq_true', decide_eq_true_eq] at hsane ⊢
      by_cases hre : NonceManager.resyncs st now
      · have hcnt : bound ≤ cnt := by
          rcases hsane.1 with h | h
          · exact absurd hre (by simp [h])
          · exact h
        have hstep : NonceManager.get_nonce st now cnt
            = (cnt, ⟨some (cnt + 1), now⟩) := by
          simp [NonceManager.get_nonce, hre]
        rw [hstep] at hsane ⊢
        obtain ⟨ih1, ih2⟩ := ih ⟨some (cnt + 1), now⟩ (cnt + 1) hsane.2
          (by intro v hv; simp at hv; omega)
        refine ⟨?_, ?_⟩
        · refine List.chain'_cons'.2 ⟨?_, ih1⟩
          intro b hbmem
          have : cnt + 1 ≤ b := ih2 b (List.mem_of_mem_head? hbmem)
          omega
        · intro o ho
          rcases List.mem_cons.1 ho with h | h
          · omega
          · have := ih2 o h; omega
      · cases hv : st.nonce with
        | none =>
          exact absurd (by simp [NonceManager.resyncs, hv]) hre
        | some v =>
          have hstep : NonceManager.get_nonce st now cnt
              = (v, ⟨some (v + 1), st.lastSync⟩) := by
            simp [NonceManager.get_nonce, hre, hv]
          rw [hstep] at hsane ⊢
          have hbv : bound ≤ v := hb v hv
          obtain ⟨ih1, ih2⟩ := ih ⟨some (v + 1), st.lastSync⟩ (v + 1) hsane.2
            (by intro w hw; simp at hw; omega)
          refine ⟨?_, ?_⟩
          · refine List.chain'_cons'.2 ⟨?_, ih1⟩
            intro b hbmem
            have : v + 1 ≤ b := ih2 b (List.mem_of_mem_head? hbmem)
            omega
          · intro o ho
            rcases List.mem_cons.1 ho with h | h
            · omega
            · have := ih2 o h; omega

/-- C8 counterexample.  Two `get_nonce` calls 40 seconds apart, where the
node still reports transaction count 5 at the second resync, return nonces
`[5, 5]` — not strictly increasing.  This refutes the claim that every
sequence of `get_nonce` calls (including ones that resync) returns strictly
increasing nonces. -/
theorem nonce_monotonic_counterexample :
    (NonceManager.run NonceState.init
        [NonceEvent.get 0 5, NonceEvent.get 40 5]).1 = [5, 5] ∧
    ¬ StrictlyIncreasing
        (NonceManager.run NonceState.init
          [NonceEvent.get 0 5, NonceEvent.get 40 5]).1 := by
  constructor
  · rfl
  · intro h
    rw [show (NonceManager.run NonceState.init
        [NonceEvent.get 0 5, NonceEvent.get 40 5]).1 = [5, 5] from rfl] at h
    simp [StrictlyIncreasing] at h

/-- C8 (amended).  For every sequence of `get_nonce` / `reset_nonce` calls on
one `NonceManager` — resyncs from the node included — the returned nonces are
strictly increasing, provided every call that triggers a resync receives a
node transaction count larger than all previously returned nonces. -/
theorem nonce_monotonic_of_sane (es : List NonceEvent)
    (hsane : NonceManager.sane NonceState.init 0 es = true) :
    StrictlyIncreasing (NonceManager.run NonceState.init es).1 :=
  (NonceManager.run_mono es NonceState.init 0 hsane
    (by intro v hv; exact Nat.zero_le v)).1

/-- Witness for C8 (amended): a run with an initial sync, a stale resync with
a progressed node count, and a reset, returns strictly increasing nonces. -/
theorem nonce_monotonic_of_sane_witness :
    NonceManager.sane NonceState.init 0
        [NonceEvent.get 0 5, NonceEvent.get 40 7, NonceEvent.reset,
          NonceEvent.get 41 9] = true ∧
    StrictlyIncreasing (NonceManager.run NonceState.init
        [NonceEvent.get 0 5, NonceEvent.get 40 7, NonceEvent.reset,
          NonceEvent.get 41 9]).1 :=
  ⟨by decide, nonce_monotonic_of_sane _ (by decide)⟩

/-! ## EIP-712 (`private/eip712.py`)

keccak-256 and UTF-8 encoding are external collaborators taken as function
parameters (`keccak`, `utf8`).  Python values appearing in typed-data
messages are modelled by the `Value` inductive; Python dicts by association
lists in insertion order. -/

/-- `eip712.TypedData`: a named, typed field. -/
structure TypedData where
  name : String
  type : String
  deriving Repr, DecidableEq

/-- `eip712.Domain`. -/
structure Domain where
  name : String
  version : String
  chain_id : Int
  verifying_contract : String
  deriving Repr, DecidableEq

/-- A Python value put into a typed-data message: a string, a byte string,
or an integer. -/
inductive Value where
  | vstr (s : String)
  | vbytes (b : List Nat)
  | vint (n : Int)
  deriving Repr, DecidableEq

/-- Dict lookup (first match wins, like a Python dict with unique keys). -/
def lookup {α : Type} (d : List (String × α)) (key : String) : Option α :=
  match d.find? (fun p => p.1 = key) with
  | some p => some p.2
  | none => none

/-- Big-endian byte encoding of `n` on `w` bytes (`int.to_bytes(w, "big")`,
and the big-endian words of `struct.pack`). -/
def beBytes : Nat → Nat → List Nat
  | 0, _ => []
  | w + 1, n => beBytes w (n / 256) ++ [n % 256]

/-- ASCII lowercasing of one character (`str.lower` on the characters that
occur in hex addresses). -/
def lowerChar (c : Char) : Char :=
  if 'A' ≤ c ∧ c ≤ 'Z' then Char.ofNat (c.toNat + 32) else c

/-- ASCII lowercasing of a string. -/
def lowerStr (s : String) : String := String.mk (s.data.map lowerChar)

/-- Value of a lowercase hex digit (`bytes.fromhex` after `str.lower`). -/
def hexDigitVal (c : Char) : Option Nat :=
  if '0' ≤ c ∧ c ≤ '9' then some (c.toNat - 48)
  else if 'a' ≤ c ∧ c ≤ 'f' then some (c.toNat - 87)
  else none

/-- The six ASCII whitespace characters that CPython's `bytes.fromhex`
skips between byte pairs (`Py_ISSPACE`): space, tab, LF, VT, FF, CR. -/
def isHexSpace (c : Char) : Bool :=
  c.toNat == 32 || c.toNat == 9 || c.toNat == 10 || c.toNat == 11 ||
  c.toNat == 12 || c.toNat == 13

/-- `bytes.fromhex`: ASCII whitespace is skipped before each byte and at
the end; otherwise two adjacent hex digits make one byte.  An odd trailing
digit, whitespace splitting a pair, or any other character is an error. -/
def fromHexPairs : List Char → Option (List Nat)
  | [] => some []
  | [c] => if isHexSpace c then some [] else none
  | c1 :: c2 :: rest =>
    if isHexSpace c1 then fromHexPairs (c2 :: rest)
    else
      match hexDigitVal c1, hexDigitVal c2, fromHexPairs rest with
      | some h, some l, some bs => some ((h * 16 + l) :: bs)
      | _, _, _ => none

/-- Strip a leading `0x` from a character list. -/
def strip0x (l : List Char) : List Char :=
  match l with
  | c1 :: c2 :: rest => if c1 = '0' ∧ c2 = 'x' then rest else l
  | _ => l

/-- `2 ** 64`, the exclusive upper bound of `uint64`. -/
def UINT64_BOUND : Int := 2 ^ 64

/-- `2 ** 256`, the exclusive upper bound of `uint256` (where
`int.to_bytes(32, "big")` overflows). -/
def UINT256_BOUND : Int := 2 ^ 256

section EIP712

variable (keccak : List Nat → List Nat) (utf8 : String → List Nat)

/-- `eip712.encode_value`: encode one field value of the given EIP-712
atomic type.  The address-string branch mirrors the source exactly: after
the length-40 check, `bytes.fromhex` may decode fewer than 20 bytes when
the string contains ASCII whitespace, and the `buf[12:32] = addr_bytes`
bytearray slice assignment resizes, so the result is the 12 zero bytes
followed by whatever `fromhex` decoded (not necessarily 32 bytes). -/
def encode_value (value : Value) (type_name : String) : Except String (List Nat) :=
  if type_name = "string" then
    match value with
    | Value.vstr s => Except.ok (keccak (utf8 s))
    | _ => Except.error "expected string"
  else if type_name = "bytes" then
    match value with
    | Value.vbytes b => Except.ok (keccak b)
    | _ => Except.error "expected bytes"
  else if type_name = "bytes32" then
    match value with
    | Value.vbytes b =>
      if b.length = 32 then Except.ok b
      else Except.error ("expected 32 bytes, got " ++ toString b.length)
    | _ => Except.error "expected bytes32"
  else if type_name = "uint8" then
    match value with
    | Value.vint n =>
      if 0 ≤ n ∧ n ≤ 255 then
        Except.ok (List.replicate 31 0 ++ [n.toNat])
      else Except.error ("uint8 value out of range: " ++ toString n)
    | _ => Except.error "expected int"
  else if type_name = "uint64" then
    match value with
    | Value.vint n =>
      if 0 ≤ n ∧ n < UINT64_BOUND then
        Except.ok (List.replicate 24 0 ++ beBytes 8 n.toNat)
      else Except.error ("uint64 value out of range: " ++ toString n)
    | _ => Except.error "expected int"
  else if type_name = "uint256" then
    match value with
    | Value.vint n =>
      if 0 ≤ n then
        if n < UINT256_BOUND then Except.ok (beBytes 32 n.toNat)
        else Except.error "OverflowError: int too big to convert"
      else Except.error ("uint256 cannot be negative: " ++ toString n)
    | _ => Except.error "expected int for uint256"
  else if type_name = "address" then
    match value with
    | Value.vstr s =>
      let addrChars := strip0x (lowerStr s).data
      if addrChars.length = 40 then
        match fromHexPairs addrChars with
        | some addrBytes => Except.ok (List.replicate 12 0 ++ addrBytes)
        | none => Except.error "non-hexadecimal number found in fromhex"
      else Except.error ("invalid address length: " ++ toString addrChars.length)
    | Value.vbytes b =>
      if b.length = 20 then Except.ok (List.replicate 12 0 ++ b)
      else Except.error ("address must be 20 bytes, got " ++ toString b.length)
    | _ => Except.error "expected string or bytes for address"
  else
    Except.error ("unsupported type: " ++ type_name)

/-- `eip712.encode_type`: `primaryType(type1 name1,type2 name2,...)` built
with the source's first-element flag fold. -/
def encode_type (primary : String) (types : List (String × List TypedData)) :
    Except String String :=
  match lookup types primary with
  | none => Except.error ("KeyError: " ++ primary)
  | some fields =>
    let body := fields.foldl
      (fun (acc : String × Bool) f =>
        (acc.1 ++ (if acc.2 then "" else ",") ++ f.type ++ " " ++ f.name, false))
      ("", true)
    Except.ok (primary ++ "(" ++ body.1 ++ ")")

/-- `eip712.type_hash`. -/
def type_hash (primary : String) (types : List (String × List TypedData)) :
    Except String (List Nat) :=
  (encode_type primary types).map (fun s => keccak (utf8 s))

/-- `eip712.encode_data`: `keccak(typeHash ‖ concat(encode(field)))`. -/
def encode_data (primary : String) (data : List (String × Value))
    (types : List (String × List TypedData)) : Except String (List Nat) := do
  let th ← type_hash keccak utf8 primary types
  match lookup types primary with
  | none => Except.error ("KeyError: " ++ primary)
  | some fields =>
    let encs ← fields.mapM (fun f =>
      match lookup data f.name with
      | none => Except.error ("KeyError: " ++ f.name)
      | some v => encode_value keccak utf8 v f.type)
    Except.ok (keccak (th ++ encs.flatten))

/-- The hardcoded `EIP712Domain` field list of `hash_typed_data`. -/
def domainFields : List TypedData :=
  [⟨"name", "string"⟩, ⟨"version", "string"⟩, ⟨"chainId", "uint256"⟩,
   ⟨"verifyingContract", "address"⟩]

/-- The domain message dict built inside `hash_typed_data`. -/
def domainMessage (domain : Domain) : List (String × Value) :=
  [("name", Value.vstr domain.name), ("version", Value.vstr domain.version),
   ("chainId", Value.vint domain.chain_id),
   ("verifyingContract", Value.vstr domain.verifying_contract)]

/-- `eip712.hash_typed_data`:
`keccak256(0x19 ‖ 0x01 ‖ domainHash ‖ structHash)`. -/
def hash_typed_data (domain : Domain) (data_message : List (String × Value))
    (data_types : List (String × List TypedData)) : Except String (List Nat) := do
  let domain_hash ← encode_data keccak utf8 "EIP712Domain" (domainMessage domain)
    [("EIP712Domain", domainFields)]
  let data_hash ← encode_data keccak utf8 "StorageData" data_message data_types
  Except.ok (keccak (0x19 :: 0x01 :: (domain_hash ++ data_hash)))

/-- `eip712.sign`, with the secp256k1 signer of `eth_keys` taken as a
parameter.  Modelled from the spec: `libSign key digest` stands for
`PrivateKey(key).sign_msg_hash(digest)`, returning the 64 bytes `r ‖ s`
and the recovery id `v`; `to_bytes()` is their concatenation. -/
def sign {Key : Type} (libSign : Key → List Nat → List Nat × Nat) (key : Key)
    (domain : Domain) (data_message : List (String × Value))
    (data_types : List (String × List TypedData)) : Except String (List Nat) := do
  let typed_data_hash ← hash_typed_data keccak utf8 domain data_message data_types
  let rsv := libSign key typed_data_hash
  let signature_bytes := rsv.1 ++ [rsv.2]
  let v := signature_bytes.getD 64 0
  let v_out := if v = 0 ∨ v = 1 then v + 27 else v
  Except.ok (signature_bytes.take 64 ++ [v_out])

/-- `eip712.recover_signer_address`, with the secp256k1 recovery of
`eth_keys` taken as a parameter.  Modelled from the spec: `libRecover rs v
digest` stands for
`Signature(rs ‖ v).recover_public_key_from_msg_hash(digest).to_checksum_address()`,
which requires a recovery id in `{0, 1}`. -/
def recover_signer_address {Addr : Type}
    (libRecover : List Nat → Nat → List Nat → Addr) (signature : List Nat)
    (domain : Domain) (data_message : List (String × Value))
    (data_types : List (String × List TypedData)) : Except String Addr := do
  let hash_bytes ← hash_typed_data keccak utf8 domain data_message data_types
  let v0 := signature.getD 64 0
  let v := if 27 ≤ v0 then v0 - 27 else v0
  if v < 2 then Except.ok (libRecover (signature.take 64) v hash_bytes)
  else Except.error "BadSignature: invalid recovery id"

end EIP712

/-! ### Spec-side EIP-712 definitions

These follow the wording of the specification (§4.2) rather than that of the
source, to be compared with the source embedding above. -/

/-- `commaJoin` from the spec. -/
def specCommaJoin : List String → String
  | [] => ""
  | [x] => x
  | x :: y :: rest => x ++ "," ++ specCommaJoin (y :: rest)

/-- Spec §4.2: `primaryType ‖ "(" ‖ commaJoin(fieldType ‖ " " ‖ fieldName) ‖ ")"`. -/
def specEncodeType (primary : String) (fields : List TypedData) : String :=
  primary ++ "(" ++ specCommaJoin (fields.map (fun f => f.type ++ " " ++ f.name)) ++ ")"

/-- Big-endian, left-zero-padded to `w` bytes, as a direct indexing formula. -/
def specBe (w n : Nat) : List Nat :=
  (List.range w).map (fun i => n / 256 ^ (w - 1 - i) % 256)

/-- Case-insensitive hex digit value. -/
def hexDigitValCI (c : Char) : Option Nat :=
  if '0' ≤ c ∧ c ≤ '9' then some (c.toNat - 48)
  else if 'a' ≤ c ∧ c ≤ 'f' then some (c.toNat - 87)
  else if 'A' ≤ c ∧ c ≤ 'F' then some (c.toNat - 55)
  else none

/-- Decode pairs of case-insensitive hex digits. -/
def fromHexPairsCI : List Char → Option (List Nat)
  | [] => some []
  | [_] => none
  | c1 :: c2 :: rest =>
    match hexDigitValCI c1, hexDigitValCI c2, fromHexPairsCI rest with
    | some h, some l, some bs => some ((h * 16 + l) :: bs)
    | _, _, _ => none

/-- Strip a leading `0x` or `0X`. -/
def stripHexPrefixCI (l : List Char) : List Char :=
  match l with
  | c1 :: c2 :: rest => if c1 = '0' ∧ (c2 = 'x' ∨ c2 = 'X') then rest else l
  | _ => l

/-- Spec §4.2: the 20 address bytes of a value that is either 20 raw bytes
or 40 hex digits with an optional `0x` prefix. -/
def specAddressBytes : Value → Option (List Nat)
  | Value.vbytes b => if b.length = 20 then some b else none
  | Value.vstr s =>
    let cs := stripHexPrefixCI s.data
    if cs.length = 40 then fromHexPairsCI cs else none
  | _ => none

section EIP712Spec

variable (keccak : List Nat → List Nat) (utf8 : String → List Nat)

/-- Spec §4.2, the per-atomic-type encoding table. -/
def specEncodeValue (value : Value) (type_name : String) : Option (List Nat) :=
  if type_name = "string" then
    match value with
    | Value.vstr s => some (keccak (utf8 s))
    | _ => none
  else if type_name = "bytes" then
    match value with
    | Value.vbytes b => some (keccak b)
    | _ => none
  else if type_name = "bytes32" then
    match value with
    | Value.vbytes b => if b.length = 32 then some b else none
    | _ => none
  else if type_name = "uint8" then
    match value with
    | Value.vint n => if 0 ≤ n ∧ n < 2 ^ 8 then some (specBe 32 n.toNat) else none
    | _ => none
  else if type_name = "uint64" then
    match value with
    | Value.vint n => if 0 ≤ n ∧ n < UINT64_BOUND then some (specBe 32 n.toNat) else none
    | _ => none
  else if type_name = "uint256" then
    match value with
    | Value.vint n => if 0 ≤ n ∧ n < UINT256_BOUND then some (specBe 32 n.toNat) else none
    | _ => none
  else if type_name = "address" then
    (specAddressBytes value).map (fun b => List.replicate 12 0 ++ b)
  else
    none

/-- Spec §4.2: `keccak(typeHash ‖ concat(encode(field)))` over the struct's
fields in declared order. -/
def specHashStruct (primary : String) (fields : List TypedData)
    (msg : List (String × Value)) : Option (List Nat) := do
  let encs ← fields.mapM (fun f =>
    (lookup msg f.name).bind (fun v => specEncodeValue keccak utf8 v f.type))
  some (keccak (keccak (utf8 (specEncodeType primary fields)) ++ encs.flatten))

/-- Spec §4.2: `keccak256(0x1901 ‖ domainSeparator ‖ structHash)`. -/
def specTypedDataHash (domain : Domain) (msg : List (String × Value))
    (types : List (String × List TypedData)) : Option (List Nat) := do
  let fields ← lookup types "StorageData"
  let dh ← specHashStruct keccak utf8 "EIP712Domain" domainFields (domainMessage domain)
  let sh ← specHashStruct keccak utf8 "StorageData" fields msg
  some (keccak ([0x19, 0x01] ++ dh ++ sh))

end EIP712Spec

/-! ### Byte-encoding lemmas -/

theorem beBytes_length (w n : Nat) : (beBytes w n).length = w := by
  induction w generalizing n with
  | zero => rfl
  | succ w ih => simp [beBytes, ih]

theorem beBytes_zero (w : Nat) : beBytes w 0 = List.replicate w 0 := by
  induction w with
  | zero => rfl
  | succ w ih => simp [beBytes, ih, List.replicate_succ']

theorem specBe_succ (w n : Nat) :
    specBe (w + 1) n = specBe w (n / 256) ++ [n % 256] := by
  unfold specBe
  rw [List.range_succ, List.map_append]
  congr 1
  · apply List.map_congr_left
    intro i hi
    have hi' : i < w := List.mem_range.1 hi
    have : w + 1 - 1 - i = (w - 1 - i) + 1 := by omega
    rw [this, pow_succ, Nat.div_div_eq_div_mul, Nat.mul_comm]
  · simp

theorem beBytes_eq_specBe (w n : Nat) : beBytes w n = specBe w n := by
  induction w generalizing n with
  | zero => rfl
  | succ w ih => rw [beBytes, specBe_succ, ih]

theorem beBytes_zero_extend (w k n : Nat) (h : n < 256 ^ w) :
    beBytes (k + w) n = List.replicate k 0 ++ beBytes w n := by
  induction w generalizing n with
  | zero =>
    interval_cases n
    simp [beBytes, beBytes_zero]
  | succ w ih =>
    have : k + (w + 1) = (k + w) + 1 := by omega
    rw [this, beBytes, ih (n / 256) (by
      have : 256 ^ (w + 1) = 256 ^ w * 256 := pow_succ 256 w
      omega), beBytes, List.append_assoc]

/-! ### Hex digit and lowercasing lemmas -/

theorem lowerChar_eq_self_of_not_upper (c : Char) (h : ¬ ('A' ≤ c ∧ c ≤ 'Z')) :
    lowerChar c = c := by
  simp [lowerChar, h]

theorem hexDigitVal_lowerChar (c : Char) :
    hexDigitVal (lowerChar c) = hexDigitValCI c := by
  unfold lowerChar hexDigitVal hexDigitValCI
  by_cases hup : 'A' ≤ c ∧ c ≤ 'Z'
  · have hval : (c.toNat + 32).isValidChar := by
      rcases hup with ⟨h1, h2⟩
      have l1 : 65 ≤ c.toNat := h1
      have l2 : c.toNat ≤ 90 := h2
      left
      omega
    have htn : (Char.ofNat (c.toNat + 32)).toNat = c.toNat + 32 := by
      rw [Char.ofNat, dif_pos hval]
      rfl
    rcases hup with ⟨h1, h2⟩
    have l1 : 65 ≤ c.toNat := h1
    have l2 : c.toNat ≤ 90 := h2
    simp only [if_pos (And.intro h1 h2)]
    have hle : ∀ a b : Char, (a ≤ b) = (a.toNat ≤ b.toNat) := fun a b => rfl
    by_cases hAF : c.toNat ≤ 70
    · have c1 : ¬ (('0' : Char) ≤ Char.ofNat (c.toNat + 32) ∧
          Char.ofNat (c.toNat + 32) ≤ '9') := by
        intro ⟨ha, hb⟩
        have : (Char.ofNat (c.toNat + 32)).toNat ≤ 57 := hb
        omega
      have c2 : ('a' : Char) ≤ Char.ofNat (c.toNat + 32) ∧
          Char.ofNat (c.toNat + 32) ≤ 'f' := by
        constructor
        · show (97 : Nat) ≤ (Char.ofNat (c.toNat + 32)).toNat
          omega
        · show (Char.ofNat (c.toNat + 32)).toNat ≤ 102
          omega
      have c3 : ¬ (('0' : Char) ≤ c ∧ c ≤ '9') := by
        intro ⟨_, hb⟩
        have : c.toNat ≤ 57 := hb
        omega
      have c4 : ¬ (('a' : Char) ≤ c ∧ c ≤ 'f') := by
        intro ⟨ha, _⟩
        have : 97 ≤ c.toNat := ha
        omega
      have c5 : ('A' : Char) ≤ c ∧ c ≤ 'F' := by
        refine ⟨h1, ?_⟩
        show c.toNat ≤ 70
        exact hAF
      rw [if_neg c1, if_pos c2, if_neg c3, if_neg c4, if_pos c5, htn]
      all_goals simp only [Option.some.injEq]
      all_goals omega
    · have c1 : ¬ (('0' : Char) ≤ Char.ofNat (c.toNat + 32) ∧
          Char.ofNat (c.toNat + 32) ≤ '9') := by
        intro ⟨_, hb⟩
        have : (Char.ofNat (c.toNat + 32)).toNat ≤ 57 := hb
        omega
      have c2 : ¬ (('a' : Char) ≤ Char.ofNat (c.toNat + 32) ∧
          Char.ofNat (c.toNat + 32) ≤ 'f') := by
        intro ⟨_, hb⟩
        have : (Char.ofNat (c.toNat + 32)).toNat ≤ 102 := hb
        omega
      have c3 : ¬ (('0' : Char) ≤ c ∧ c ≤ '9') := by
        intro ⟨_, hb⟩
        have : c.toNat ≤ 57 := hb
        omega
      have c4 : ¬ (('a' : Char) ≤ c ∧ c ≤ 'f') := by
        intro ⟨ha, _⟩
        have : 97 ≤ c.toNat := ha
        omega
      have c5 : ¬ (('A' : Char) ≤ c ∧ c ≤ 'F') := by
        intro ⟨_, hb⟩
        have : c.toNat ≤ 70 := hb
        omega
      rw [if_neg c1, if_neg c2, if_neg c3, if_neg c4, if_neg c5]
  · simp only [if_neg hup]
    by_cases h09 : ('0' : Char) ≤ c ∧ c ≤ '9'
    · rw [if_pos h09, if_pos h09]
    · rw [if_neg h09, if_neg h09]
      by_cases haf : ('a' : Char) ≤ c ∧ c ≤ 'f'
      · rw [if_pos haf, if_pos haf]
      · rw [if_neg haf, if_neg haf]
        have hAF : ¬ (('A' : Char) ≤ c ∧ c ≤ 'F') := by
          intro ⟨ha, hb⟩
          refine hup ⟨ha, ?_⟩
          have h70 : c.toNat ≤ 70 := hb
          show c.toNat ≤ 90
          omega
        rw [if_neg hAF]

theorem isHexSpace_lowerChar (c : Char) :
    isHexSpace (lowerChar c) = isHexSpace c := by
  unfold lowerChar
  by_cases hup : 'A' ≤ c ∧ c ≤ 'Z'
  · have l1 : 65 ≤ c.toNat := hup.1
    have l2 : c.toNat ≤ 90 := hup.2
    have hval : (c.toNat + 32).isValidChar := Or.inl (by omega)
    have htn : (Char.ofNat (c.toNat + 32)).toNat = c.toNat + 32 := by
      rw [Char.ofNat, dif_pos hval]
      rfl
    rw [if_pos hup]
    have hl : isHexSpace (Char.ofNat (c.toNat + 32)) = false := by
      unfold isHexSpace
      rw [htn]
      simp only [Bool.or_eq_false_iff, beq_eq_false_iff_ne, ne_eq]
      omega
    have hr : isHexSpace c = false := by
      unfold isHexSpace
      simp only [Bool.or_eq_false_iff, beq_eq_false_iff_ne, ne_eq]
      omega
    rw [hl, hr]
  · rw [if_neg hup]

theorem fromHexPairs_map_lowerChar : ∀ cs : List Char,
    (∀ c ∈ cs, isHexSpace c = false) →
    fromHexPairs (cs.map lowerChar) = fromHexPairsCI cs
  | [], _ => rfl
  | [c], h => by
    have hc : isHexSpace (lowerChar c) = false := by
      rw [isHexSpace_lowerChar]
      exact h c (by simp)
    show fromHexPairs [lowerChar c] = fromHexPairsCI [c]
    unfold fromHexPairs
    rw [hc]
    rfl
  | c1 :: c2 :: rest, h => by
    have hl1 : isHexSpace (lowerChar c1) = false := by
      rw [isHexSpace_lowerChar]
      exact h c1 (by simp)
    have ih := fromHexPairs_map_lowerChar rest (fun c hc => h c (by simp [hc]))
    show fromHexPairs (lowerChar c1 :: lowerChar c2 :: rest.map lowerChar) = _
    unfold fromHexPairs
    rw [hl1]
    simp only [Bool.false_eq_true, if_false, hexDigitVal_lowerChar, ih,
      fromHexPairsCI]

theorem char_eq_of_toNat_eq {c d : Char} (h : c.toNat = d.toNat) : c = d :=
  Char.eq_of_val_eq (UInt32.toNat.inj h)

theorem lowerChar_eq_zero_iff (c : Char) : lowerChar c = '0' ↔ c = '0' := by
  unfold lowerChar
  by_cases hup : 'A' ≤ c ∧ c ≤ 'Z'
  · have l1 : 65 ≤ c.toNat := hup.1
    have l2 : c.toNat ≤ 90 := hup.2
    have hval : (c.toNat + 32).isValidChar := Or.inl (by omega)
    have htn : (Char.ofNat (c.toNat + 32)).toNat = c.toNat + 32 := by
      rw [Char.ofNat, dif_pos hval]
      rfl
    have h0 : ('0' : Char).toNat = 48 := rfl
    rw [if_pos hup]
    constructor
    · intro h
      have h' := congrArg Char.toNat h
      rw [htn, h0] at h'
      omega
    · intro h
      have h' : c.toNat = 48 := h0 ▸ congrArg Char.toNat h
      omega
  · rw [if_neg hup]

theorem lowerChar_eq_x_iff (c : Char) : lowerChar c = 'x' ↔ (c = 'x' ∨ c = 'X') := by
  unfold lowerChar
  have hx : ('x' : Char).toNat = 120 := rfl
  have hX : ('X' : Char).toNat = 88 := rfl
  by_cases hup : 'A' ≤ c ∧ c ≤ 'Z'
  · have l1 : 65 ≤ c.toNat := hup.1
    have l2 : c.toNat ≤ 90 := hup.2
    have hval : (c.toNat + 32).isValidChar := Or.inl (by omega)
    have htn : (Char.ofNat (c.toNat + 32)).toNat = c.toNat + 32 := by
      rw [Char.ofNat, dif_pos hval]
      rfl
    rw [if_pos hup]
    constructor
    · intro h
      have h' := congrArg Char.toNat h
      rw [htn, hx] at h'
      exact Or.inr (char_eq_of_toNat_eq (by rw [hX]; omega))
    · intro h
      rcases h with h | h
      · have h' : c.toNat = 120 := hx ▸ congrArg Char.toNat h
        omega
      · subst h
        exact char_eq_of_toNat_eq (by rw [htn, hX, hx])
  · rw [if_neg hup]
    constructor
    · exact Or.inl
    · intro h
      rcases h with h | h
      · exact h
      · subst h
        exact absurd ⟨by decide, by decide⟩ hup

theorem strip0x_map_lowerChar (l : List Char) :
    strip0x (l.map lowerChar) = (stripHexPrefixCI l).map lowerChar := by
  match l with
  | [] => rfl
  | [c] => rfl
  | c1 :: c2 :: rest =>
    simp only [List.map_cons, strip0x, stripHexPrefixCI]
    by_cases h : c1 = '0' ∧ (c2 = 'x' ∨ c2 = 'X')
    · rw [if_pos ⟨(lowerChar_eq_zero_iff c1).2 h.1, (lowerChar_eq_x_iff c2).2 h.2⟩,
        if_pos h]
    · rw [if_neg (fun hc => h ⟨(lowerChar_eq_zero_iff c1).1 hc.1,
        (lowerChar_eq_x_iff c2).1 hc.2⟩), if_neg h]
      simp

theorem fromHexPairs_length : ∀ cs bs, (∀ c ∈ cs, isHexSpace c = false) →
    fromHexPairs cs = some bs → 2 * bs.length = cs.length
  | [], bs, _ => by
    intro h
    cases h
    rfl
  | [c], bs, hns => by
    intro h
    unfold fromHexPairs at h
    rw [hns c (by simp)] at h
    simp at h
  | c1 :: c2 :: rest, bs, hns => by
    intro h
    unfold fromHexPairs at h
    have hc1 : ¬ isHexSpace c1 = true := by
      rw [hns c1 (by simp)]
      simp
    rw [if_neg hc1] at h
    cases h1 : hexDigitVal c1 with
    | none => rw [h1] at h; cases h
    | some d1 =>
      cases h2 : hexDigitVal c2 with
      | none => rw [h1, h2] at h; cases h
      | some d2 =>
        cases h3 : fromHexPairs rest with
        | none => rw [h1, h2, h3] at h; cases h
        | some tl =>
          rw [h1, h2, h3] at h
          cases h
          have := fromHexPairs_length rest tl
            (fun c hc => hns c (by simp [hc])) h3
          simp only [List.length_cons]
          omega

theorem fromHexPairsCI_length : ∀ cs bs, fromHexPairsCI cs = some bs →
    2 * bs.length = cs.length
  | [], bs => by
    intro h
    cases h
    rfl
  | [c], bs => by
    intro h
    cases h
  | c1 :: c2 :: rest, bs => by
    intro h
    unfold fromHexPairsCI at h
    cases h1 : hexDigitValCI c1 with
    | none => rw [h1] at h; cases h
    | some d1 =>
      cases h2 : hexDigitValCI c2 with
      | none => rw [h1, h2] at h; cases h
      | some d2 =>
        cases h3 : fromHexPairsCI rest with
        | none => rw [h1, h2, h3] at h; cases h
        | some tl =>
          rw [h1, h2, h3] at h
          cases h
          have := fromHexPairsCI_length rest tl h3
          simp only [List.length_cons]
          omega

theorem beBytes_one (m : Nat) (h : m < 256) : beBytes 1 m = [m] := by
  unfold beBytes beBytes
  rw [Nat.mod_eq_of_lt h]
  rfl

theorem uint8_bytes_eq (m : Nat) (h : m < 256) :
    List.replicate 31 0 ++ [m] = specBe 32 m := by
  rw [← beBytes_one m h, ← beBytes_zero_extend 1 31 m (by simpa using h),
    beBytes_eq_specBe]

theorem uint64_bytes_eq (m : Nat) (h : m < 18446744073709551616) :
    List.replicate 24 0 ++ beBytes 8 m = specBe 32 m := by
  rw [← beBytes_zero_extend 8 24 m (by
      have h8 : (256 : Nat) ^ 8 = 18446744073709551616 := by norm_num
      omega),
    beBytes_eq_specBe]

theorem mem_stripHexPrefixCI (c : Char) : ∀ l : List Char,
    c ∈ stripHexPrefixCI l → c ∈ l
  | [] => fun h => h
  | [d] => fun h => h
  | d1 :: d2 :: rest => by
    intro h
    have h' : c ∈ (if d1 = '0' ∧ (d2 = 'x' ∨ d2 = 'X') then rest
        else d1 :: d2 :: rest) := h
    by_cases hp : d1 = '0' ∧ (d2 = 'x' ∨ d2 = 'X')
    · rw [if_pos hp] at h'
      exact List.mem_cons_of_mem _ (List.mem_cons_of_mem _ h')
    · rw [if_neg hp] at h'
      exact h'

theorem mem_strip0x (c : Char) : ∀ l : List Char, c ∈ strip0x l → c ∈ l
  | [] => fun h => h
  | [d] => fun h => h
  | d1 :: d2 :: rest => by
    intro h
    have h' : c ∈ (if d1 = '0' ∧ d2 = 'x' then rest
        else d1 :: d2 :: rest) := h
    by_cases hp : d1 = '0' ∧ d2 = 'x'
    · rw [if_pos hp] at h'
      exact List.mem_cons_of_mem _ (List.mem_cons_of_mem _ h')
    · rw [if_neg hp] at h'
      exact h'

/-- The proviso under which `bytes.fromhex` whitespace skipping cannot
occur: if the value is typed `address` and given as a string, the string
contains no ASCII whitespace. -/
def addrOK (v : Value) (ty : String) : Prop :=
  ty = "address" →
    match v with
    | Value.vstr s => ∀ c ∈ s.data, isHexSpace c = false
    | _ => True

set_option maxHeartbeats 2000000 in
/-- `encode_value` computes exactly the spec's per-atomic-type table
(`Except` success mapped to `Option`), provided an address given as a
string contains no ASCII whitespace. -/
theorem encode_value_toOption (keccak : List Nat → List Nat)
    (utf8s : String → List Nat) (v : Value) (ty : String) (hv : addrOK v ty) :
    (encode_value keccak utf8s v ty).toOption = specEncodeValue keccak utf8s v ty := by
  unfold encode_value specEncodeValue
  by_cases h1 : ty = "string"
  · rw [if_pos h1, if_pos h1]
    cases v <;> rfl
  rw [if_neg h1, if_neg h1]
  by_cases h2 : ty = "bytes"
  · rw [if_pos h2, if_pos h2]
    cases v <;> rfl
  rw [if_neg h2, if_neg h2]
  by_cases h3 : ty = "bytes32"
  · rw [if_pos h3, if_pos h3]
    cases v with
    | vbytes b =>
      dsimp only
      by_cases hb : b.length = 32
      · rw [if_pos hb, if_pos hb]
        rfl
      · rw [if_neg hb, if_neg hb]
        rfl
    | vstr s => rfl
    | vint n => rfl
  rw [if_neg h3, if_neg h3]
  by_cases h4 : ty = "uint8"
  · rw [if_pos h4, if_pos h4]
    cases v with
    | vint n =>
      dsimp only
      have hpow : (2 : Int) ^ 8 = 256 := by norm_num
      by_cases hr : 0 ≤ n ∧ n ≤ 255
      · rw [if_pos hr, if_pos (show 0 ≤ n ∧ n < 2 ^ 8 by omega)]
        exact congrArg some (uint8_bytes_eq n.toNat (by omega))
      · rw [if_neg hr, if_neg (show ¬ (0 ≤ n ∧ n < 2 ^ 8) by omega)]
        rfl
    | vstr s => rfl
    | vbytes b => rfl
  rw [if_neg h4, if_neg h4]
  by_cases h5 : ty = "uint64"
  · rw [if_pos h5, if_pos h5]
    cases v with
    | vint n =>
      dsimp only
      by_cases hr : 0 ≤ n ∧ n < UINT64_BOUND
      · rw [if_pos hr, if_pos hr]
        refine congrArg some (uint64_bytes_eq n.toNat ?_)
        have hb : UINT64_BOUND = ((18446744073709551616 : Nat) : Int) := by
          norm_num [UINT64_BOUND]
        omega
      · rw [if_neg hr, if_neg hr]
        rfl
    | vstr s => rfl
    | vbytes b => rfl
  rw [if_neg h5, if_neg h5]
  by_cases h6 : ty = "uint256"
  · rw [if_pos h6, if_pos h6]
    cases v with
    | vint n =>
      dsimp only
      by_cases hr0 : 0 ≤ n
      · rw [if_pos hr0]
        by_cases hrl : n < UINT256_BOUND
        · rw [if_pos hrl, if_pos ⟨hr0, hrl⟩]
          exact congrArg some (beBytes_eq_specBe 32 n.toNat)
        · rw [if_neg hrl, if_neg (fun hc => hrl hc.2)]
          rfl
      · rw [if_neg hr0, if_neg (fun hc => hr0 hc.1)]
        rfl
    | vstr s => rfl
    | vbytes b => rfl
  rw [if_neg h6, if_neg h6]
  by_cases h7 : ty = "address"
  · rw [if_pos h7, if_pos h7]
    cases v with
    | vstr s =>
      show ((if (strip0x (lowerStr s).data).length = 40 then _ else _ :
        Except String (List Nat))).toOption = _
      have hdata : (lowerStr s).data = s.data.map lowerChar := rfl
      have hstrip : strip0x (lowerStr s).data
          = (stripHexPrefixCI s.data).map lowerChar := by
        rw [hdata, strip0x_map_lowerChar]
      rw [hstrip]
      unfold specAddressBytes
      dsimp only
      have hns : ∀ c ∈ stripHexPrefixCI s.data, isHexSpace c = false := by
        intro c hc
        exact hv h7 c (mem_stripHexPrefixCI c s.data hc)
      by_cases hlen : (stripHexPrefixCI s.data).length = 40
      · rw [if_pos (by simpa using hlen), if_pos hlen,
          fromHexPairs_map_lowerChar _ hns]
        cases hph : fromHexPairsCI (stripHexPrefixCI s.data) with
        | none => rfl
        | some bs => rfl
      · rw [if_neg (by simpa using hlen), if_neg hlen]
        rfl
    | vbytes b =>
      dsimp only
      unfold specAddressBytes
      dsimp only
      by_cases hb : b.length = 20
      · rw [if_pos hb, if_pos hb]
        rfl
      · rw [if_neg hb, if_neg hb]
        rfl
    | vint n => rfl
  rw [if_neg h7, if_neg h7]
  rfl

set_option maxHeartbeats 2000000 in
/-- Every successful `encode_value` result is exactly 32 bytes, when the
keccak collaborator returns 32-byte digests and an address given as a
string contains no ASCII whitespace. -/
theorem encode_value_length (keccak : List Nat → List Nat)
    (utf8s : String → List Nat) (hk : ∀ bs, (keccak bs).length = 32)
    (v : Value) (ty : String) (r : List Nat) (hv : addrOK v ty)
    (h : encode_value keccak utf8s v ty = Except.ok r) : r.length = 32 := by
  unfold encode_value at h
  by_cases h1 : ty = "string"
  · rw [if_pos h1] at h
    cases v with
    | vstr s =>
      cases h
      exact hk _
    | vbytes b => cases h
    | vint n => cases h
  rw [if_neg h1] at h
  by_cases h2 : ty = "bytes"
  · rw [if_pos h2] at h
    cases v with
    | vbytes b =>
      cases h
      exact hk _
    | vstr s => cases h
    | vint n => cases h
  rw [if_neg h2] at h
  by_cases h3 : ty = "bytes32"
  · rw [if_pos h3] at h
    cases v with
    | vbytes b =>
      dsimp only at h
      by_cases hb : b.length = 32
      · rw [if_pos hb] at h
        cases h
        exact hb
      · rw [if_neg hb] at h
        cases h
    | vstr s => cases h
    | vint n => cases h
  rw [if_neg h3] at h
  by_cases h4 : ty = "uint8"
  · rw [if_pos h4] at h
    cases v with
    | vint n =>
      dsimp only at h
      by_cases hr : 0 ≤ n ∧ n ≤ 255
      · rw [if_pos hr] at h
        cases h
        simp
      · rw [if_neg hr] at h
        cases h
    | vstr s => cases h
    | vbytes b => cases h
  rw [if_neg h4] at h
  by_cases h5 : ty = "uint64"
  · rw [if_pos h5] at h
    cases v with
    | vint n =>
      dsimp only at h
      by_cases hr : 0 ≤ n ∧ n < UINT64_BOUND
      · rw [if_pos hr] at h
        cases h
        simp [beBytes_length]
      · rw [if_neg hr] at h
        cases h
    | vstr s => cases h
    | vbytes b => cases h
  rw [if_neg h5] at h
  by_cases h6 : ty = "uint256"
  · rw [if_pos h6] at h
    cases v with
    | vint n =>
      dsimp only at h
      by_cases hr0 : 0 ≤ n
      · rw [if_pos hr0] at h
        by_cases hrl : n < UINT256_BOUND
        · rw [if_pos hrl, Except.ok.injEq] at h
          rw [← h]
          exact beBytes_length 32 _
        · rw [if_neg hrl] at h
          cases h
      · rw [if_neg hr0] at h
        cases h
    | vstr s => cases h
    | vbytes b => cases h
  rw [if_neg h6] at h
  by_cases h7 : ty = "address"
  · rw [if_pos h7] at h
    cases v with
    | vstr s =>
      dsimp only at h
      by_cases hlen : (strip0x (lowerStr s).data).length = 40
      · rw [if_pos hlen] at h
        cases hph : fromHexPairs (strip0x (lowerStr s).data) with
        | none => rw [hph] at h; cases h
        | some bs =>
          rw [hph] at h
          cases h
          have hns : ∀ c ∈ strip0x (lowerStr s).data, isHexSpace c = false := by
            intro c hc
            have hc2 : c ∈ s.data.map lowerChar := mem_strip0x c _ hc
            obtain ⟨c0, hc0, rfl⟩ := List.mem_map.1 hc2
            rw [isHexSpace_lowerChar]
            exact hv h7 c0 hc0
          have hbs := fromHexPairs_length _ _ hns hph
          rw [hlen] at hbs
          simp only [List.length_append, List.length_replicate]
          omega
      · rw [if_neg hlen] at h
        cases h
    | vbytes b =>
      dsimp only at h
      by_cases hb : b.length = 20
      · rw [if_pos hb] at h
        cases h
        simp [hb]
      · rw [if_neg hb] at h
        cases h
    | vint n => cases h
  rw [if_neg h7] at h
  cases h

/-! ### Correspondence of `encode_type` / `encode_data` / `hash_typed_data`
with the spec-side definitions -/

/-- Comma-prefixed tail of a joined list. -/
def commaTail : List String → String
  | [] => ""
  | x :: rest => "," ++ x ++ commaTail rest

theorem specCommaJoin_eq_commaTail : ∀ (l : List String) (x : String),
    specCommaJoin (x :: l) = x ++ commaTail l
  | [], x => by
    show x = x ++ ""
    rw [String.append_empty]
  | y :: rest, x => by
    show x ++ "," ++ specCommaJoin (y :: rest) = x ++ ("," ++ y ++ commaTail rest)
    rw [specCommaJoin_eq_commaTail rest y]
    simp [String.append_assoc]

theorem encode_type_fold_aux : ∀ (rest : List TypedData) (acc : String),
    (List.foldl
      (fun (a : String × Bool) f =>
        (a.1 ++ (if a.2 then "" else ",") ++ f.type ++ " " ++ f.name, false))
      (acc, false) rest).1
    = acc ++ commaTail (rest.map (fun f => f.type ++ " " ++ f.name))
  | [], acc => by
    show acc = acc ++ commaTail []
    rw [show commaTail [] = "" from rfl, String.append_empty]
  | f :: rest, acc => by
    rw [List.foldl_cons]
    show (List.foldl _ ((acc ++ (if false then "" else ",") ++ f.type ++ " "
      ++ f.name : String), false) rest).1 = _
    rw [if_neg (by simp)]
    rw [encode_type_fold_aux rest (acc ++ "," ++ f.type ++ " " ++ f.name)]
    show _ = acc ++ commaTail ((f.type ++ " " ++ f.name) :: _)
    rw [show ∀ x l, commaTail (x :: l) = "," ++ x ++ commaTail l from fun _ _ => rfl]
    simp [String.append_assoc]

/-- `encode_type` computes the spec's `typeHash` pre-image string. -/
theorem encode_type_spec (primary : String)
    (types : List (String × List TypedData)) (fields : List TypedData)
    (hf : lookup types primary = some fields) :
    encode_type primary types = Except.ok (specEncodeType primary fields) := by
  unfold encode_type
  rw [hf]
  dsimp only
  unfold specEncodeType
  cases fields with
  | nil => rfl
  | cons f rest =>
    rw [List.foldl_cons]
    show Except.ok (primary ++ "(" ++ (List.foldl _
      (("" ++ (if true then "" else ",") ++ f.type ++ " " ++ f.name : String),
        false) rest).1 ++ ")") = _
    rw [if_pos rfl, String.append_empty, String.empty_append,
      encode_type_fold_aux rest (f.type ++ " " ++ f.name),
      ← specCommaJoin_eq_commaTail (rest.map (fun g => g.type ++ " " ++ g.name))
        (f.type ++ " " ++ f.name)]
    rfl

theorem exceptBind_toOption {α β : Type} (e : Except String α)
    (f : α → Except String β) :
    (e >>= f).toOption = e.toOption.bind (fun a => (f a).toOption) := by
  cases e <;> rfl

theorem exceptOkBind {α β : Type} (a : α) (f : α → Except String β) :
    (Except.ok a >>= f) = f a := rfl

theorem optSomeBind {α β : Type} (a : α) (f : α → Option β) :
    ((some a >>= f) : Option β) = f a := rfl

theorem optNoneBind {α β : Type} (f : α → Option β) :
    ((none >>= f) : Option β) = none := rfl

theorem mapM_toOption {α β : Type} (f : α → Except String β)
    (g : α → Option β) : ∀ l : List α, (∀ a ∈ l, (f a).toOption = g a) →
    (l.mapM f).toOption = l.mapM g
  | [], _ => rfl
  | x :: rest, hfg => by
    rw [List.mapM_cons, List.mapM_cons]
    rw [show (f x >>= fun y => rest.mapM f >>= fun ys => pure (y :: ys)).toOption
        = (f x).toOption.bind (fun y => (rest.mapM f >>= fun ys =>
            pure (y :: ys)).toOption) from exceptBind_toOption _ _]
    rw [← hfg x (List.mem_cons_self x rest)]
    cases f x with
    | error e => rfl
    | ok y =>
      show ((rest.mapM f >>= fun ys => pure (y :: ys)).toOption) = _
      rw [exceptBind_toOption _ _,
        mapM_toOption f g rest (fun a ha => hfg a (List.mem_cons_of_mem x ha))]
      cases rest.mapM g <;> rfl

/-- `encode_data` computes the spec's `hashStruct` (`Except` success mapped
to `Option`), provided no encoded address-typed string field contains ASCII
whitespace. -/
theorem encode_data_toOption (keccak : List Nat → List Nat)
    (utf8s : String → List Nat) (primary : String)
    (data : List (String × Value)) (types : List (String × List TypedData))
    (hok : ∀ fields, lookup types primary = some fields →
      ∀ f ∈ fields, ∀ v, lookup data f.name = some v → addrOK v f.type) :
    (encode_data keccak utf8s primary data types).toOption
      = (lookup types primary).bind
          (fun fields => specHashStruct keccak utf8s primary fields data) := by
  unfold encode_data type_hash
  cases hf : lookup types primary with
  | none =>
    unfold encode_type
    rw [hf]
    rfl
  | some fields =>
    rw [encode_type_spec primary types fields hf]
    rw [show Except.map (fun s => keccak (utf8s s))
        (Except.ok (specEncodeType primary fields))
        = Except.ok (keccak (utf8s (specEncodeType primary fields))) from rfl,
      exceptOkBind]
    dsimp only
    unfold specHashStruct
    rw [Option.some_bind, exceptBind_toOption]
    rw [mapM_toOption
      (fun f => match lookup data f.name with
        | none => Except.error ("KeyError: " ++ f.name)
        | some v => encode_value keccak utf8s v f.type)
      (fun f => (lookup data f.name).bind
        (fun v => specEncodeValue keccak utf8s v f.type))
      fields
      (by
        intro f hfm
        dsimp only
        cases hv : lookup data f.name with
        | none => rfl
        | some v =>
          dsimp only
          rw [Option.some_bind]
          exact encode_value_toOption keccak utf8s v f.type
            (hok fields hf f hfm v hv))]
    cases fields.mapM (fun f => (lookup data f.name).bind
      (fun v => specEncodeValue keccak utf8s v f.type)) <;> rfl

/-- `hash_typed_data` computes the spec's typed-data digest, provided the
domain's `verifyingContract` string and the message's address-typed string
fields contain no ASCII whitespace. -/
theorem hash_typed_data_toOption (keccak : List Nat → List Nat)
    (utf8s : String → List Nat) (domain : Domain)
    (msg : List (String × Value)) (types : List (String × List TypedData))
    (hdom : ∀ c ∈ domain.verifying_contract.data, isHexSpace c = false)
    (hmsg : ∀ fields, lookup types "StorageData" = some fields →
      ∀ f ∈ fields, ∀ v, lookup msg f.name = some v → addrOK v f.type) :
    (hash_typed_data keccak utf8s domain msg types).toOption
      = specTypedDataHash keccak utf8s domain msg types := by
  have hdomOK : ∀ fields,
      lookup [("EIP712Domain", domainFields)] "EIP712Domain" = some fields →
      ∀ f ∈ fields, ∀ v, lookup (domainMessage domain) f.name = some v →
      addrOK v f.type := by
    intro fields hf f hfm v hv
    rw [show lookup [("EIP712Domain", domainFields)] "EIP712Domain"
        = some domainFields from rfl] at hf
    cases hf
    intro hty
    simp only [domainFields, List.mem_cons, List.not_mem_nil, or_false] at hfm
    rcases hfm with h | h | h | h
    · subst h
      exact absurd hty (by decide)
    · subst h
      exact absurd hty (by decide)
    · subst h
      exact absurd hty (by decide)
    · subst h
      have hlook : lookup (domainMessage domain)
          (TypedData.name ⟨"verifyingContract", "address"⟩)
          = some (Value.vstr domain.verifying_contract) := rfl
      rw [hlook] at hv
      cases hv
      exact hdom
  unfold hash_typed_data specTypedDataHash
  rw [exceptBind_toOption, encode_data_toOption keccak utf8s "EIP712Domain"
    (domainMessage domain) [("EIP712Domain", domainFields)] hdomOK]
  rw [show lookup [("EIP712Domain", domainFields)] "EIP712Domain"
      = some domainFields from rfl]
  rw [Option.some_bind]
  cases hdh : specHashStruct keccak utf8s "EIP712Domain" domainFields
      (domainMessage domain) with
  | none =>
    rw [Option.none_bind]
    cases hlf : lookup types "StorageData" with
    | none => rfl
    | some fields =>
      simp only [optSomeBind, optNoneBind]
  | some dh =>
    rw [Option.some_bind, exceptBind_toOption,
      encode_data_toOption keccak utf8s "StorageData" msg types hmsg]
    cases hlf : lookup types "StorageData" with
    | none => rfl
    | some fields =>
      simp only [optSomeBind, Option.some_bind, Option.none_bind]
      cases hsh : specHashStruct keccak utf8s "StorageData" fields msg with
      | none => rfl
      | some sh =>
        simp only [optSomeBind, Option.some_bind]
        show some (keccak (0x19 :: 0x01 :: (dh ++ sh)))
          = some (keccak ([0x19, 0x01] ++ dh ++ sh))
        rfl

/-! ### Claim theorems for the EIP-712 encoder/signer -/

/-- A stand-in 32-byte digest function used to instantiate the keccak
collaborator in witnesses. -/
def keccakStub : List Nat → List Nat := fun bs => List.replicate 32 (bs.length % 256)

/-- A stand-in UTF-8 encoder used in witnesses (character code points). -/
def utf8Stub : String → List Nat := fun s => s.data.map Char.toNat

/-- The `StorageData` type description hardcoded in `ipc.sign_block`. -/
def storage_data_types : List (String × List TypedData) :=
  [("StorageData",
    [⟨"chunkCID", "bytes"⟩, ⟨"blockCID", "bytes32"⟩, ⟨"chunkIndex", "uint256"⟩,
     ⟨"blockIndex", "uint8"⟩, ⟨"nodeId", "bytes32"⟩, ⟨"nonce", "uint256"⟩,
     ⟨"deadline", "uint256"⟩, ⟨"bucketId", "bytes32"⟩])]

/-- A concrete domain as built by `ipc.sign_block` (spec scenario S3). -/
def storageDomainEx : Domain :=
  ⟨"Storage", "1", 1, "0x0000000000000000000000000000000000000001"⟩

/-- A concrete all-zero `StorageData` message (spec scenario S3). -/
def storageMsgEx : List (String × Value) :=
  [("chunkCID", Value.vbytes []), ("blockCID", Value.vbytes (List.replicate 32 0)),
   ("chunkIndex", Value.vint 0), ("blockIndex", Value.vint 0),
   ("nodeId", Value.vbytes (List.replicate 32 0)), ("nonce", Value.vint 0),
   ("deadline", Value.vint 0), ("bucketId", Value.vbytes (List.replicate 32 0))]

deriving instance DecidableEq for Except

/-- A 40-character address string ending in two spaces: `"aa"` repeated 19
times followed by `"  "`.  It passes the source's length-40 check, yet
`bytes.fromhex` skips the trailing whitespace and decodes only 19 bytes. -/
def wsAddr : String := String.mk (List.replicate 38 'a' ++ [' ', ' '])

set_option maxRecDepth 10000 in
/-- C6, counterexample to the unconditional claim: on the 40-character
address string `wsAddr`, `encode_value` succeeds with a 31-byte result (12
zero bytes and only 19 decoded bytes) instead of 32, matching no row of the
claimed table, because `bytes.fromhex` skips the two trailing spaces and
the `buf[12:32]` bytearray slice assignment resizes the 32-byte buffer. -/
theorem encode_value_whitespace_counterexample :
    encode_value keccakStub utf8Stub (Value.vstr wsAddr) "address"
      = Except.ok (List.replicate 12 0 ++ List.replicate 19 170) ∧
    (List.replicate 12 (0 : Nat) ++ List.replicate 19 (170 : Nat)).length = 31 ∧
    specEncodeValue keccakStub utf8Stub (Value.vstr wsAddr) "address"
      = none := by
  refine ⟨by decide, by decide, by decide⟩

/-- C6 (amended).  For every field value whose address strings contain no
ASCII whitespace, `encode_value` produces a 32-byte result matching the
spec's table exactly: a string maps to keccak256 of its UTF-8 bytes; bytes
to keccak256 of the bytes; bytes32 is returned unchanged when exactly 32
bytes long and errors otherwise; uint8/uint64/uint256 values in range are
big-endian left-zero-padded to 32 bytes; an address (20 bytes, or 40 hex
digits with optional 0x prefix) is right-aligned in 32 bytes behind 12 zero
bytes.  Without the whitespace proviso the claim fails, since
`bytes.fromhex` skips ASCII whitespace and the resized buffer is returned
with fewer than 32 bytes. -/
theorem encode_value_matches_table (keccak : List Nat → List Nat)
    (utf8s : String → List Nat) (hk : ∀ bs, (keccak bs).length = 32) :
    (∀ v ty, addrOK v ty → (encode_value keccak utf8s v ty).toOption
        = specEncodeValue keccak utf8s v ty) ∧
    (∀ v ty r, addrOK v ty → encode_value keccak utf8s v ty = Except.ok r →
      r.length = 32) :=
  ⟨fun v ty hv => encode_value_toOption keccak utf8s v ty hv,
   fun v ty r hv h => encode_value_length keccak utf8s hk v ty r hv h⟩

/-- Witness for C6 at concrete inputs: an out-of-range uint8 matches the
table (both error), a whitespace-free mixed-case address string matches,
and an in-range uint256 matches and is 32 bytes. -/
theorem encode_value_matches_table_witness :
    ((encode_value keccakStub utf8Stub (Value.vint 300) "uint8").toOption
      = specEncodeValue keccakStub utf8Stub (Value.vint 300) "uint8") ∧
    ((encode_value keccakStub utf8Stub
        (Value.vstr "0x00000000000000000000000000000000000000aB")
        "address").toOption
      = specEncodeValue keccakStub utf8Stub
        (Value.vstr "0x00000000000000000000000000000000000000aB") "address") ∧
    (∀ r, encode_value keccakStub utf8Stub (Value.vint 7) "uint256"
        = Except.ok r → r.length = 32) := by
  have h := encode_value_matches_table keccakStub utf8Stub
    (fun bs => by simp [keccakStub])
  exact ⟨h.1 _ _ (fun hc => trivial), h.1 _ _ (fun hc => by decide),
    fun r hr => h.2 _ _ r (fun hc => trivial) hr⟩

/-- The domain of scenario S3 with its `verifyingContract` replaced by the
whitespace-containing 40-character address string. -/
def wsDomain : Domain := ⟨"Storage", "1", 1, wsAddr⟩

set_option maxRecDepth 40000 in
/-- C2, counterexample to the unconditional claim: with the domain's
`verifyingContract` set to `wsAddr`, `hash_typed_data` succeeds — the
program hashes a 31-byte `verifyingContract` field encoding — while the
claimed construction, in which every field encoding is padded to exactly
32 bytes per the table, has no value there, so the asserted equality fails
for this domain. -/
theorem hash_typed_data_whitespace_counterexample :
    ((hash_typed_data keccakStub utf8Stub wsDomain storageMsgEx
        storage_data_types).toOption
      ≠ specTypedDataHash keccakStub utf8Stub wsDomain storageMsgEx
        storage_data_types) ∧
    (hash_typed_data keccakStub utf8Stub wsDomain storageMsgEx
        storage_data_types).toOption.isSome = true ∧
    specTypedDataHash keccakStub utf8Stub wsDomain storageMsgEx
        storage_data_types = none := by
  refine ⟨by decide, by decide, by decide⟩

/-- C2 (amended).  Provided the domain's `verifyingContract` string and
every address-typed string field of the message contain no ASCII
whitespace, `hash_typed_data` returns
`keccak256(0x19 ‖ 0x01 ‖ H_domain ‖ H_message)` where each struct hash is
`keccak256(typeHash ‖ enc(field_1) ‖ … ‖ enc(field_n))` over the declared
field order, each field encoding padded to exactly 32 bytes, and
`typeHash = keccak256(primaryType ‖ "(" ‖ commaJoin(fieldType " " fieldName)
‖ ")")` — stated as equality with the spec-side definition, plus the
32-byte padding fact under the same proviso.  Without it the claim fails:
a 40-character address string containing whitespace passes the length
check but is hashed from a field encoding shorter than 32 bytes. -/
theorem hash_typed_data_spec (keccak : List Nat → List Nat)
    (utf8s : String → List Nat) (hk : ∀ bs, (keccak bs).length = 32) :
    (∀ (domain : Domain) (msg : List (String × Value))
        (types : List (String × List TypedData)),
      (∀ c ∈ domain.verifying_contract.data, isHexSpace c = false) →
      (∀ fields, lookup types "StorageData" = some fields →
        ∀ f ∈ fields, ∀ v, lookup msg f.name = some v → addrOK v f.type) →
      (hash_typed_data keccak utf8s domain msg types).toOption
        = specTypedDataHash keccak utf8s domain msg types) ∧
    (∀ v ty r, addrOK v ty → encode_value keccak utf8s v ty = Except.ok r →
      r.length = 32) :=
  ⟨fun d m t hd hm => hash_typed_data_toOption keccak utf8s d m t hd hm,
   fun v ty r hv h => encode_value_length keccak utf8s hk v ty r hv h⟩

/-- Witness for C2 at the concrete S3-style vector (whose addresses are
whitespace-free and whose `StorageData` fields have no address type). -/
theorem hash_typed_data_spec_witness :
    (hash_typed_data keccakStub utf8Stub storageDomainEx storageMsgEx
        storage_data_types).toOption
      = specTypedDataHash keccakStub utf8Stub storageDomainEx storageMsgEx
        storage_data_types :=
  (hash_typed_data_spec keccakStub utf8Stub
    (fun bs => by simp [keccakStub])).1 storageDomainEx storageMsgEx
    storage_data_types (by decide)
    (by
      intro fields hf f hfm v hv
      rw [show lookup storage_data_types "StorageData"
          = some [(⟨"chunkCID", "bytes"⟩ : TypedData), ⟨"blockCID", "bytes32"⟩,
            ⟨"chunkIndex", "uint256"⟩, ⟨"blockIndex", "uint8"⟩,
            ⟨"nodeId", "bytes32"⟩, ⟨"nonce", "uint256"⟩,
            ⟨"deadline", "uint256"⟩, ⟨"bucketId", "bytes32"⟩] from rfl] at hf
      cases hf
      intro hty
      simp only [List.mem_cons, List.not_mem_nil, or_false] at hfm
      rcases hfm with h | h | h | h | h | h | h | h <;> subst h <;>
        exact absurd hty (by decide))

/-- Shape of a successful `sign`: the hash is computed, the 64 `r ‖ s` bytes
are kept, and the recovery byte is normalized once. -/
theorem sign_shape {Key : Type} (keccak : List Nat → List Nat)
    (utf8s : String → List Nat) (libSign : Key → List Nat → List Nat × Nat)
    (key : Key) (domain : Domain) (msg : List (String × Value))
    (types : List (String × List TypedData)) (d : List Nat)
    (hh : hash_typed_data keccak utf8s domain msg types = Except.ok d)
    (hlen : (libSign key d).1.length = 64) :
    sign keccak utf8s libSign key domain msg types
      = Except.ok ((libSign key d).1 ++
          [if (libSign key d).2 = 0 ∨ (libSign key d).2 = 1
           then (libSign key d).2 + 27 else (libSign key d).2]) := by
  unfold sign
  rw [hh, exceptOkBind]
  dsimp only
  have hv : ((libSign key d).1 ++ [(libSign key d).2]).getD 64 0
      = (libSign key d).2 := by
    rw [List.getD_eq_getElem?_getD, List.getElem?_append_right (by omega), hlen]
    norm_num
  have ht : ((libSign key d).1 ++ [(libSign key d).2]).take 64
      = (libSign key d).1 := List.take_left' hlen
  rw [hv, ht]

/-- C7.  The signature returned by `sign` is exactly 65 bytes `r ‖ s ‖ v`
with final byte in `{27, 28}`: a recovery id in `{0, 1}` gets 27 added
exactly once, and a recovery byte already equal to 27 or 28 is never
incremented again. -/
theorem sign_sixtyfive_v_normalized {Key : Type} (keccak : List Nat → List Nat)
    (utf8s : String → List Nat) (libSign : Key → List Nat → List Nat × Nat)
    (hlen : ∀ k d, (libSign k d).1.length = 64)
    (hvr : ∀ k d, (libSign k d).2 < 2 ∨ (libSign k d).2 = 27 ∨ (libSign k d).2 = 28)
    (key : Key) (domain : Domain) (msg : List (String × Value))
    (types : List (String × List TypedData)) (sig : List Nat)
    (hsig : sign keccak utf8s libSign key domain msg types = Except.ok sig) :
    sig.length = 65 ∧
    (sig.getLast? = some 27 ∨ sig.getLast? = some 28) ∧
    ∃ d, hash_typed_data keccak utf8s domain msg types = Except.ok d ∧
      sig = (libSign key d).1 ++
        [if (libSign key d).2 = 0 ∨ (libSign key d).2 = 1
         then (libSign key d).2 + 27 else (libSign key d).2] ∧
      ((libSign key d).2 < 2 → sig.getLast? = some ((libSign key d).2 + 27)) ∧
      (((libSign key d).2 = 27 ∨ (libSign key d).2 = 28) →
        sig.getLast? = some (libSign key d).2) := by
  obtain ⟨d, hh⟩ : ∃ d, hash_typed_data keccak utf8s domain msg types
      = Except.ok d := by
    cases hha : hash_typed_data keccak utf8s domain msg types with
    | error e =>
      unfold sign at hsig
      rw [hha] at hsig
      cases hsig
    | ok d => exact ⟨d, rfl⟩
  rw [sign_shape keccak utf8s libSign key domain msg types d hh (hlen key d),
    Except.ok.injEq] at hsig
  subst hsig
  have hlast : ∀ x : Nat, ((libSign key d).1 ++ [x]).getLast? = some x :=
    fun x => List.getLast?_concat _
  have hl65 : ∀ x : Nat, ((libSign key d).1 ++ [x]).length = 65 := by
    intro x
    simp [hlen key d]
  refine ⟨hl65 _, ?_, d, hh, rfl, ?_, ?_⟩
  · rcases hvr key d with h2 | h27 | h28
    · interval_cases hvv : (libSign key d).2
      · left
        rw [show (if (0 : Nat) = 0 ∨ (0 : Nat) = 1 then 0 + 27 else 0) = 27
          from rfl]
        exact hlast 27
      · right
        rw [show (if (1 : Nat) = 0 ∨ (1 : Nat) = 1 then 1 + 27 else 1) = 28
          from rfl]
        exact hlast 28
    · left
      rw [h27]
      rw [show (if (27 : Nat) = 0 ∨ (27 : Nat) = 1 then 27 + 27 else 27) = 27
        from rfl]
      exact hlast 27
    · right
      rw [h28]
      rw [show (if (28 : Nat) = 0 ∨ (28 : Nat) = 1 then 28 + 27 else 28) = 28
        from rfl]
      exact hlast 28
  · intro h2
    have : (libSign key d).2 = 0 ∨ (libSign key d).2 = 1 := by omega
    rw [if_pos this]
    exact hlast _
  · intro h2728
    have hne : ¬ ((libSign key d).2 = 0 ∨ (libSign key d).2 = 1) := by omega
    rw [if_neg hne]
    exact hlast _

/-- A constant stand-in secp256k1 signer whose recovery byte is already 27,
used to witness C7. -/
def libSignW27 : Nat → List Nat → List Nat × Nat :=
  fun _ _ => (List.replicate 64 9, 27)

set_option maxRecDepth 4000 in
/-- Witness for C7: signing with a concrete key, domain and message yields a
65-byte signature ending in 27, and an already-normalized recovery byte 27
is not incremented again. -/
theorem sign_sixtyfive_v_normalized_witness :
    (List.replicate 64 9 ++ [27] : List Nat).length = 65 ∧
    ((List.replicate 64 9 ++ [27] : List Nat).getLast? = some 27 ∨
      (List.replicate 64 9 ++ [27] : List Nat).getLast? = some 28) := by
  have h := sign_sixtyfive_v_normalized keccakStub utf8Stub libSignW27
    (fun k d => by simp [libSignW27]) (fun k d => Or.inr (Or.inl rfl))
    5 storageDomainEx storageMsgEx storage_data_types
    (List.replicate 64 9 ++ [27]) (by decide)
  exact ⟨h.1, h.2.1⟩

/-- C3.  Recovering the signer address from a signature produced by `sign`
returns the address of the signing key, for every key, domain and
well-formed message (the secp256k1 operations of `eth_keys` are taken as
parameters satisfying their documented recovery contract). -/
theorem recover_sign_roundtrip {Key Addr : Type} (keccak : List Nat → List Nat)
    (utf8s : String → List Nat) (libSign : Key → List Nat → List Nat × Nat)
    (libRecover : List Nat → Nat → List Nat → Addr) (libAddr : Key → Addr)
    (hlen : ∀ k d, (libSign k d).1.length = 64)
    (hv2 : ∀ k d, (libSign k d).2 < 2)
    (hlib : ∀ k d, libRecover (libSign k d).1 (libSign k d).2 d = libAddr k)
    (key : Key) (domain : Domain) (msg : List (String × Value))
    (types : List (String × List TypedData)) (sig : List Nat)
    (hsig : sign keccak utf8s libSign key domain msg types = Except.ok sig) :
    recover_signer_address keccak utf8s libRecover sig domain msg types
      = Except.ok (libAddr key) := by
  obtain ⟨d, hh⟩ : ∃ d, hash_typed_data keccak utf8s domain msg types
      = Except.ok d := by
    cases hha : hash_typed_data keccak utf8s domain msg types with
    | error e =>
      unfold sign at hsig
      rw [hha] at hsig
      cases hsig
    | ok d => exact ⟨d, rfl⟩
  have h01 : (libSign key d).2 = 0 ∨ (libSign key d).2 = 1 := by
    have := hv2 key d
    omega
  rw [sign_shape keccak utf8s libSign key domain msg types d hh (hlen key d),
    Except.ok.injEq] at hsig
  subst hsig
  unfold recover_signer_address
  rw [hh, exceptOkBind]
  dsimp only
  rw [if_pos h01]
  have hgd : ((libSign key d).1 ++ [(libSign key d).2 + 27]).getD 64 0
      = (libSign key d).2 + 27 := by
    rw [List.getD_eq_getElem?_getD,
      List.getElem?_append_right (by rw [hlen key d]), hlen key d]
    norm_num
  rw [hgd, if_pos (by omega : 27 ≤ (libSign key d).2 + 27)]
  have hsub : (libSign key d).2 + 27 - 27 = (libSign key d).2 := by omega
  rw [hsub, if_pos (hv2 key d), List.take_left' (hlen key d), hlib key d]

/-- A stand-in secp256k1 signer for the C3 witness: the last `r ‖ s` byte
carries the key's address byte and the recovery id is 0. -/
def libSignW : Nat → List Nat → List Nat × Nat :=
  fun k _ => (List.replicate 63 0 ++ [k % 256], 0)

/-- The matching stand-in recovery function for the C3 witness. -/
def libRecoverW : List Nat → Nat → List Nat → Nat :=
  fun rs _ _ => rs.getD 63 0

set_option maxRecDepth 4000 in
/-- Witness for C3: recover applied to a concretely computed signature
returns the signer's address. -/
theorem recover_sign_roundtrip_witness :
    recover_signer_address keccakStub utf8Stub libRecoverW
        ((List.replicate 63 0 ++ [5]) ++ [27]) storageDomainEx storageMsgEx
        storage_data_types
      = Except.ok (5 % 256) := by
  refine recover_sign_roundtrip keccakStub utf8Stub libSignW libRecoverW
    (fun k => k % 256) (fun k d => by simp [libSignW]) (fun k d => by
      simp [libSignW]) (fun k d => ?_) 5 storageDomainEx storageMsgEx
    storage_data_types ((List.replicate 63 0 ++ [5]) ++ [27]) (by decide)
  show libRecoverW (List.replicate 63 0 ++ [k % 256]) 0 d = k % 256
  unfold libRecoverW
  rw [List.getD_eq_getElem?_getD, List.getElem?_append_right (by simp)]
  simp

/-! ## DAG builder (`sdk/dag.py`)

The `multiformats` / `ipld_dag_pb` libraries are external; their encoding is
modelled from the spec (§3): DAG-PB node = protobuf with Links (field 2)
before Data (field 1); CIDv1 = `0x01 ‖ codec-varint ‖ multihash`, textual
form base32-lower with multibase prefix `b`; sha2-256 is a parameter.
All byte values are assumed `< 256` where stated; on bytes, the source's
`& 0x7F` is `% 128`, `>> 3` is `/ 8`, `& 0x07` is `% 8`, and
`(byte & 0x80) == 0` is `byte % 256 < 128`, which is how the bit operations
are written here. -/

/-- `dag.DAG_PB_CODEC` (`sdk/config.py` is not in the sources; modelled from
the spec: codec `dag-pb` is 0x70). -/
def DAG_PB_CODEC : Nat := 0x70

/-- `dag.RAW_CODEC` (modelled from the spec: codec `raw` is 0x55). -/
def RAW_CODEC : Nat := 0x55

/-- Fueled worker for `_encode_varint` (structural recursion so the kernel
can evaluate it; the fuel never runs out when it starts at the value). -/
def encode_varint_go : Nat → Nat → List Nat
  | 0, value => [value % 128]
  | fuel + 1, value =>
    if 127 < value then (value % 128 + 128) :: encode_varint_go fuel (value / 128)
    else [value]

/-- `dag._encode_varint`: protobuf varint encoding. -/
def encode_varint (value : Nat) : List Nat := encode_varint_go value value

theorem encode_varint_go_fuel : ∀ f1 f2 v, v ≤ f1 → v ≤ f2 →
    encode_varint_go f1 v = encode_varint_go f2 v := by
  intro f1
  induction f1 with
  | zero =>
    intro f2 v h1 h2
    have : v = 0 := by omega
    subst this
    cases f2 with
    | zero => rfl
    | succ f2 =>
      show [0 % 128] = if 127 < 0 then _ else [0]
      rw [if_neg (by omega)]
  | succ f1 ih =>
    intro f2 v h1 h2
    cases f2 with
    | zero =>
      have : v = 0 := by omega
      subst this
      show (if 127 < 0 then _ else [0]) = [0 % 128]
      rw [if_neg (by omega)]
    | succ f2 =>
      show (if 127 < v then (v % 128 + 128) :: encode_varint_go f1 (v / 128)
          else [v])
        = (if 127 < v then (v % 128 + 128) :: encode_varint_go f2 (v / 128)
          else [v])
      by_cases h : 127 < v
      · rw [if_pos h, if_pos h, ih f2 (v / 128) (by omega) (by omega)]
      · rw [if_neg h, if_neg h]

/-- The recursive unfolding of `encode_varint`. -/
theorem encode_varint_eq (value : Nat) :
    encode_varint value
      = if 127 < value then (value % 128 + 128) :: encode_varint (value / 128)
        else [value] := by
  unfold encode_varint
  cases value with
  | zero =>
    show [0 % 128] = if 127 < 0 then _ else [0]
    rw [if_neg (by omega)]
  | succ n =>
    show (if 127 < n + 1 then ((n + 1) % 128 + 128)
          :: encode_varint_go n ((n + 1) / 128) else [n + 1]) = _
    by_cases h : 127 < n + 1
    · rw [if_pos h, if_pos h,
        encode_varint_go_fuel n ((n + 1) / 128) ((n + 1) / 128) (by omega)
          (Nat.le_refl _)]
    · rw [if_neg h, if_neg h]

/-- The loop of `dag._decode_varint`: `(value, shift, bytes_read)` state. -/
def decode_varint_loop : List Nat → Nat → Nat → Nat → Except String (Nat × Nat)
  | [], value, _, bytesRead => Except.ok (value, bytesRead)
  | b :: rest, value, shift, bytesRead =>
    let value' := value + b % 128 * 2 ^ shift
    if b % 256 < 128 then Except.ok (value', bytesRead + 1)
    else if 64 ≤ shift + 7 then Except.error "varint too long"
    else decode_varint_loop rest value' (shift + 7) (bytesRead + 1)

/-- `dag._decode_varint`: returns `(value, bytes_read)`; `(0, 0)` on empty
input, error if the shift would reach 64. -/
def decode_varint (data : List Nat) : Except String (Nat × Nat) :=
  decode_varint_loop data 0 0 0

/-- A CID (version 1): codec code and multihash digest. -/
structure Cid where
  codec : Nat
  digest : List Nat
  deriving Repr, DecidableEq

/-- Binary form of a CIDv1 with a sha2-256 multihash:
`0x01 ‖ varint(codec) ‖ 0x12 ‖ varint(len) ‖ digest`. -/
def cidBytes (c : Cid) : List Nat :=
  0x01 :: (encode_varint c.codec ++ (0x12 :: (encode_varint c.digest.length ++ c.digest)))

/-- MSB-first bits of one byte. -/
def byteToBits (b : Nat) : List Bool :=
  [b / 128 % 2 = 1, b / 64 % 2 = 1, b / 32 % 2 = 1, b / 16 % 2 = 1,
   b / 8 % 2 = 1, b / 4 % 2 = 1, b / 2 % 2 = 1, b % 2 = 1]

/-- MSB-first bits of a 5-bit group value. -/
def groupToBits (v : Nat) : List Bool :=
  [v / 16 % 2 = 1, v / 8 % 2 = 1, v / 4 % 2 = 1, v / 2 % 2 = 1, v % 2 = 1]

/-- Numeric value of an MSB-first bit list. -/
def bitsToNum (bits : List Bool) : Nat :=
  bits.foldl (fun acc b => acc * 2 + (if b then 1 else 0)) 0

/-- Fueled worker splitting a bit stream into 5-bit groups, zero-padding the
last group. -/
def chunk5_go : Nat → List Bool → List (List Bool)
  | _, [] => []
  | 0, _ => []
  | fuel + 1, l =>
    (l.take 5 ++ List.replicate (5 - (l.take 5).length) false)
      :: chunk5_go fuel (l.drop 5)

/-- Split a bit stream into 5-bit groups, zero-padding the last group. -/
def chunk5 (l : List Bool) : List (List Bool) := chunk5_go l.length l

theorem chunk5_go_fuel : ∀ f1 f2 (l : List Bool), l.length ≤ f1 →
    l.length ≤ f2 → chunk5_go f1 l = chunk5_go f2 l := by
  intro f1
  induction f1 with
  | zero =>
    intro f2 l h1 _
    have : l = [] := List.eq_nil_of_length_eq_zero (by omega)
    subst this
    cases f2 <;> rfl
  | succ f1 ih =>
    intro f2 l h1 h2
    cases l with
    | nil => cases f2 <;> rfl
    | cons x xs =>
      cases f2 with
      | zero => simp at h2
      | succ f2 =>
        show _ :: chunk5_go f1 ((x :: xs).drop 5)
          = _ :: chunk5_go f2 ((x :: xs).drop 5)
        rw [ih f2 ((x :: xs).drop 5)
          (by simp only [List.length_drop, List.length_cons] at *; omega)
          (by simp only [List.length_drop, List.length_cons] at *; omega)]

/-- The recursive unfolding of `chunk5`. -/
theorem chunk5_eq (l : List Bool) :
    chunk5 l = if l = [] then []
      else (l.take 5 ++ List.replicate (5 - (l.take 5).length) false)
        :: chunk5 (l.drop 5) := by
  unfold chunk5
  cases l with
  | nil => rfl
  | cons x xs =>
    rw [if_neg (by simp)]
    show _ :: chunk5_go xs.length ((x :: xs).drop 5) = _
    rw [chunk5_go_fuel xs.length ((x :: xs).drop 5).length ((x :: xs).drop 5)
      (by simp only [List.length_drop, List.length_cons]; omega) (Nat.le_refl _)]

/-- Fueled worker splitting a bit stream into 8-bit groups, dropping a
trailing partial group. -/
def chunk8_go : Nat → List Bool → List (List Bool)
  | 0, _ => []
  | fuel + 1, l =>
    if 8 ≤ l.length then l.take 8 :: chunk8_go fuel (l.drop 8) else []

/-- Split a bit stream into 8-bit groups, dropping a trailing partial group. -/
def chunk8 (l : List Bool) : List (List Bool) := chunk8_go l.length l

theorem chunk8_go_fuel : ∀ f1 f2 (l : List Bool), l.length ≤ f1 →
    l.length ≤ f2 → chunk8_go f1 l = chunk8_go f2 l := by
  intro f1
  induction f1 with
  | zero =>
    intro f2 l h1 _
    have : l = [] := List.eq_nil_of_length_eq_zero (by omega)
    subst this
    cases f2 with
    | zero => rfl
    | succ f2 =>
      show [] = if 8 ≤ (0 : Nat) then _ else []
      rw [if_neg (by omega)]
  | succ f1 ih =>
    intro f2 l h1 h2
    cases f2 with
    | zero =>
      have : l = [] := List.eq_nil_of_length_eq_zero (by omega)
      subst this
      show (if 8 ≤ (0 : Nat) then _ else []) = []
      rw [if_neg (by omega)]
    | succ f2 =>
      show (if 8 ≤ l.length then l.take 8 :: chunk8_go f1 (l.drop 8) else [])
        = (if 8 ≤ l.length then l.take 8 :: chunk8_go f2 (l.drop 8) else [])
      by_cases h : 8 ≤ l.length
      · rw [if_pos h, if_pos h, ih f2 (l.drop 8)
          (by simp only [List.length_drop]; omega)
          (by simp only [List.length_drop]; omega)]
      · rw [if_neg h, if_neg h]

/-- The recursive unfolding of `chunk8`. -/
theorem chunk8_eq (l : List Bool) :
    chunk8 l = if 8 ≤ l.length then l.take 8 :: chunk8 (l.drop 8) else [] := by
  by_cases h : 8 ≤ l.length
  · obtain ⟨n, hl⟩ : ∃ n, l.length = n + 1 := ⟨l.length - 1, by omega⟩
    rw [if_pos h]
    show chunk8_go l.length l = _
    rw [hl]
    show (if 8 ≤ l.length then l.take 8 :: chunk8_go n (l.drop 8) else []) = _
    rw [if_pos h, chunk8_go_fuel n (l.drop 8).length (l.drop 8)
      (by simp only [List.length_drop]; omega) (Nat.le_refl _)]
    rfl
  · rw [if_neg h]
    cases hl : l.length with
    | zero =>
      have : l = [] := List.eq_nil_of_length_eq_zero hl
      subst this
      rfl
    | succ n =>
      show chunk8_go l.length l = []
      rw [hl]
      show (if 8 ≤ l.length then l.take 8 :: chunk8_go n (l.drop 8) else []) = []
      rw [if_neg h]

/-- The RFC 4648 base32 alphabet, lowercase. -/
def base32Alphabet : List Char := "abcdefghijklmnopqrstuvwxyz234567".data

/-- base32-lower encoding without padding (multiformats `base32`). -/
def base32Encode (bytes : List Nat) : List Char :=
  (chunk5 (bytes.flatMap byteToBits)).map
    (fun c => base32Alphabet.getD (bitsToNum c) 'a')

/-- Value of one base32 character. -/
def base32CharVal (c : Char) : Option Nat := base32Alphabet.indexOf? c

/-- base32-lower decoding without padding. -/
def base32Decode (cs : List Char) : Option (List Nat) :=
  (cs.mapM base32CharVal).map
    (fun vals => (chunk8 (vals.flatMap groupToBits)).map bitsToNum)

/-- `str(cid)` of multiformats: multibase prefix `b` plus base32 of the
binary CID. -/
def cidToString (c : Cid) : String := String.mk ('b' :: base32Encode (cidBytes c))

/-- `CID.decode(cid_str).codec`: parse the multibase/base32 text form and
return the codec code. -/
def parseCidCodec (s : String) : Option Nat :=
  match s.data with
  | [] => none
  | c :: rest =>
    if c = 'b' then
      match base32Decode rest with
      | none => none
      | some bs =>
        match decode_varint bs with
        | Except.error _ => none
        | Except.ok (_ver, n1) =>
          match decode_varint (bs.drop n1) with
          | Except.error _ => none
          | Except.ok (codec, _) => some codec
    else none

/-- Modelled from the spec: `ipld_dag_pb.encode` of a node without links —
protobuf Links (field 2) before Data (field 1); an empty Data is omitted,
otherwise it is `0x0a ‖ varint(len) ‖ bytes`. -/
def encodePBNodeNoLinks (data : List Nat) : List Nat :=
  if data = [] then [] else 0x0a :: (encode_varint data.length ++ data)

/-- Modelled from the spec: `ipld_dag_pb.decode`, reduced to what the source
reads — the `Data` field (field 1, bytes; `[]` when absent) and the number
of links (field 2 submessages, contents skipped).  Unknown fields make the
strict decoder fail. -/
def decodePBNodeLoop : List Nat → List Nat → Nat → Option (List Nat × Nat)
  | [], dataAcc, nLinks => some (dataAcc, nLinks)
  | tag :: rest, dataAcc, nLinks =>
    let fn := tag / 8
    let wt := tag % 8
    if fn = 1 ∧ wt = 2 then
      match decode_varint rest with
      | Except.error _ => none
      | Except.ok (len, br) =>
        if len ≤ (rest.drop br).length then
          decodePBNodeLoop ((rest.drop br).drop len) ((rest.drop br).take len) nLinks
        else none
    else if fn = 2 ∧ wt = 2 then
      match decode_varint rest with
      | Except.error _ => none
      | Except.ok (len, br) =>
        if len ≤ (rest.drop br).length then
          decodePBNodeLoop ((rest.drop br).drop len) dataAcc (nLinks + 1)
        else none
    else none
  termination_by l _ _ => l.length
  decreasing_by
    · simp only [List.length_drop, List.length_cons]
      omega
    · simp only [List.length_drop, List.length_cons]
      omega

/-- Modelled from the spec: `ipld_dag_pb.decode` — `(Data bytes, number of
links)` or failure. -/
def decodePBNode (bs : List Nat) : Option (List Nat × Nat) :=
  decodePBNodeLoop bs [] 0

/-- The scanning loop of `dag._extract_unixfs_data`: find field 4
(length-delimited) and return its payload; skip other fields by wire type
(the `else` arm advances one extra byte, as in the source). -/
def extract_unixfs_data_loop : List Nat → Except String (List Nat)
  | [] => Except.ok []
  | tag :: rest =>
    let fn := tag / 8
    let wt := tag % 8
    if fn = 4 ∧ wt = 2 then
      match decode_varint rest with
      | Except.error e => Except.error e
      | Except.ok (len, br) =>
        if len ≤ (rest.drop br).length then Except.ok ((rest.drop br).take len)
        else Except.ok []
    else if wt = 2 then
      match decode_varint rest with
      | Except.error e => Except.error e
      | Except.ok (len, br) => extract_unixfs_data_loop (rest.drop (br + len))
    else if wt = 0 then
      match decode_varint rest with
      | Except.error e => Except.error e
      | Except.ok (_, br) => extract_unixfs_data_loop (rest.drop br)
    else if wt = 1 then extract_unixfs_data_loop (rest.drop 8)
    else if wt = 5 then extract_unixfs_data_loop (rest.drop 4)
    else extract_unixfs_data_loop (rest.drop 1)
  termination_by l => l.length
  decreasing_by
    all_goals simp only [List.length_drop, List.length_cons]
    all_goals omega

/-- `dag._extract_unixfs_data`: the UnixFS payload of field 4, `b""` when
absent, truncated, or on a parse exception. -/
def extract_unixfs_data (unixfs_bytes : List Nat) : List Nat :=
  match extract_unixfs_data_loop unixfs_bytes with
  | Except.ok r => r
  | Except.error _ => []

/-- The scanning loop of `dag._extract_unixfs_data_size`: field 3 (varint)
returns its value, field 4 (length-delimited) returns its length. -/
def extract_unixfs_data_size_loop : List Nat → Except String Nat
  | [] => Except.ok 0
  | tag :: rest =>
    let fn := tag / 8
    let wt := tag % 8
    if fn = 3 ∧ wt = 0 then
      match decode_varint rest with
      | Except.error e => Except.error e
      | Except.ok (v, _) => Except.ok v
    else if fn = 4 ∧ wt = 2 then
      match decode_varint rest with
      | Except.error e => Except.error e
      | Except.ok (len, _) => Except.ok len
    else if wt = 2 then
      match decode_varint rest with
      | Except.error e => Except.error e
      | Except.ok (len, br) => extract_unixfs_data_size_loop (rest.drop (br + len))
    else if wt = 0 then
      match decode_varint rest with
      | Except.error e => Except.error e
      | Except.ok (_, br) => extract_unixfs_data_size_loop (rest.drop br)
    else if wt = 1 then extract_unixfs_data_size_loop (rest.drop 8)
    else if wt = 5 then extract_unixfs_data_size_loop (rest.drop 4)
    else extract_unixfs_data_size_loop (rest.drop 1)
  termination_by l => l.length
  decreasing_by
    all_goals simp only [List.length_drop, List.length_cons]
    all_goals omega

/-- `dag._extract_unixfs_data_size` (0 on exception or absence). -/
def extract_unixfs_data_size (unixfs_bytes : List Nat) : Nat :=
  match extract_unixfs_data_size_loop unixfs_bytes with
  | Except.ok v => v
  | Except.error _ => 0

/-- The scanning loop of `dag._extract_unixfs_data_fallback`: find a DAG-PB
Data field (field 1, length-delimited), return the UnixFS payload inside it
when non-empty, keep scanning otherwise; `none` means the caller returns the
whole input. -/
def extract_unixfs_data_fallback_loop : List Nat → Except String (Option (List Nat))
  | [] => Except.ok none
  | tag :: rest =>
    let fn := tag / 8
    let wt := tag % 8
    if fn = 1 ∧ wt = 2 then
      match decode_varint rest with
      | Except.error e => Except.error e
      | Except.ok (len, br) =>
        if len ≤ (rest.drop br).length then
          match extract_unixfs_data ((rest.drop br).take len) with
          | [] => extract_unixfs_data_fallback_loop ((rest.drop br).drop len)
          | extracted => Except.ok (some extracted)
        else Except.ok none
    else if wt = 2 then
      match decode_varint rest with
      | Except.error e => Except.error e
      | Except.ok (len, br) => extract_unixfs_data_fallback_loop (rest.drop (br + len))
    else if wt = 0 then
      match decode_varint rest with
      | Except.error e => Except.error e
      | Except.ok (_, br) => extract_unixfs_data_fallback_loop (rest.drop br)
    else if wt = 1 then extract_unixfs_data_fallback_loop (rest.drop 8)
    else if wt = 5 then extract_unixfs_data_fallback_loop (rest.drop 4)
    else extract_unixfs_data_fallback_loop (rest.drop 1)
  termination_by l => l.length
  decreasing_by
    all_goals simp only [List.length_drop, List.length_cons]
    all_goals omega

/-- `dag._extract_unixfs_data_fallback`: the extracted payload, or the whole
input when scanning finds nothing or raises. -/
def extract_unixfs_data_fallback (data : List Nat) : List Nat :=
  match extract_unixfs_data_fallback_loop data with
  | Except.ok (some extracted) => extracted
  | Except.ok none => data
  | Except.error _ => data

section DAG

variable (sha256 : List Nat → List Nat)

/-- `dag._create_unixfs_file_node` (the `IPLD_AVAILABLE` branch): UnixFS
bytes `0x08 0x02` (Type=File) followed, for non-empty data, by tag `0x22`
(field 4, length-delimited), the varint length and the payload; wrapped in a
DAG-PB node with no links; the CID is the sha2-256 of the encoded node with
codec `dag-pb`. -/
def create_unixfs_file_node (data : List Nat) : Cid × List Nat :=
  let unixfs_data := [0x08, 0x02]
    ++ (if 0 < data.length then 0x22 :: (encode_varint data.length ++ data) else [])
  let encoded_bytes := encodePBNodeNoLinks unixfs_data
  (⟨DAG_PB_CODEC, sha256 encoded_bytes⟩, encoded_bytes)

/-- `dag.node_sizes`: `(raw_size, encoded_size)` of an encoded node (the
paths reachable for link-free nodes; a node with links reports the sum of
link sizes, which the claims do not exercise — links are counted, their
`Tsize` values are not modelled). -/
def node_sizes (node_data : List Nat) : Nat × Nat :=
  match decodePBNode node_data with
  | none => (node_data.length, node_data.length)
  | some (pbData, nLinks) =>
    if pbData = [] then
      if nLinks = 0 then (node_data.length, node_data.length)
      else (0, 0)
    else
      let raw := extract_unixfs_data_size pbData
      if nLinks = 0 then (raw, node_data.length) else (raw, 0)

/-- `dag.FileBlockUpload`. -/
structure FileBlockUpload where
  cid : String
  data : List Nat
  deriving Repr, DecidableEq

/-- `dag.ChunkDAG`. -/
structure ChunkDAG where
  cid : Cid
  raw_data_size : Nat
  encoded_size : Nat
  blocks : List FileBlockUpload
  deriving Repr, DecidableEq

/-- `dag.build_dag` restricted to the single-leaf case the claims exercise:
non-empty data of at most `block_size` bytes and no encryption key. -/
def build_dag_small (data : List Nat) (block_size : Nat) :
    Except String ChunkDAG :=
  if data = [] then Except.error "empty data"
  else if data.length ≤ block_size then
    let p := create_unixfs_file_node sha256 data
    let sizes := node_sizes p.2
    Except.ok ⟨p.1, sizes.1, sizes.2,
      [⟨cidToString p.1, p.2⟩]⟩
  else Except.error "multi-block case not modelled"

/-- `dag.extract_block_data`: decide the codec from the CID string (with the
source's `bafkreig` prefix fallback), then extract the UnixFS payload for
`dag-pb`, return the bytes unchanged for `raw`, and fall back to a raw
DAG-PB scan otherwise or on errors. -/
def extract_block_data (cid_str : String) (data : List Nat) : List Nat :=
  let cid_type : Nat :=
    match parseCidCodec cid_str with
    | some c => c
    | none => if cid_str.startsWith "bafkreig" then RAW_CODEC else DAG_PB_CODEC
  if cid_type = DAG_PB_CODEC then
    match decodePBNode data with
    | some (pbData, _) =>
      if pbData ≠ [] then
        match extract_unixfs_data pbData with
        | [] => extract_unixfs_data_fallback data
        | extracted => extracted
      else []
    | none => extract_unixfs_data_fallback data
  else if cid_type = RAW_CODEC then data
  else extract_unixfs_data_fallback data

end DAG

/-! ### Varint lemmas -/

theorem encode_varint_lt256 : ∀ n b, b ∈ encode_varint n → b < 256 := by
  intro n
  induction n using Nat.strong_induction_on with
  | _ n ih =>
    intro b hb
    rw [encode_varint_eq] at hb
    by_cases h : 127 < n
    · rw [if_pos h] at hb
      rcases List.mem_cons.1 hb with h1 | h1
      · subst h1
        have := Nat.mod_lt n (show 0 < 128 by omega)
        omega
      · exact ih (n / 128) (by omega) b h1
    · rw [if_neg h] at hb
      simp at hb
      omega

theorem encode_varint_length_pos (n : Nat) : 0 < (encode_varint n).length := by
  rw [encode_varint_eq]
  by_cases h : 127 < n
  · rw [if_pos h]
    simp
  · rw [if_neg h]
    simp

theorem encode_varint_length_le : ∀ k n, n < 128 ^ (k + 1) →
    (encode_varint n).length ≤ k + 1 := by
  intro k
  induction k with
  | zero =>
    intro n hn
    have hn' : n < 128 := by simpa using hn
    rw [encode_varint_eq, if_neg (by omega)]
    simp
  | succ k ih =>
    intro n hn
    rw [encode_varint_eq]
    by_cases h : 127 < n
    · rw [if_pos h]
      simp only [List.length_cons]
      have : n / 128 < 128 ^ (k + 1) := by
        have hp : 128 ^ (k + 1 + 1) = 128 ^ (k + 1) * 128 := pow_succ 128 (k + 1)
        omega
      have := ih (n / 128) this
      omega
    · rw [if_neg h]
      simp

theorem decode_varint_loop_encode : ∀ (n : Nat) (rest : List Nat)
    (value shift bytesRead : Nat),
    shift + 7 * (encode_varint n).length ≤ 70 →
    decode_varint_loop (encode_varint n ++ rest) value shift bytesRead
      = Except.ok (value + n * 2 ^ shift, bytesRead + (encode_varint n).length) := by
  intro n
  induction n using Nat.strong_induction_on with
  | _ n ih =>
    intro rest value shift bytesRead hbound
    rw [encode_varint_eq] at hbound ⊢
    by_cases h : 127 < n
    · rw [if_pos h] at hbound ⊢
      rw [List.cons_append]
      show decode_varint_loop _ value shift bytesRead = _
      unfold decode_varint_loop
      have hb1 : ¬ ((n % 128 + 128) % 256 < 128) := by
        have := Nat.mod_lt n (show 0 < 128 by omega)
        have : (n % 128 + 128) % 256 = n % 128 + 128 := Nat.mod_eq_of_lt (by omega)
        omega
      rw [if_neg hb1]
      have hlen1 : 0 < (encode_varint (n / 128)).length :=
        encode_varint_length_pos (n / 128)
      have hb2 : ¬ (64 ≤ shift + 7) := by
        simp only [List.length_cons] at hbound
        omega
      rw [if_neg hb2]
      have hmod : (n % 128 + 128) % 128 = n % 128 := by omega
      rw [hmod]
      rw [ih (n / 128) (by omega) rest (value + n % 128 * 2 ^ shift) (shift + 7)
        (bytesRead + 1) (by simp only [List.length_cons] at hbound; omega)]
      congr 2
      · have hp : 2 ^ (shift + 7) = 2 ^ shift * 128 := by
          rw [pow_add]
          norm_num
        have hn : n = n % 128 + 128 * (n / 128) := (Nat.mod_add_div n 128).symm
        rw [hp]
        conv_rhs => rw [hn]
        ring
      · simp only [List.length_cons]
        omega
    · rw [if_neg h] at hbound ⊢
      rw [List.cons_append]
      show decode_varint_loop _ value shift bytesRead = _
      unfold decode_varint_loop
      have hb1 : n % 256 < 128 := by
        have : n % 256 = n := Nat.mod_eq_of_lt (by omega)
        omega
      rw [if_pos hb1]
      have : n % 128 = n := Nat.mod_eq_of_lt (by omega)
      rw [this]
      simp

/-- Round trip: decoding a varint-encoded value followed by anything
recovers the value and consumes exactly the encoding. -/
theorem decode_varint_encode (n : Nat) (rest : List Nat)
    (hn : n < 2 ^ 49) :
    decode_varint (encode_varint n ++ rest)
      = Except.ok (n, (encode_varint n).length) := by
  have hlen : (encode_varint n).length ≤ 7 := by
    have : n < 128 ^ 7 := by
      have : (128 : Nat) ^ 7 = 2 ^ 49 := by norm_num
      omega
    exact encode_varint_length_le 6 n this
  unfold decode_varint
  rw [decode_varint_loop_encode n rest 0 0 0 (by omega)]
  simp

/-! ### Base32 round trip -/

theorem byteToBits_length (b : Nat) : (byteToBits b).length = 8 := rfl

set_option maxRecDepth 4000 in
theorem bitsToNum_byteToBits (b : Nat) (hb : b < 256) :
    bitsToNum (byteToBits b) = b := by
  have h : ∀ c ∈ Finset.range 256, bitsToNum (byteToBits c) = c := by decide
  exact h b (Finset.mem_range.2 hb)

theorem groupToBits_bitsToNum : ∀ c : List Bool, c.length = 5 →
    groupToBits (bitsToNum c) = c := by
  intro c hc
  match c, hc with
  | [a, b, c3, d, e], _ =>
    cases a <;> cases b <;> cases c3 <;> cases d <;> cases e <;> decide

theorem bitsToNum_lt_32 : ∀ c : List Bool, c.length = 5 → bitsToNum c < 32 := by
  intro c hc
  match c, hc with
  | [a, b, c3, d, e], _ =>
    cases a <;> cases b <;> cases c3 <;> cases d <;> cases e <;> decide

set_option maxRecDepth 4000 in
theorem base32CharVal_alphabet (i : Nat) (hi : i < 32) :
    base32CharVal (base32Alphabet.getD i 'a') = some i := by
  have h : ∀ j ∈ Finset.range 32,
      base32CharVal (base32Alphabet.getD j 'a') = some j := by decide
  exact h i (Finset.mem_range.2 hi)

theorem chunk5_mem_length_aux : ∀ n : Nat, ∀ l : List Bool, l.length = n →
    ∀ c ∈ chunk5 l, c.length = 5 := by
  intro n
  induction n using Nat.strong_induction_on with
  | _ n ih =>
    intro l hn c hc
    rw [chunk5_eq] at hc
    by_cases h : l = []
    · rw [if_pos h] at hc
      cases hc
    · rw [if_neg h] at hc
      rcases List.mem_cons.1 hc with h1 | h1
      · subst h1
        have h5 : (l.take 5).length ≤ 5 := by
          simp [List.length_take]
        simp only [List.length_append, List.length_replicate]
        omega
      · have hlpos : 0 < l.length := by
          cases l with
          | nil => exact absurd rfl h
          | cons x xs => simp
        exact ih (l.drop 5).length (by subst hn; simp [List.length_drop]; omega)
          (l.drop 5) rfl c h1

theorem chunk5_mem_length (l : List Bool) : ∀ c ∈ chunk5 l, c.length = 5 :=
  chunk5_mem_length_aux l.length l rfl

theorem chunk5_flatten_aux : ∀ n : Nat, ∀ l : List Bool, l.length = n →
    ∃ k, k ≤ 4 ∧ (chunk5 l).flatten = l ++ List.replicate k false := by
  intro n
  induction n using Nat.strong_induction_on with
  | _ n ih =>
    intro l hn
    rw [chunk5_eq]
    by_cases h : l = []
    · rw [if_pos h]
      exact ⟨0, by omega, by simp [h]⟩
    · rw [if_neg h]
      have hlpos : 0 < l.length := by
        cases l with
        | nil => exact absurd rfl h
        | cons x xs => simp
      obtain ⟨k, hk, heq⟩ := ih (l.drop 5).length
        (by subst hn; simp [List.length_drop]; omega) (l.drop 5) rfl
      by_cases h5 : 5 ≤ l.length
      · have htake : (l.take 5).length = 5 := by
          simp [List.length_take]
          omega
        refine ⟨k, hk, ?_⟩
        rw [List.flatten_cons, heq, htake]
        simp only [Nat.sub_self, List.replicate_zero, List.append_nil]
        rw [← List.append_assoc, List.take_append_drop]
      · have htake : l.take 5 = l := List.take_of_length_le (by omega)
        have hdrop : l.drop 5 = [] := List.drop_eq_nil_of_le (by omega)
        refine ⟨5 - l.length, by omega, ?_⟩
        rw [List.flatten_cons, hdrop] at *
        rw [show chunk5 ([] : List Bool) = [] from rfl]
        rw [htake]
        simp

theorem chunk5_flatten (l : List Bool) :
    ∃ k, k ≤ 4 ∧ (chunk5 l).flatten = l ++ List.replicate k false :=
  chunk5_flatten_aux l.length l rfl

theorem chunk8_bytes : ∀ (bytes : List Nat) (extra : List Bool),
    extra.length < 8 →
    chunk8 (bytes.flatMap byteToBits ++ extra) = bytes.map byteToBits := by
  intro bytes
  induction bytes with
  | nil =>
    intro extra hex
    rw [chunk8_eq]
    rw [if_neg (by simp only [List.flatMap_nil, List.nil_append]; omega)]
    rfl
  | cons b rest ih =>
    intro extra hex
    rw [List.flatMap_cons, chunk8_eq]
    have hlen : (byteToBits b ++ (rest.flatMap byteToBits ++ extra)).length ≥ 8 := by
      simp [byteToBits_length]
    rw [List.append_assoc]
    rw [if_pos (by simpa using hlen)]
    rw [List.take_left' (byteToBits_length b), List.drop_left' (byteToBits_length b)]
    rw [ih extra hex]
    rfl

theorem mapM_base32CharVal : ∀ chunks : List (List Bool),
    (∀ c ∈ chunks, c.length = 5) →
    ((chunks.map (fun c => base32Alphabet.getD (bitsToNum c) 'a')).mapM
        base32CharVal) = some (chunks.map bitsToNum) := by
  intro chunks
  induction chunks with
  | nil => intro _; rfl
  | cons c rest ih =>
    intro hlen
    rw [List.map_cons, List.mapM_cons]
    rw [base32CharVal_alphabet (bitsToNum c) (bitsToNum_lt_32 c (hlen c (by simp)))]
    rw [show ∀ (a : Nat) (f : Nat → Option (List Nat)), (some a >>= f) = f a
      from fun a f => rfl]
    rw [ih (fun x hx => hlen x (by simp [hx]))]
    rfl

theorem flatMap_groupToBits (chunks : List (List Bool))
    (hlen : ∀ c ∈ chunks, c.length = 5) :
    (chunks.map bitsToNum).flatMap groupToBits = chunks.flatten := by
  induction chunks with
  | nil => rfl
  | cons c rest ih =>
    rw [List.map_cons, List.flatMap_cons, List.flatten_cons,
      groupToBits_bitsToNum c (hlen c (by simp)),
      ih (fun x hx => hlen x (by simp [hx]))]

/-- Base32 decoding inverts base32 encoding on byte strings. -/
theorem base32_roundtrip (bytes : List Nat) (hb : ∀ b ∈ bytes, b < 256) :
    base32Decode (base32Encode bytes) = some bytes := by
  unfold base32Encode base32Decode
  rw [mapM_base32CharVal (chunk5 (bytes.flatMap byteToBits))
    (chunk5_mem_length (bytes.flatMap byteToBits))]
  rw [show ∀ (a : List Nat) (f : List Nat → List Nat),
      (some a).map f = some (f a) from fun a f => rfl]
  rw [flatMap_groupToBits (chunk5 (bytes.flatMap byteToBits))
    (chunk5_mem_length (bytes.flatMap byteToBits))]
  obtain ⟨k, hk, heq⟩ := chunk5_flatten (bytes.flatMap byteToBits)
  rw [heq, chunk8_bytes bytes (List.replicate k false) (by simp; omega)]
  rw [List.map_map]
  congr 1
  rw [show (bitsToNum ∘ byteToBits) = fun b => bitsToNum (byteToBits b) from rfl]
  calc bytes.map (fun b => bitsToNum (byteToBits b))
      = bytes.map (fun b => b) := by
        apply List.map_congr_left
        intro b hbb
        exact bitsToNum_byteToBits b (hb b hbb)
    _ = bytes := by simp

/-! ### C4: the single-leaf DAG build -/

/-- A stand-in sha2-256 for witnesses: 32 bytes, each the input length
mod 256. -/
def sha256Stub : List Nat → List Nat := fun bs => List.replicate 32 (bs.length % 256)

/-- Written from the claim's words, for comparison: a UnixFS file leaf with
`Type` in field 1 (varint, value 2), the payload in field 2
(length-delimited, tag `0x12`) and a `filesize` in field 3 (varint, tag
`0x18`). -/
def claimedUnixfsLeaf (data : List Nat) : List Nat :=
  [0x08, 0x02] ++ (0x12 :: (encode_varint data.length ++ data))
    ++ (0x18 :: encode_varint data.length)

/-- For non-empty data, `_create_unixfs_file_node` wraps the UnixFS bytes
`0x08 0x02 0x22 ‖ varint(len) ‖ data` in a link-free DAG-PB node and hashes
that encoding into a dag-pb CID. -/
theorem create_unixfs_file_node_eq (sha256 : List Nat → List Nat)
    (data : List Nat) (hne : data ≠ []) :
    create_unixfs_file_node sha256 data
      = (⟨DAG_PB_CODEC, sha256 (encodePBNodeNoLinks
            ([0x08, 0x02] ++ (0x22 :: (encode_varint data.length ++ data))))⟩,
         encodePBNodeNoLinks
            ([0x08, 0x02] ++ (0x22 :: (encode_varint data.length ++ data)))) := by
  unfold create_unixfs_file_node
  rw [if_pos (show 0 < data.length by
    cases data with
    | nil => exact absurd rfl hne
    | cons a l => simp)]

/-- C4, counterexample.  For the one-byte input `[0x61]`, the single leaf
block produced by `build_dag` carries the UnixFS payload under field 4 (tag
`0x22`) and no filesize field, so its bytes differ from the claimed encoding
(payload in field 2, filesize in field 3). -/
theorem build_dag_leaf_unixfs_counterexample :
    ((build_dag_small sha256Stub [0x61] 1).toOption.map
        (fun c => c.blocks.map (fun b => b.data))
      = some [[0x0a, 0x05, 0x08, 0x02, 0x22, 0x01, 0x61]])
    ∧ encodePBNodeNoLinks (claimedUnixfsLeaf [0x61])
        ≠ [0x0a, 0x05, 0x08, 0x02, 0x22, 0x01, 0x61] :=
  ⟨by decide, by decide⟩

/-- C4, amended.  For every non-empty input of at most `block_size` bytes
(and no encryption key), `build_dag` produces exactly one leaf block whose
bytes are a DAG-PB node with empty links and whose Data field is the UnixFS
encoding `Type (field 1, varint) = 2` followed by the input bytes as a
length-delimited field 4 (tag `0x22`) — not field 2, and with no filesize
field — and the leaf's CID is the sha2-256 of those bytes under the dag-pb
codec. -/
theorem build_dag_single_leaf (sha256 : List Nat → List Nat)
    (data : List Nat) (block_size : Nat) (hne : data ≠ [])
    (hlen : data.length ≤ block_size) :
    (build_dag_small sha256 data block_size).toOption.map
        (fun c => (c.cid, c.blocks))
      = some (
          let enc := encodePBNodeNoLinks
            ([0x08, 0x02] ++ (0x22 :: (encode_varint data.length ++ data)))
          (⟨DAG_PB_CODEC, sha256 enc⟩,
           [⟨cidToString ⟨DAG_PB_CODEC, sha256 enc⟩, enc⟩])) := by
  simp only [build_dag_small]
  rw [if_neg hne, if_pos hlen, create_unixfs_file_node_eq sha256 data hne]
  rfl

/-- Witness for C4: the amended statement applied to the concrete input
`[0x61]` with block size 1. -/
theorem build_dag_single_leaf_witness :
    (build_dag_small sha256Stub [0x61] 1).toOption.map
        (fun c => (c.cid, c.blocks))
      = some (
          let enc := encodePBNodeNoLinks
            ([0x08, 0x02] ++ (0x22 :: (encode_varint (List.length [0x61]) ++ [0x61])))
          (⟨DAG_PB_CODEC, sha256Stub enc⟩,
           [⟨cidToString ⟨DAG_PB_CODEC, sha256Stub enc⟩, enc⟩])) :=
  build_dag_single_leaf sha256Stub [0x61] 1 (by decide) (by decide)

/-! ### C9: extracting block data inverts leaf creation -/

theorem cidBytes_lt256 (c : Cid) (hdig : ∀ b ∈ c.digest, b < 256) :
    ∀ b ∈ cidBytes c, b < 256 := by
  intro b hb
  unfold cidBytes at hb
  rcases List.mem_cons.1 hb with h | h
  · omega
  rcases List.mem_append.1 h with h | h
  · exact encode_varint_lt256 c.codec b h
  rcases List.mem_cons.1 h with h | h
  · omega
  rcases List.mem_append.1 h with h | h
  · exact encode_varint_lt256 c.digest.length b h
  · exact hdig b h

/-- Decoding one low byte: `decode_varint (b ‖ rest) = (b, 1)` for
`b < 128`. -/
theorem decode_varint_low (b : Nat) (rest : List Nat) (hb : b < 128) :
    decode_varint (b :: rest) = Except.ok (b, 1) := by
  unfold decode_varint decode_varint_loop
  rw [if_pos (show b % 256 < 128 by omega)]
  have : b % 128 = b := Nat.mod_eq_of_lt hb
  simp [this]

/-- Parsing the textual CID recovers the codec: multibase prefix `b`, base32
decode, then the version varint and the codec varint. -/
theorem parseCidCodec_cidToString (c : Cid) (hcodec : c.codec < 2 ^ 49)
    (hdig : ∀ b ∈ c.digest, b < 256) :
    parseCidCodec (cidToString c) = some c.codec := by
  unfold parseCidCodec cidToString
  dsimp only
  rw [if_pos rfl, base32_roundtrip (cidBytes c) (cidBytes_lt256 c hdig)]
  dsimp only
  show (match decode_varint (cidBytes c) with
    | Except.error _ => none
    | Except.ok (_ver, n1) =>
      match decode_varint ((cidBytes c).drop n1) with
      | Except.error _ => none
      | Except.ok (codec, _) => some codec) = some c.codec
  unfold cidBytes
  rw [decode_varint_low 0x01 _ (by omega)]
  dsimp only [List.drop_succ_cons, List.drop_zero]
  rw [decode_varint_encode c.codec _ hcodec]

theorem decodePBNode_encodePBNodeNoLinks (u : List Nat) (hne : u ≠ [])
    (hlen : u.length < 2 ^ 49) :
    decodePBNode (encodePBNodeNoLinks u) = some (u, 0) := by
  unfold decodePBNode encodePBNodeNoLinks
  rw [if_neg hne]
  unfold decodePBNodeLoop
  rw [if_pos (by norm_num)]
  rw [decode_varint_encode u.length u hlen]
  dsimp only
  rw [List.drop_left' rfl, if_pos (Nat.le_refl _), List.drop_length,
    List.take_length]
  unfold decodePBNodeLoop
  rfl

/-- Scanning the leaf UnixFS bytes: the varint field 1 is skipped and the
field-4 payload is returned. -/
theorem extract_unixfs_data_leaf (data : List Nat)
    (hlen : data.length < 2 ^ 49) :
    extract_unixfs_data
        ([0x08, 0x02] ++ (0x22 :: (encode_varint data.length ++ data)))
      = data := by
  unfold extract_unixfs_data
  show (match extract_unixfs_data_loop
      (0x08 :: 0x02 :: 0x22 :: (encode_varint data.length ++ data)) with
    | Except.ok r => r
    | Except.error _ => []) = data
  unfold extract_unixfs_data_loop
  rw [if_neg (by norm_num), if_neg (by norm_num), if_pos (by norm_num)]
  rw [decode_varint_low 0x02 _ (by omega)]
  dsimp only [List.drop_succ_cons, List.drop_zero]
  unfold extract_unixfs_data_loop
  rw [if_pos (by norm_num)]
  rw [decode_varint_encode data.length data hlen]
  dsimp only
  rw [List.drop_left' rfl, if_pos (Nat.le_refl _), List.take_length]

/-- C9.  For every non-empty data (shorter than 2^48 bytes, with a sha2-256
whose digests are bytes), extract_block_data applied to the CID string and
encoded bytes of `_create_unixfs_file_node(data)` returns exactly `data`;
and for every CID string whose codec parses as `raw`, extract_block_data
returns the supplied bytes unchanged. -/
theorem extract_block_data_inverts_leaf (sha256 : List Nat → List Nat)
    (hdig : ∀ bs, ∀ b ∈ sha256 bs, b < 256)
    (data : List Nat) (hne : data ≠ []) (hlen : data.length < 2 ^ 48) :
    (extract_block_data (cidToString (create_unixfs_file_node sha256 data).1)
        (create_unixfs_file_node sha256 data).2 = data)
    ∧ (∀ (s : String) (bs : List Nat), parseCidCodec s = some RAW_CODEC →
        extract_block_data s bs = bs) := by
  constructor
  · rw [create_unixfs_file_node_eq sha256 data hne]
    dsimp only
    unfold extract_block_data
    rw [parseCidCodec_cidToString _ (by norm_num [DAG_PB_CODEC])
      (fun b hb => hdig _ b hb)]
    dsimp only
    rw [if_pos rfl]
    have hvlen : (encode_varint data.length).length ≤ 7 := by
      refine encode_varint_length_le 6 data.length ?_
      have : (128 : Nat) ^ 7 = 2 ^ 49 := by norm_num
      have h48 : (2 : Nat) ^ 48 < 2 ^ 49 := by norm_num
      omega
    have hulen : ([0x08, 0x02]
        ++ (0x22 :: (encode_varint data.length ++ data))).length < 2 ^ 49 := by
      simp only [List.length_append, List.length_cons, List.length_nil]
      have h48 : (2 : Nat) ^ 48 + 2 ^ 48 = 2 ^ 49 := by norm_num
      omega
    rw [decodePBNode_encodePBNodeNoLinks _ (by simp) hulen]
    dsimp only
    rw [if_pos (by simp)]
    rw [extract_unixfs_data_leaf data (by
      have h48 : (2 : Nat) ^ 48 < 2 ^ 49 := by norm_num
      omega)]
    cases data with
    | nil => exact absurd rfl hne
    | cons a l => rfl
  · intro s bs hs
    unfold extract_block_data
    rw [hs]
    dsimp only
    rw [if_neg (by norm_num [RAW_CODEC, DAG_PB_CODEC]), if_pos rfl]

/-- Witness for C9: the round trip at the concrete input `[0x61]` with the
stand-in hash. -/
theorem extract_block_data_inverts_leaf_witness :
    extract_block_data (cidToString (create_unixfs_file_node sha256Stub [0x61]).1)
        (create_unixfs_file_node sha256Stub [0x61]).2 = [0x61] :=
  (extract_block_data_inverts_leaf sha256Stub
    (fun bs b hb => by
      have := List.eq_of_mem_replicate hb
      omega)
    [0x61] (by decide) (by norm_num)).1

/-! ## Erasure coding (`sdk/erasure_code.py`)

The `reedsolo` library is external; it is modelled from the spec (§4.4):
`RSCodec(m)` works in GF(2^8) = F₂[x]/(x⁸+x⁴+x³+x²+1) with generator α = 2,
encodes a k-byte message (big-endian polynomial, index 0 = highest degree)
by appending the m-byte remainder of `msg·xᵐ` by the generator polynomial
`∏ i < m, (x − αⁱ)`, and corrects up to m erasures (more erasures raise
"Too many erasures to correct").  The field is built as `AdjoinRoot` of the
reduction polynomial over `ZMod 2`; byte arithmetic is computable on bit
lists and transported by a map `ψ`. -/

/-- Little-endian coefficient list as a polynomial over `ZMod 2` (proof-side
only; the program-side arithmetic stays on computable bit lists). -/
noncomputable def toPolyLE : List (ZMod 2) → Polynomial (ZMod 2)
  | [] => 0
  | a :: t => Polynomial.C a + Polynomial.X * toPolyLE t

theorem toPolyLE_coeff : ∀ (l : List (ZMod 2)) (i : Nat),
    (toPolyLE l).coeff i = l.getD i 0 := by
  intro l
  induction l with
  | nil => intro i; simp [toPolyLE]
  | cons a t ih =>
    intro i
    cases i with
    | zero => simp [toPolyLE, Polynomial.mul_coeff_zero]
    | succ i => simp [toPolyLE, Polynomial.coeff_X_mul, ih]

/-- Pointwise sum of coefficient lists (xor of bit lists). -/
def addBits : List (ZMod 2) → List (ZMod 2) → List (ZMod 2)
  | [], l2 => l2
  | a :: t, [] => a :: t
  | a :: t, b :: s => (a + b) :: addBits t s

theorem addBits_length : ∀ l1 l2 : List (ZMod 2),
    (addBits l1 l2).length = max l1.length l2.length := by
  intro l1
  induction l1 with
  | nil => intro l2; simp [addBits]
  | cons a t ih =>
    intro l2
    cases l2 with
    | nil => simp [addBits]
    | cons b s => simp [addBits, ih s, Nat.succ_max_succ]

theorem toPolyLE_addBits : ∀ l1 l2 : List (ZMod 2),
    toPolyLE (addBits l1 l2) = toPolyLE l1 + toPolyLE l2 := by
  intro l1
  induction l1 with
  | nil => intro l2; simp [addBits, toPolyLE]
  | cons a t ih =>
    intro l2
    cases l2 with
    | nil => simp [addBits, toPolyLE]
    | cons b s =>
      simp only [addBits, toPolyLE, ih s, map_add]
      ring

/-- Coefficient-list product of polynomials. -/
def mulBits : List (ZMod 2) → List (ZMod 2) → List (ZMod 2)
  | [], _ => []
  | a :: t, l2 => addBits (l2.map (fun b => a * b)) ((0 : ZMod 2) :: mulBits t l2)

theorem toPolyLE_map_mul (c : ZMod 2) : ∀ l : List (ZMod 2),
    toPolyLE (l.map (fun b => c * b)) = Polynomial.C c * toPolyLE l := by
  intro l
  induction l with
  | nil => simp [toPolyLE]
  | cons a t ih =>
    simp only [List.map_cons, toPolyLE, ih, map_mul]
    ring

theorem toPolyLE_mulBits : ∀ l1 l2 : List (ZMod 2),
    toPolyLE (mulBits l1 l2) = toPolyLE l1 * toPolyLE l2 := by
  intro l1
  induction l1 with
  | nil => intro l2; simp [mulBits, toPolyLE]
  | cons a t ih =>
    intro l2
    simp only [mulBits, toPolyLE, toPolyLE_addBits, toPolyLE_map_mul, ih, map_zero]
    ring

theorem toPolyLE_append : ∀ l1 l2 : List (ZMod 2),
    toPolyLE (l1 ++ l2) = toPolyLE l1 + Polynomial.X ^ l1.length * toPolyLE l2 := by
  intro l1
  induction l1 with
  | nil => intro l2; simp [toPolyLE]
  | cons a t ih =>
    intro l2
    show toPolyLE (a :: (t ++ l2)) = _
    simp only [toPolyLE, List.length_cons, pow_succ]
    rw [ih l2]
    ring

theorem toPolyLE_replicate_zero (s : Nat) :
    toPolyLE (List.replicate s 0) = 0 := by
  induction s with
  | zero => rfl
  | succ s ih => simp [List.replicate_succ, toPolyLE, ih]

/-- Binary value of a bit list (for comparing coefficient lists). -/
def natOfBits : List (ZMod 2) → Nat
  | [] => 0
  | a :: t => a.val + 2 * natOfBits t

theorem natOfBits_zero_of (l : List (ZMod 2)) (h : ∀ i, l.getD i 0 = 0) :
    natOfBits l = 0 := by
  induction l with
  | nil => rfl
  | cons a t ih =>
    have h0 := h 0
    rw [List.getD_cons_zero] at h0
    have ht : natOfBits t = 0 := ih (fun i => by
      have := h (i + 1)
      rwa [List.getD_cons_succ] at this)
    simp [natOfBits, h0, ht]

theorem natOfBits_congr : ∀ l1 l2 : List (ZMod 2),
    (∀ i, l1.getD i 0 = l2.getD i 0) → natOfBits l1 = natOfBits l2 := by
  intro l1
  induction l1 with
  | nil =>
    intro l2 h
    rw [show natOfBits [] = 0 from rfl,
      natOfBits_zero_of l2 (fun i => by rw [← h i]; rfl)]
  | cons a t ih =>
    intro l2 h
    cases l2 with
    | nil =>
      rw [natOfBits_zero_of (a :: t) (fun i => by rw [h i]; rfl)]
      rfl
    | cons b s =>
      have h0 := h 0
      rw [List.getD_cons_zero, List.getD_cons_zero] at h0
      have ht := ih s (fun i => by
        have := h (i + 1)
        rwa [List.getD_cons_succ, List.getD_cons_succ] at this)
      simp [natOfBits, h0, ht]

theorem natOfBits_of_toPolyLE_eq (l1 l2 : List (ZMod 2))
    (h : toPolyLE l1 = toPolyLE l2) : natOfBits l1 = natOfBits l2 :=
  natOfBits_congr l1 l2 (fun i => by rw [← toPolyLE_coeff, ← toPolyLE_coeff, h])

/-- All bit lists of a given length. -/
def allBits : Nat → List (List (ZMod 2))
  | 0 => [[]]
  | n + 1 => (allBits n).flatMap (fun t => [(0 : ZMod 2) :: t, 1 :: t])

theorem mem_allBits : ∀ (n : Nat) (l : List (ZMod 2)),
    l ∈ allBits n ↔ l.length = n := by
  intro n
  induction n with
  | zero =>
    intro l
    simp [allBits, List.length_eq_zero]
  | succ n ih =>
    intro l
    simp only [allBits, List.mem_flatMap, List.mem_cons, List.mem_singleton,
      List.not_mem_nil, or_false]
    constructor
    · rintro ⟨t, ht, h | h⟩ <;> subst h <;> simp [(ih t).1 ht]
    · intro hl
      cases l with
      | nil => simp at hl
      | cons a t =>
        refine ⟨t, (ih t).2 (by simpa using hl), ?_⟩
        have htwo : ∀ c : ZMod 2, c = 0 ∨ c = 1 := by decide
        rcases htwo a with rfl | rfl
        · exact Or.inl rfl
        · exact Or.inr rfl

/-- Bit list (little-endian) of the reedsolo reduction polynomial
`0x11d = x⁸ + x⁴ + x³ + x² + 1`. -/
def Pbits : List (ZMod 2) := [1, 0, 1, 1, 1, 0, 0, 0, 1]

/-- The reduction polynomial of GF(2^8). -/
noncomputable def Pgf : Polynomial (ZMod 2) := toPolyLE Pbits

theorem toPolyLE_degree_lt (l : List (ZMod 2)) :
    (toPolyLE l).degree < (l.length : Nat) := by
  rw [Polynomial.degree_lt_iff_coeff_zero]
  intro m hm
  rw [toPolyLE_coeff]
  exact List.getD_eq_default _ _ (by exact_mod_cast hm)

theorem Pgf_coeff8 : Pgf.coeff 8 = 1 := by
  rw [Pgf, toPolyLE_coeff]
  rfl

theorem Pgf_natDegree : Pgf.natDegree = 8 := by
  refine le_antisymm ?_ (Polynomial.le_natDegree_of_ne_zero ?_)
  · rw [Pgf]
    refine Polynomial.natDegree_le_iff_coeff_eq_zero.2 ?_
    intro m hm
    rw [toPolyLE_coeff]
    refine List.getD_eq_default _ _ ?_
    simp only [Pbits, List.length_cons, List.length_nil]
    omega
  · rw [Pgf_coeff8]
    exact one_ne_zero

theorem Pgf_ne_zero : Pgf ≠ 0 := by
  intro h
  have := Pgf_coeff8
  rw [h] at this
  simp at this

theorem Pgf_monic : Pgf.Monic := by
  rw [Polynomial.Monic, Polynomial.leadingCoeff, Pgf_natDegree]
  exact Pgf_coeff8

theorem Pgf_degree : Pgf.degree = 8 := by
  rw [Polynomial.degree_eq_natDegree Pgf_ne_zero, Pgf_natDegree]
  norm_cast

set_option maxRecDepth 10000 in
/-- `Pgf` has no factorization into monic parts of degrees `d` and `8 - d`
with `1 ≤ d ≤ 4`: checked over all 1024 coefficient lists. -/
theorem no_small_factor :
    ∀ d1 ∈ [1, 2, 3, 4], ∀ t1 ∈ allBits d1, ∀ t2 ∈ allBits (8 - d1),
      natOfBits (mulBits (t1 ++ [1]) (t2 ++ [1])) ≠ natOfBits Pbits := by
  decide

/-- Every nonzero polynomial over `ZMod 2` is its coefficient list with a
leading 1. -/
theorem poly_eq_toPolyLE (q : Polynomial (ZMod 2)) (hq : q ≠ 0) :
    q = toPolyLE (((List.range q.natDegree).map q.coeff) ++ [1]) := by
  have hlc : q.coeff q.natDegree = 1 := by
    have h0 : q.leadingCoeff ≠ 0 := by
      simpa [Polynomial.leadingCoeff_ne_zero] using hq
    have htwo : ∀ c : ZMod 2, c ≠ 0 → c = 1 := by decide
    exact htwo _ h0
  apply Polynomial.ext
  intro i
  rw [toPolyLE_coeff]
  rcases lt_trichotomy i q.natDegree with h | h | h
  · rw [List.getD_eq_getElem?_getD, List.getElem?_append,
      if_pos (by simpa using h)]
    simp [List.getElem?_range h]
  · subst h
    rw [List.getD_eq_getElem?_getD, List.getElem?_append_right (by simp)]
    simp [hlc]
  · rw [Polynomial.coeff_eq_zero_of_natDegree_lt h]
    refine (List.getD_eq_default _ _ ?_).symm
    simp only [List.length_append, List.length_map, List.length_range,
      List.length_cons, List.length_nil]
    omega

theorem no_factor_aux (q r : Polynomial (ZMod 2)) (hq0 : q ≠ 0) (hr0 : r ≠ 0)
    (h1 : 1 ≤ q.natDegree) (h4 : q.natDegree ≤ 4) (hqr : q * r = Pgf) :
    False := by
  have hdeg : q.natDegree + r.natDegree = 8 := by
    have h := Polynomial.natDegree_mul hq0 hr0
    rw [hqr, Pgf_natDegree] at h
    omega
  have hmul : toPolyLE (mulBits ((List.range q.natDegree).map q.coeff ++ [1])
      ((List.range r.natDegree).map r.coeff ++ [1])) = toPolyLE Pbits := by
    rw [toPolyLE_mulBits, ← poly_eq_toPolyLE q hq0, ← poly_eq_toPolyLE r hr0,
      hqr, Pgf]
  exact no_small_factor q.natDegree (by
      simp only [List.mem_cons, List.not_mem_nil, or_false]
      omega)
    _ ((mem_allBits _ _).2 (by simp))
    _ ((mem_allBits _ _).2 (by simp; omega))
    (natOfBits_of_toPolyLE_eq _ _ hmul)

theorem Pgf_irreducible : Irreducible Pgf := by
  constructor
  · intro h
    have := Polynomial.natDegree_eq_zero_of_isUnit h
    rw [Pgf_natDegree] at this
    exact absurd this (by norm_num)
  · intro a b hab
    by_contra hcon
    push_neg at hcon
    obtain ⟨ha, hb⟩ := hcon
    have ha0 : a ≠ 0 := by
      rintro rfl
      rw [zero_mul] at hab
      exact Pgf_ne_zero hab
    have hb0 : b ≠ 0 := by
      rintro rfl
      rw [mul_zero] at hab
      exact Pgf_ne_zero hab
    have hdeg : a.natDegree + b.natDegree = 8 := by
      have h := Polynomial.natDegree_mul ha0 hb0
      rw [← hab, Pgf_natDegree] at h
      omega
    have hunit0 : ∀ p : Polynomial (ZMod 2), p ≠ 0 → p.natDegree = 0 →
        IsUnit p := by
      intro p hp0 hpd
      rw [Polynomial.isUnit_iff_degree_eq_zero,
        Polynomial.degree_eq_natDegree hp0, hpd]
      rfl
    have ha1 : 1 ≤ a.natDegree := by
      rcases Nat.eq_zero_or_pos a.natDegree with h0 | h0
      · exact absurd (hunit0 a ha0 h0) ha
      · omega
    have hb1 : 1 ≤ b.natDegree := by
      rcases Nat.eq_zero_or_pos b.natDegree with h0 | h0
      · exact absurd (hunit0 b hb0 h0) hb
      · omega
    rcases le_or_lt a.natDegree 4 with h4 | h4
    · exact no_factor_aux a b ha0 hb0 ha1 h4 hab.symm
    · exact no_factor_aux b a hb0 ha0 hb1 (by omega)
        (by rw [mul_comm]; exact hab.symm)

instance : Fact (Irreducible Pgf) := ⟨Pgf_irreducible⟩

/-- GF(2^8), the coefficient field of the reedsolo code. -/
abbrev K : Type := AdjoinRoot Pgf

/-- Transport of a coefficient list into GF(2^8). -/
noncomputable def ψbits (l : List (ZMod 2)) : K := AdjoinRoot.mk Pgf (toPolyLE l)

/-- The 8 bits of a byte, little-endian. -/
def byteBits (b : Nat) : List (ZMod 2) :=
  [(b % 2 : Nat), (b / 2 % 2 : Nat), (b / 4 % 2 : Nat), (b / 8 % 2 : Nat),
   (b / 16 % 2 : Nat), (b / 32 % 2 : Nat), (b / 64 % 2 : Nat),
   (b / 128 % 2 : Nat)]

/-- The byte of a bit list, little-endian. -/
def bitsByte (l : List (ZMod 2)) : Nat := l.foldr (fun a acc => a.val + 2 * acc) 0

/-- Transport of a byte into GF(2^8). -/
noncomputable def ψ (b : Nat) : K := ψbits (byteBits b)

theorem ψbits_addBits (l1 l2 : List (ZMod 2)) :
    ψbits (addBits l1 l2) = ψbits l1 + ψbits l2 := by
  unfold ψbits
  rw [toPolyLE_addBits, map_add]

theorem ψbits_mulBits (l1 l2 : List (ZMod 2)) :
    ψbits (mulBits l1 l2) = ψbits l1 * ψbits l2 := by
  unfold ψbits
  rw [toPolyLE_mulBits, map_mul]

theorem byteBits_length (b : Nat) : (byteBits b).length = 8 := rfl

set_option maxRecDepth 10000 in
theorem byteBits_bitsByte_mem : ∀ l ∈ allBits 8, byteBits (bitsByte l) = l := by
  decide

theorem byteBits_bitsByte (l : List (ZMod 2)) (hl : l.length = 8) :
    byteBits (bitsByte l) = l :=
  byteBits_bitsByte_mem l ((mem_allBits 8 l).2 hl)

set_option maxRecDepth 10000 in
theorem bitsByte_byteBits_mem : ∀ b ∈ List.range 256, bitsByte (byteBits b) = b := by
  decide

theorem bitsByte_byteBits (b : Nat) (hb : b < 256) :
    bitsByte (byteBits b) = b :=
  bitsByte_byteBits_mem b (List.mem_range.2 hb)

theorem bitsByte_lt : ∀ l : List (ZMod 2), bitsByte l < 2 ^ l.length := by
  intro l
  induction l with
  | nil => simp [bitsByte]
  | cons a t ih =>
    show a.val + 2 * bitsByte t < 2 ^ (t.length + 1)
    have ha : a.val < 2 := ZMod.val_lt a
    rw [pow_succ]
    omega

/-- One reduction sweep (fueled): add the top-coefficient multiple of `Pgf`
(subtraction in characteristic 2) until the degree is below 8; the result is
an 8-bit list. -/
def modPgo : Nat → List (ZMod 2) → List (ZMod 2)
  | 0, l => (l ++ List.replicate 8 0).take 8
  | f + 1, l =>
    if l.length ≤ 8 then l ++ List.replicate (8 - l.length) 0
    else modPgo f ((addBits l (List.replicate (l.length - 9) 0
        ++ Pbits.map (fun b => l.getD (l.length - 1) 0 * b))).take (l.length - 1))

/-- Remainder modulo the reduction polynomial, as an 8-bit list. -/
def modPbits (l : List (ZMod 2)) : List (ZMod 2) := modPgo l.length l

theorem getD_addBits : ∀ (l1 l2 : List (ZMod 2)) (i : Nat),
    (addBits l1 l2).getD i 0 = l1.getD i 0 + l2.getD i 0 := by
  intro l1
  induction l1 with
  | nil => intro l2 i; simp [addBits, List.getD]
  | cons a t ih =>
    intro l2 i
    cases l2 with
    | nil => simp [addBits, List.getD]
    | cons b s =>
      cases i with
      | zero => simp [addBits]
      | succ i =>
        rw [show addBits (a :: t) (b :: s) = (a + b) :: addBits t s from rfl,
          List.getD_cons_succ, List.getD_cons_succ, List.getD_cons_succ,
          ih s i]

theorem list_eq_of_getD (l1 l2 : List (ZMod 2)) (hlen : l1.length = l2.length)
    (h : ∀ i, l1.getD i 0 = l2.getD i 0) : l1 = l2 := by
  apply List.ext_getElem hlen
  intro i h1 h2
  have hi := h i
  rwa [List.getD_eq_getElem?_getD, List.getD_eq_getElem?_getD,
    List.getElem?_eq_getElem h1, List.getElem?_eq_getElem h2,
    Option.getD_some, Option.getD_some] at hi

theorem modPgo_length : ∀ (f : Nat) (l : List (ZMod 2)),
    (modPgo f l).length = 8 := by
  intro f
  induction f with
  | zero =>
    intro l
    simp only [modPgo, List.length_take, List.length_append,
      List.length_replicate]
    omega
  | succ f ih =>
    intro l
    by_cases h : l.length ≤ 8
    · simp only [modPgo, if_pos h, List.length_append, List.length_replicate]
      omega
    · simp only [modPgo, if_neg h]
      exact ih _

theorem ψbits_take_of_pad (l : List (ZMod 2)) (hl : l.length ≤ 8) :
    ψbits ((l ++ List.replicate 8 0).take 8) = ψbits l := by
  unfold ψbits
  congr 1
  rw [List.take_append_eq_append_take, List.take_of_length_le (by omega),
    List.take_replicate, toPolyLE_append, toPolyLE_replicate_zero, mul_zero,
    add_zero]

theorem ψbits_pad (l : List (ZMod 2)) (s : Nat) :
    ψbits (l ++ List.replicate s 0) = ψbits l := by
  unfold ψbits
  congr 1
  rw [toPolyLE_append, toPolyLE_replicate_zero, mul_zero, add_zero]

theorem ψbits_modPgo : ∀ (f : Nat) (l : List (ZMod 2)), l.length ≤ f + 8 →
    ψbits (modPgo f l) = ψbits l := by
  intro f
  induction f with
  | zero =>
    intro l hl
    show ψbits ((l ++ List.replicate 8 0).take 8) = ψbits l
    exact ψbits_take_of_pad l (by omega)
  | succ f ih =>
    intro l hl
    by_cases h : l.length ≤ 8
    · simp only [modPgo, if_pos h]
      exact ψbits_pad l _
    · simp only [modPgo, if_neg h]
      set c := l.getD (l.length - 1) 0 with hc
      set sh := List.replicate (l.length - 9) 0 ++ Pbits.map (fun b => c * b)
        with hsh
      have hshlen : sh.length = l.length := by
        rw [hsh]
        simp only [List.length_append, List.length_replicate, List.length_map]
        show l.length - 9 + Pbits.length = l.length
        simp only [Pbits, List.length_cons, List.length_nil]
        omega
      have hAlen : (addBits l sh).length = l.length := by
        rw [addBits_length, hshlen, max_self]
      have hlast : (addBits l sh).getD (l.length - 1) 0 = 0 := by
        rw [getD_addBits]
        have hshl : sh.getD (l.length - 1) 0 = c := by
          rw [hsh, List.getD_eq_getElem?_getD,
            List.getElem?_append_right (by simp; omega)]
          have : l.length - 1 - (l.length - 9) = 8 := by omega
          rw [List.length_replicate, this]
          show ((Pbits.map fun b => c * b)[8]?).getD 0 = c
          simp [Pbits]
        rw [hshl, ← hc]
        have htwo : ∀ x : ZMod 2, x + x = 0 := by decide
        exact htwo c
      have hsplit : ψbits (addBits l sh) =
          ψbits ((addBits l sh).take (l.length - 1)) := by
        conv_lhs => rw [← List.take_append_drop (l.length - 1) (addBits l sh)]
        have hdrop : (addBits l sh).drop (l.length - 1) = [0] := by
          apply List.ext_getElem
          · rw [List.length_drop, hAlen]
            simp only [List.length_cons, List.length_nil]
            omega
          · intro i h1 h2
            rw [List.length_drop, hAlen] at h1
            have hi : i = 0 := by omega
            subst hi
            rw [List.getElem_drop]
            have hL := hlast
            rw [List.getD_eq_getElem?_getD,
              List.getElem?_eq_getElem (by omega), Option.getD_some] at hL
            simpa using hL
        rw [hdrop, show [(0 : ZMod 2)] = List.replicate 1 0 from rfl,
          ψbits_pad]
      rw [ih _ (by rw [List.length_take, hAlen]; omega), ← hsplit,
        ψbits_addBits]
      have hsh0 : ψbits sh = 0 := by
        rw [hsh]
        unfold ψbits
        rw [AdjoinRoot.mk_eq_zero, toPolyLE_append, toPolyLE_replicate_zero,
          toPolyLE_map_mul]
        rw [show toPolyLE Pbits = Pgf from rfl]
        exact Dvd.dvd.add (dvd_zero Pgf)
          ⟨Polynomial.X ^ (List.replicate (l.length - 9) (0 : ZMod 2)).length
              * Polynomial.C c, by ring⟩
      rw [hsh0, add_zero]

theorem ψbits_modPbits (l : List (ZMod 2)) : ψbits (modPbits l) = ψbits l :=
  ψbits_modPgo l.length l (by omega)

theorem modPbits_length (l : List (ZMod 2)) : (modPbits l).length = 8 :=
  modPgo_length l.length l

/-- Byte addition in GF(2^8) (xor, computed on bit lists). -/
def gfAdd (a b : Nat) : Nat := bitsByte (addBits (byteBits a) (byteBits b))

/-- Byte multiplication in GF(2^8): carry-less product reduced mod
`x⁸+x⁴+x³+x²+1`. -/
def gfMul (a b : Nat) : Nat :=
  bitsByte (modPbits (mulBits (byteBits a) (byteBits b)))

/-- Byte power in GF(2^8). -/
def gfPow (a : Nat) : Nat → Nat
  | 0 => 1
  | n + 1 => gfMul (gfPow a n) a

theorem gfAdd_lt (a b : Nat) : gfAdd a b < 256 := by
  have h := bitsByte_lt (addBits (byteBits a) (byteBits b))
  rwa [addBits_length, byteBits_length, byteBits_length, max_self] at h

theorem gfMul_lt (a b : Nat) : gfMul a b < 256 := by
  have h := bitsByte_lt (modPbits (mulBits (byteBits a) (byteBits b)))
  rwa [modPbits_length] at h

theorem gfPow_lt (a : Nat) : ∀ n, gfPow a n < 256
  | 0 => by norm_num [gfPow]
  | n + 1 => gfMul_lt _ _

theorem ψ_gfAdd (a b : Nat) : ψ (gfAdd a b) = ψ a + ψ b := by
  unfold ψ gfAdd
  rw [byteBits_bitsByte _ (by
    rw [addBits_length, byteBits_length, byteBits_length, max_self])]
  exact ψbits_addBits _ _

theorem ψ_gfMul (a b : Nat) : ψ (gfMul a b) = ψ a * ψ b := by
  unfold ψ gfMul
  rw [byteBits_bitsByte _ (modPbits_length _), ψbits_modPbits, ψbits_mulBits]

theorem ψ_zero : ψ 0 = 0 := by
  have h : byteBits 0 = List.replicate 8 0 := by decide
  unfold ψ ψbits
  rw [h, toPolyLE_replicate_zero, map_zero]

theorem ψ_one : ψ 1 = 1 := by
  have h : byteBits 1 = 1 :: List.replicate 7 0 := by decide
  unfold ψ ψbits
  rw [h, show toPolyLE (1 :: List.replicate 7 0)
    = Polynomial.C 1 + Polynomial.X * toPolyLE (List.replicate 7 0) from rfl,
    toPolyLE_replicate_zero, mul_zero, add_zero, map_one, map_one]

theorem ψ_gfPow (a : Nat) : ∀ n, ψ (gfPow a n) = ψ a ^ n
  | 0 => by rw [gfPow, ψ_one, pow_zero]
  | n + 1 => by rw [gfPow, ψ_gfMul, ψ_gfPow a n, pow_succ]

theorem ψ_inj (a b : Nat) (ha : a < 256) (hb : b < 256) (h : ψ a = ψ b) :
    a = b := by
  unfold ψ ψbits at h
  rw [AdjoinRoot.mk_eq_mk] at h
  have hz : toPolyLE (byteBits a) - toPolyLE (byteBits b) = 0 := by
    refine Polynomial.eq_zero_of_dvd_of_degree_lt h ?_
    refine lt_of_le_of_lt (Polynomial.degree_sub_le _ _) ?_
    rw [Pgf_degree]
    refine max_lt ?_ ?_
    · have hd := toPolyLE_degree_lt (byteBits a)
      rw [byteBits_length] at hd
      exact_mod_cast hd
    · have hd := toPolyLE_degree_lt (byteBits b)
      rw [byteBits_length] at hd
      exact_mod_cast hd
  have hp : toPolyLE (byteBits a) = toPolyLE (byteBits b) := by
    rwa [sub_eq_zero] at hz
  have hlist : byteBits a = byteBits b := by
    refine list_eq_of_getD _ _ (by rw [byteBits_length, byteBits_length]) ?_
    intro i
    rw [← toPolyLE_coeff, ← toPolyLE_coeff, hp]
  calc a = bitsByte (byteBits a) := (bitsByte_byteBits a ha).symm
    _ = bitsByte (byteBits b) := by rw [hlist]
    _ = b := bitsByte_byteBits b hb

theorem K_add_self (x : K) : x + x = 0 := by
  have h1 : (1 : K) + 1 = 0 := by
    have h := map_add (algebraMap (ZMod 2) K) 1 1
    rw [map_one] at h
    rw [← h, show ((1 : ZMod 2) + 1) = 0 from by decide, map_zero]
  calc x + x = ((1 : K) + 1) * x := by ring
    _ = 0 := by rw [h1, zero_mul]

/-- The generator α = 2 of the multiplicative group of GF(2^8), as the
adjoined root. -/
noncomputable def αK : K := ψ 2

theorem alphaK_eq_root : αK = AdjoinRoot.root Pgf := by
  have h : byteBits 2 = 0 :: 1 :: List.replicate 6 0 := by decide
  unfold αK ψ ψbits
  rw [h, show toPolyLE (0 :: 1 :: List.replicate 6 0)
    = Polynomial.C 0 + Polynomial.X * (Polynomial.C 1
        + Polynomial.X * toPolyLE (List.replicate 6 0)) from rfl,
    toPolyLE_replicate_zero, mul_zero, add_zero, map_zero, map_one, zero_add,
    mul_one, AdjoinRoot.mk_X]

set_option maxRecDepth 10000 in
theorem gf_pow_chain : gfPow 2 17 = 152 ∧ gfPow 152 5 = 214 ∧ gfPow 214 3 = 1
    ∧ gfPow 2 15 = 38 ∧ gfPow 152 3 = 10 := by decide

theorem alphaK_pow_17 : αK ^ 17 = ψ 152 := by
  unfold αK
  rw [← ψ_gfPow, gf_pow_chain.1]

theorem alphaK_pow_85 : αK ^ 85 = ψ 214 := by
  rw [show (85 : Nat) = 17 * 5 from rfl, pow_mul, alphaK_pow_17, ← ψ_gfPow,
    gf_pow_chain.2.1]

theorem alphaK_pow_51 : αK ^ 51 = ψ 10 := by
  rw [show (51 : Nat) = 17 * 3 from rfl, pow_mul, alphaK_pow_17, ← ψ_gfPow,
    gf_pow_chain.2.2.2.2]

theorem alphaK_pow_15 : αK ^ 15 = ψ 38 := by
  unfold αK
  rw [← ψ_gfPow, gf_pow_chain.2.2.2.1]

theorem alphaK_pow_255 : αK ^ 255 = 1 := by
  rw [show (255 : Nat) = 17 * 5 * 3 from rfl, pow_mul, pow_mul, alphaK_pow_17,
    ← ψ_gfPow, gf_pow_chain.2.1, ← ψ_gfPow, gf_pow_chain.2.2.1, ψ_one]

theorem alphaK_ne_one_15 : αK ^ 15 ≠ 1 := by
  rw [alphaK_pow_15, ← ψ_one]
  intro h
  exact absurd (ψ_inj 38 1 (by norm_num) (by norm_num) h) (by norm_num)

theorem alphaK_ne_one_51 : αK ^ 51 ≠ 1 := by
  rw [alphaK_pow_51, ← ψ_one]
  intro h
  exact absurd (ψ_inj 10 1 (by norm_num) (by norm_num) h) (by norm_num)

theorem alphaK_ne_one_85 : αK ^ 85 ≠ 1 := by
  rw [alphaK_pow_85, ← ψ_one]
  intro h
  exact absurd (ψ_inj 214 1 (by norm_num) (by norm_num) h) (by norm_num)

theorem alphaK_ne_zero : αK ≠ 0 := by
  unfold αK
  rw [← ψ_zero]
  intro h
  exact absurd (ψ_inj 2 0 (by norm_num) (by norm_num) h) (by norm_num)

set_option maxRecDepth 4000 in
theorem orderOf_alphaK : orderOf αK = 255 := by
  have hdvd : orderOf αK ∣ 255 := orderOf_dvd_of_pow_eq_one alphaK_pow_255
  by_contra hne
  have hle : orderOf αK ≤ 255 := Nat.le_of_dvd (by norm_num) hdvd
  have key : ∀ d, d < 256 → d ∣ 255 → d ≠ 255 →
      (d ∣ 85 ∨ d ∣ 51 ∨ d ∣ 15) := by decide
  rcases key _ (by omega) hdvd hne with h | h | h
  · exact alphaK_ne_one_85 (orderOf_dvd_iff_pow_eq_one.1 h)
  · exact alphaK_ne_one_51 (orderOf_dvd_iff_pow_eq_one.1 h)
  · exact alphaK_ne_one_15 (orderOf_dvd_iff_pow_eq_one.1 h)

theorem alphaK_pow_cancel (a b : Nat) (hab : a ≤ b) (h : αK ^ a = αK ^ b)
    (hlt : b - a < 255) : a = b := by
  have hsplit : αK ^ b = αK ^ a * αK ^ (b - a) := by
    rw [← pow_add]
    congr 1
    omega
  rw [hsplit] at h
  have h1 : αK ^ a * 1 = αK ^ a * αK ^ (b - a) := by
    rw [mul_one]
    exact h
  have h2 := mul_left_cancel₀ (pow_ne_zero a alphaK_ne_zero) h1
  have hd := orderOf_dvd_iff_pow_eq_one.2 h2.symm
  rw [orderOf_alphaK] at hd
  have := Nat.eq_zero_of_dvd_of_lt hd hlt
  omega

theorem alphaK_pow_inj (a b : Nat) (ha : a < 255) (hb : b < 255)
    (h : αK ^ a = αK ^ b) : a = b := by
  rcases le_total a b with hab | hab
  · exact alphaK_pow_cancel a b hab h (by omega)
  · exact (alphaK_pow_cancel b a hab h.symm (by omega)).symm

/-- Horner evaluation of a big-endian byte polynomial at a field point
(index 0 is the highest-degree coefficient, as in reedsolo). -/
noncomputable def evalBE (z : K) (l : List Nat) : K :=
  l.foldl (fun acc b => acc * z + ψ b) 0

theorem evalBE_foldl_acc (z : K) : ∀ (l : List Nat) (a : K),
    l.foldl (fun acc b => acc * z + ψ b) a = a * z ^ l.length + evalBE z l := by
  intro l
  induction l with
  | nil =>
    intro a
    show a = a * z ^ 0 + (0 : K)
    rw [pow_zero, mul_one, add_zero]
  | cons b t ih =>
    intro a
    show t.foldl _ (a * z + ψ b) = _
    rw [ih (a * z + ψ b)]
    have hbt : evalBE z (b :: t) = (0 * z + ψ b) * z ^ t.length + evalBE z t := by
      show t.foldl _ (0 * z + ψ b) = _
      rw [ih (0 * z + ψ b)]
    rw [hbt]
    show _ = a * z ^ (t.length + 1) + _
    rw [pow_succ]
    ring

theorem evalBE_cons (z : K) (b : Nat) (t : List Nat) :
    evalBE z (b :: t) = ψ b * z ^ t.length + evalBE z t := by
  show t.foldl _ (0 * z + ψ b) = _
  rw [evalBE_foldl_acc]
  ring

theorem evalBE_append (z : K) (l1 l2 : List Nat) :
    evalBE z (l1 ++ l2) = evalBE z l1 * z ^ l2.length + evalBE z l2 := by
  unfold evalBE
  rw [List.foldl_append]
  rw [show (l1.foldl (fun acc b => acc * z + ψ b) 0) = evalBE z l1 from rfl,
    evalBE_foldl_acc]
  rfl

theorem evalBE_replicate_zero (z : K) (m : Nat) :
    evalBE z (List.replicate m 0) = 0 := by
  induction m with
  | zero => rfl
  | succ m ih =>
    rw [List.replicate_succ, evalBE_cons, ih, ψ_zero, zero_mul, add_zero]

theorem evalBE_zipWith_gfAdd (z : K) : ∀ l1 l2 : List Nat,
    l1.length = l2.length →
    evalBE z (List.zipWith gfAdd l1 l2) = evalBE z l1 + evalBE z l2 := by
  intro l1
  induction l1 with
  | nil =>
    intro l2 h
    have : l2 = [] := List.eq_nil_of_length_eq_zero (by simpa using h.symm)
    subst this
    show (0 : K) = 0 + 0
    rw [add_zero]
  | cons a t ih =>
    intro l2 h
    cases l2 with
    | nil => simp at h
    | cons b s =>
      show evalBE z (gfAdd a b :: List.zipWith gfAdd t s) = _
      rw [evalBE_cons, evalBE_cons, evalBE_cons, ψ_gfAdd,
        ih s (by simpa using h), List.length_zipWith]
      have hlen : t.length = s.length := by simpa using h
      rw [hlen, min_self]
      ring

theorem evalBE_map_gfMul (z : K) (c : Nat) : ∀ g : List Nat,
    evalBE z (g.map (fun b => gfMul c b)) = ψ c * evalBE z g := by
  intro g
  induction g with
  | nil => show (0 : K) = ψ c * 0; rw [mul_zero]
  | cons b t ih =>
    rw [List.map_cons, evalBE_cons, evalBE_cons, ψ_gfMul, ih,
      List.length_map]
    ring

/-- `x + c` times a big-endian byte polynomial. -/
def polyMulLin (g : List Nat) (c : Nat) : List Nat :=
  List.zipWith gfAdd (g ++ [0]) (0 :: g.map (fun b => gfMul c b))

/-- Big-endian byte coefficients of the reedsolo generator polynomial
`∏ i < m, (x − αⁱ)` over GF(2^8) (where `−` is `+`). -/
def genPolyBE : Nat → List Nat
  | 0 => [1]
  | m + 1 => polyMulLin (genPolyBE m) (gfPow 2 m)

theorem evalBE_polyMulLin (z : K) (g : List Nat) (c : Nat) :
    evalBE z (polyMulLin g c) = evalBE z g * (z + ψ c) := by
  unfold polyMulLin
  rw [evalBE_zipWith_gfAdd z _ _ (by simp)]
  rw [evalBE_append, evalBE_cons z 0 (g.map (fun b => gfMul c b)),
    evalBE_map_gfMul, evalBE_cons z 0 [], ψ_zero]
  simp only [List.length_cons, List.length_nil, List.length_map, pow_zero,
    pow_one, zero_mul, zero_add, add_zero, mul_one, evalBE, List.foldl_nil]
  ring

theorem genPolyBE_cons : ∀ m, ∃ gt, genPolyBE m = 1 :: gt ∧ gt.length = m := by
  intro m
  induction m with
  | zero => exact ⟨[], rfl, rfl⟩
  | succ m ih =>
    obtain ⟨gt, hg, hlen⟩ := ih
    refine ⟨List.zipWith gfAdd (gt ++ [0])
      ((1 :: gt).map (fun b => gfMul (gfPow 2 m) b)), ?_, ?_⟩
    · show polyMulLin (genPolyBE m) (gfPow 2 m) = _
      rw [hg]
      unfold polyMulLin
      rw [List.cons_append]
      show gfAdd 1 0 :: _ = 1 :: _
      rw [show gfAdd 1 0 = 1 from by decide]
    · rw [List.length_zipWith]
      simp [hlen]

theorem evalBE_genPolyBE_root (m i : Nat) (hi : i < m) :
    evalBE (αK ^ i) (genPolyBE m) = 0 := by
  induction m with
  | zero => omega
  | succ m ih =>
    show evalBE _ (polyMulLin (genPolyBE m) (gfPow 2 m)) = 0
    rw [evalBE_polyMulLin]
    rcases Nat.lt_or_ge i m with h | h
    · rw [ih h, zero_mul]
    · have him : i = m := by omega
      subst him
      have hfac : αK ^ i + ψ (gfPow 2 i) = 0 := by
        rw [ψ_gfPow, show ψ 2 = αK from rfl]
        exact K_add_self _
      rw [hfac, mul_zero]

/-- One synthetic-division step of the reedsolo LFSR: shift the remainder
register, feed the next byte, add the top coefficient times the generator
tail. -/
def stripeStep (gt : List Nat) (R : List Nat) (b : Nat) : List Nat :=
  match R with
  | [] => []
  | r0 :: rt => List.zipWith (fun x gj => gfAdd x (gfMul r0 gj)) (rt ++ [b]) gt

/-- The m parity bytes appended by `RSCodec(m).encode`: the remainder of
`msg·xᵐ` by the generator polynomial, via synthetic division. -/
def rsRemainder (m : Nat) (msg : List Nat) : List Nat :=
  (msg ++ List.replicate m 0).foldl (stripeStep ((genPolyBE m).tail))
    (List.replicate m 0)

theorem evalBE_zipWith_addmul (z : K) (c : Nat) : ∀ l1 l2 : List Nat,
    l1.length = l2.length →
    evalBE z (List.zipWith (fun x gj => gfAdd x (gfMul c gj)) l1 l2)
      = evalBE z l1 + ψ c * evalBE z l2 := by
  intro l1
  induction l1 with
  | nil =>
    intro l2 h
    have : l2 = [] := List.eq_nil_of_length_eq_zero (by simpa using h.symm)
    subst this
    show (0 : K) = 0 + ψ c * 0
    rw [mul_zero, add_zero]
  | cons a t ih =>
    intro l2 h
    cases l2 with
    | nil => simp at h
    | cons b s =>
      show evalBE z (gfAdd a (gfMul c b) :: List.zipWith _ t s) = _
      rw [evalBE_cons, evalBE_cons, evalBE_cons, ψ_gfAdd, ψ_gfMul,
        ih s (by simpa using h), List.length_zipWith]
      have hlen : t.length = s.length := by simpa using h
      rw [hlen, min_self]
      ring

theorem stripeStep_length (gt R : List Nat) (b : Nat) (m : Nat)
    (hgt : gt.length = m) (hR : R.length = m) :
    (stripeStep gt R b).length = m := by
  cases R with
  | nil => simpa using hR
  | cons r0 rt =>
    show (List.zipWith _ (rt ++ [b]) gt).length = m
    rw [List.length_zipWith, List.length_append, hgt]
    simp only [List.length_cons] at hR
    simp only [List.length_cons, List.length_nil]
    omega

theorem evalBE_stripeStep (z : K) (m : Nat) (gt R : List Nat) (b : Nat)
    (hgt : gt.length = m) (hR : R.length = m) (hz : evalBE z gt = z ^ m)
    (hm : 0 < m) :
    evalBE z (stripeStep gt R b) = evalBE z R * z + ψ b := by
  cases R with
  | nil => simp at hR; omega
  | cons r0 rt =>
    show evalBE z (List.zipWith _ (rt ++ [b]) gt) = _
    rw [evalBE_zipWith_addmul z r0 _ _ (by
      simp only [List.length_append, List.length_cons, List.length_nil, hgt]
      simp only [List.length_cons] at hR
      omega)]
    rw [hz, evalBE_append, evalBE_cons, evalBE_cons z r0 rt]
    simp only [List.length_cons, List.length_nil, pow_zero, pow_one, mul_one,
      evalBE, List.foldl_nil, add_zero]
    have hrt : rt.length + 1 = m := by
      simp only [List.length_cons] at hR
      omega
    rw [← hrt, pow_succ]
    ring

theorem evalBE_foldl_stripeStep (z : K) (m : Nat) (gt : List Nat)
    (hgt : gt.length = m) (hz : evalBE z gt = z ^ m) (hm : 0 < m) :
    ∀ (l : List Nat) (R : List Nat), R.length = m →
    (l.foldl (stripeStep gt) R).length = m ∧
    evalBE z (l.foldl (stripeStep gt) R)
      = evalBE z R * z ^ l.length + evalBE z l := by
  intro l
  induction l with
  | nil =>
    intro R hR
    refine ⟨hR, ?_⟩
    show evalBE z R = evalBE z R * z ^ 0 + (0 : K)
    rw [pow_zero, mul_one, add_zero]
  | cons b t ih =>
    intro R hR
    have hstep : (stripeStep gt R b).length = m :=
      stripeStep_length gt R b m hgt hR
    obtain ⟨ihlen, iheval⟩ := ih (stripeStep gt R b) hstep
    refine ⟨ihlen, ?_⟩
    show evalBE z (t.foldl (stripeStep gt) (stripeStep gt R b)) = _
    rw [iheval, evalBE_stripeStep z m gt R b hgt hR hz hm, evalBE_cons]
    show _ = evalBE z R * z ^ (t.length + 1) + _
    rw [pow_succ]
    ring

theorem genPolyBE_tail_eval (m i : Nat) (hm : 0 < m) (hi : i < m) :
    ((genPolyBE m).tail.length = m) ∧
    evalBE (αK ^ i) ((genPolyBE m).tail) = (αK ^ i) ^ m := by
  obtain ⟨gt, hg, hlen⟩ := genPolyBE_cons m
  rw [hg]
  refine ⟨by simpa using hlen, ?_⟩
  have hroot := evalBE_genPolyBE_root m i hi
  rw [hg, evalBE_cons, hlen, ψ_one, one_mul] at hroot
  show evalBE _ gt = _
  calc evalBE (αK ^ i) gt
      = ((αK ^ i) ^ m + (αK ^ i) ^ m) + evalBE (αK ^ i) gt := by
        rw [K_add_self, zero_add]
    _ = (αK ^ i) ^ m + ((αK ^ i) ^ m + evalBE (αK ^ i) gt) := by ring
    _ = (αK ^ i) ^ m := by rw [hroot, add_zero]

theorem rsRemainder_length (m : Nat) (hm : 0 < m) (msg : List Nat) :
    (rsRemainder m msg).length = m := by
  obtain ⟨hlen, _⟩ := genPolyBE_tail_eval m 0 hm hm
  exact ((evalBE_foldl_stripeStep (αK ^ 0) m _ hlen
    (genPolyBE_tail_eval m 0 hm hm).2 hm _ _ (by simp)).1)

/-- Every encoded stripe has vanishing syndromes: the codeword
`msg ‖ rsRemainder m msg` evaluates to zero at `αⁱ` for every `i < m`. -/
theorem encode_stripe_syndrome (m : Nat) (hm : 0 < m) (msg : List Nat)
    (i : Nat) (hi : i < m) :
    evalBE (αK ^ i) (msg ++ rsRemainder m msg) = 0 := by
  obtain ⟨hlen, hz⟩ := genPolyBE_tail_eval m i hm hi
  have hfold := (evalBE_foldl_stripeStep (αK ^ i) m _ hlen hz hm
    (msg ++ List.replicate m 0) (List.replicate m 0) (by simp)).2
  rw [evalBE_replicate_zero, zero_mul, zero_add, evalBE_append,
    evalBE_replicate_zero, add_zero, List.length_replicate] at hfold
  have hrem : evalBE (αK ^ i) (rsRemainder m msg)
      = evalBE (αK ^ i) msg * (αK ^ i) ^ m := by
    unfold rsRemainder
    exact hfold
  rw [evalBE_append, rsRemainder_length m hm msg, hrem]
  exact K_add_self _

theorem stripeStep_lt (gt R : List Nat) (b : Nat) :
    ∀ x ∈ stripeStep gt R b, x < 256 := by
  cases R with
  | nil => intro x hx; cases hx
  | cons r0 rt =>
    show ∀ x ∈ List.zipWith _ (rt ++ [b]) gt, x < 256
    generalize rt ++ [b] = l1
    induction l1 generalizing gt with
    | nil => intro x hx; cases hx
    | cons a t ih =>
      intro x hx
      cases gt with
      | nil => cases hx
      | cons g gs =>
        rcases List.mem_cons.1 hx with h | h
        · subst h; exact gfAdd_lt _ _
        · exact ih gs x h

theorem rsRemainder_lt (m : Nat) (msg : List Nat) :
    ∀ x ∈ rsRemainder m msg, x < 256 := by
  unfold rsRemainder
  generalize msg ++ List.replicate m 0 = l
  have base : ∀ x ∈ List.replicate m 0, x < 256 := by
    intro x hx
    rw [List.eq_of_mem_replicate hx]
    omega
  generalize hR : List.replicate m (0 : Nat) = R at base
  clear hR
  induction l generalizing R with
  | nil => exact base
  | cons b t ih =>
    show ∀ x ∈ t.foldl _ (stripeStep _ R b), x < 256
    exact ih _ (stripeStep_lt _ R b)

theorem evalBE_eq_sum (z : K) : ∀ l : List Nat,
    evalBE z l = ∑ j ∈ Finset.range l.length,
      ψ (l.getD j 0) * z ^ (l.length - 1 - j) := by
  intro l
  induction l with
  | nil => simp [evalBE]
  | cons b t ih =>
    rw [evalBE_cons, ih]
    rw [show (b :: t).length = t.length + 1 from rfl, Finset.sum_range_succ']
    simp only [List.getD_cons_succ, List.getD_cons_zero, Nat.sub_zero,
      Nat.add_sub_cancel]
    rw [add_comm]
    congr 1
    refine Finset.sum_congr rfl ?_
    intro j hj
    congr 2
    omega

theorem getD_lt_256 (l : List Nat) (h : ∀ x ∈ l, x < 256) (j : Nat) :
    l.getD j 0 < 256 := by
  rcases Nat.lt_or_ge j l.length with hj | hj
  · rw [List.getD_eq_getElem l 0 hj]
    exact h _ (List.getElem_mem hj)
  · rw [List.getD_eq_default _ _ hj]
    omega

theorem listNat_eq_of_getD (l1 l2 : List Nat) (hlen : l1.length = l2.length)
    (h : ∀ i, l1.getD i 0 = l2.getD i 0) : l1 = l2 := by
  apply List.ext_getElem hlen
  intro i h1 h2
  have hi := h i
  rwa [List.getD_eq_getElem?_getD, List.getD_eq_getElem?_getD,
    List.getElem?_eq_getElem h1, List.getElem?_eq_getElem h2,
    Option.getD_some, Option.getD_some] at hi

/-- BCH-style bound: a vector supported on at most `card E` positions whose
first `card E` syndromes vanish is zero (Vandermonde determinant). -/
theorem syndrome_zero_forces (n : Nat) (hn : n ≤ 255) (d : Fin n → K)
    (E : Finset (Fin n)) (hsupp : ∀ j, j ∉ E → d j = 0)
    (hsyn : ∀ i, i < E.card →
      ∑ j, d j * (αK ^ (n - 1 - (j : Nat))) ^ i = 0) :
    ∀ j, d j = 0 := by
  set t := E.card with ht
  let e := E.orderIsoOfFin ht.symm
  let β : Fin t → K := fun l => αK ^ (n - 1 - ((e l : Fin n) : Nat))
  let v : Fin t → K := fun l => d (e l)
  have hβinj : Function.Injective β := by
    intro l1 l2 h
    have hp1 : ((e l1 : Fin n) : Nat) < n := (e l1 : Fin n).isLt
    have hp2 : ((e l2 : Fin n) : Nat) < n := (e l2 : Fin n).isLt
    have hexp := alphaK_pow_inj _ _ (by omega) (by omega) h
    have hpos : ((e l1 : Fin n) : Nat) = ((e l2 : Fin n) : Nat) := by omega
    have : (e l1 : Fin n) = (e l2 : Fin n) := Fin.ext hpos
    have := Subtype.ext this
    exact e.injective this
  have hvecMul : Matrix.vecMul v (Matrix.vandermonde β) = 0 := by
    funext i
    show ∑ l, v l * Matrix.vandermonde β l i = 0
    have hi := hsyn i i.isLt
    have hEsum : ∑ j ∈ E, d j * (αK ^ (n - 1 - (j : Nat))) ^ (i : Nat)
        = ∑ j, d j * (αK ^ (n - 1 - (j : Nat))) ^ (i : Nat) := by
      refine Finset.sum_subset (Finset.subset_univ E) ?_
      intro x _ hx
      rw [hsupp x hx, zero_mul]
    have hmap : ∑ l, v l * (β l) ^ (i : Nat)
        = ∑ j ∈ E, d j * (αK ^ (n - 1 - (j : Nat))) ^ (i : Nat) := by
      rw [← Finset.sum_coe_sort E
        (fun j => d j * (αK ^ (n - 1 - (j : Nat))) ^ (i : Nat))]
      exact Equiv.sum_comp e.toEquiv
        (fun x => d x * (αK ^ (n - 1 - ((x : Fin n) : Nat))) ^ (i : Nat))
    show ∑ l, v l * (β l) ^ (i : Nat) = 0
    rw [hmap, hEsum]
    exact hi
  have hdet : (Matrix.vandermonde β).det ≠ 0 := by
    rw [Matrix.det_vandermonde]
    refine Finset.prod_ne_zero_iff.2 ?_
    intro i _
    refine Finset.prod_ne_zero_iff.2 ?_
    intro j hj
    rw [Finset.mem_Ioi] at hj
    exact sub_ne_zero.2 (fun hc => absurd (hβinj hc.symm) (Fin.ne_of_lt hj))
  have hv0 : v = 0 := Matrix.eq_zero_of_vecMul_eq_zero hdet hvecMul
  intro j
  by_cases hj : j ∈ E
  · have : d (e (e.symm ⟨j, hj⟩)) = v (e.symm ⟨j, hj⟩) := rfl
    rw [show e (e.symm ⟨j, hj⟩) = (⟨j, hj⟩ : E) from e.apply_symm_apply _] at this
    rw [show d j = d ((⟨j, hj⟩ : E) : Fin n) from rfl, this, hv0]
    rfl
  · exact hsupp j hj

/-- Erasure uniqueness: two encoded stripes that agree outside at most m
erased positions come from the same message. -/
theorem codeword_unique (k m : Nat) (hk : 0 < k) (hm : 0 < m)
    (hn : k + m ≤ 255) (msg msg' : List Nat)
    (hlen : msg.length = k) (hlen' : msg'.length = k)
    (hb : ∀ x ∈ msg, x < 256) (hb' : ∀ x ∈ msg', x < 256)
    (E : Finset (Fin (k + m))) (hE : E.card ≤ m)
    (hagree : ∀ j : Fin (k + m), j ∉ E →
      (msg ++ rsRemainder m msg).getD (j : Nat) 0
        = (msg' ++ rsRemainder m msg').getD (j : Nat) 0) :
    msg = msg' := by
  set cw := msg ++ rsRemainder m msg with hcw
  set cw' := msg' ++ rsRemainder m msg' with hcw'
  have hcwlen : cw.length = k + m := by
    rw [hcw, List.length_append, hlen, rsRemainder_length m hm]
  have hcwlen' : cw'.length = k + m := by
    rw [hcw', List.length_append, hlen', rsRemainder_length m hm]
  have hcwlt : ∀ x ∈ cw, x < 256 := by
    intro x hx
    rcases List.mem_append.1 hx with h | h
    · exact hb x h
    · exact rsRemainder_lt m msg x h
  have hcwlt' : ∀ x ∈ cw', x < 256 := by
    intro x hx
    rcases List.mem_append.1 hx with h | h
    · exact hb' x h
    · exact rsRemainder_lt m msg' x h
  have hchar : ∀ a b : K, a + b = 0 → a = b := by
    intro a b hab
    calc a = a + (b + b) := by rw [K_add_self, add_zero]
      _ = (a + b) + b := by ring
      _ = b := by rw [hab, zero_add]
  have hd0 : ∀ j : Fin (k + m),
      ψ (cw.getD (j : Nat) 0) + ψ (cw'.getD (j : Nat) 0) = 0 := by
    refine syndrome_zero_forces (k + m) hn
      (fun j => ψ (cw.getD (j : Nat) 0) + ψ (cw'.getD (j : Nat) 0)) E ?_ ?_
    · intro j hj
      show ψ (cw.getD (j : Nat) 0) + ψ (cw'.getD (j : Nat) 0) = 0
      rw [hagree j hj]
      exact K_add_self _
    · intro i hi
      have him : i < m := by omega
      have hsyn1 := encode_stripe_syndrome m hm msg i him
      have hsyn2 := encode_stripe_syndrome m hm msg' i him
      rw [evalBE_eq_sum] at hsyn1 hsyn2
      rw [← hcw] at hsyn1
      rw [← hcw'] at hsyn2
      rw [hcwlen] at hsyn1
      rw [hcwlen'] at hsyn2
      have hpow : ∀ j : Nat, (αK ^ i) ^ (k + m - 1 - j)
          = (αK ^ (k + m - 1 - j)) ^ i := by
        intro j
        rw [← pow_mul, ← pow_mul, Nat.mul_comm]
      calc ∑ j : Fin (k + m),
            (ψ (cw.getD (j : Nat) 0) + ψ (cw'.getD (j : Nat) 0))
              * (αK ^ (k + m - 1 - (j : Nat))) ^ i
          = (∑ j : Fin (k + m), ψ (cw.getD (j : Nat) 0)
              * (αK ^ i) ^ (k + m - 1 - (j : Nat)))
            + ∑ j : Fin (k + m), ψ (cw'.getD (j : Nat) 0)
              * (αK ^ i) ^ (k + m - 1 - (j : Nat)) := by
            rw [← Finset.sum_add_distrib]
            refine Finset.sum_congr rfl ?_
            intro j _
            rw [hpow]
            ring
        _ = 0 := by
            rw [← Fin.sum_univ_eq_sum_range
                (fun j => ψ (cw.getD j 0) * (αK ^ i) ^ (k + m - 1 - j))
                (k + m)] at hsyn1
            rw [← Fin.sum_univ_eq_sum_range
                (fun j => ψ (cw'.getD j 0) * (αK ^ i) ^ (k + m - 1 - j))
                (k + m)] at hsyn2
            rw [hsyn1, hsyn2, add_zero]
  have hcweq : cw = cw' := by
    refine listNat_eq_of_getD cw cw' (by rw [hcwlen, hcwlen']) ?_
    intro j
    rcases Nat.lt_or_ge j (k + m) with hj | hj
    · exact ψ_inj _ _ (getD_lt_256 cw hcwlt j) (getD_lt_256 cw' hcwlt' j)
        (hchar _ _ (hd0 ⟨j, hj⟩))
    · rw [List.getD_eq_default _ _ (by omega), List.getD_eq_default _ _ (by omega)]
  calc msg = cw.take k := by rw [hcw, List.take_left' hlen]
    _ = cw'.take k := by rw [hcweq]
    _ = msg' := by rw [hcw', List.take_left' hlen']

/-- All byte lists of a given length: the candidate space of the decoder
model. -/
def allByteLists : Nat → List (List Nat)
  | 0 => [[]]
  | n + 1 => (List.range 256).flatMap
      (fun b => (allByteLists n).map (fun t => b :: t))

theorem mem_allByteLists : ∀ (n : Nat) (l : List Nat),
    l ∈ allByteLists n ↔ l.length = n ∧ ∀ b ∈ l, b < 256 := by
  intro n
  induction n with
  | zero =>
    intro l
    show l ∈ [[]] ↔ _
    simp [List.length_eq_zero]
    intro h
    subst h
    simp
  | succ n ih =>
    intro l
    show l ∈ (List.range 256).flatMap _ ↔ _
    rw [List.mem_flatMap]
    constructor
    · rintro ⟨b, hb, hl⟩
      rw [List.mem_map] at hl
      obtain ⟨t, ht, rfl⟩ := hl
      obtain ⟨htlen, htlt⟩ := (ih t).1 ht
      refine ⟨by simp [htlen], ?_⟩
      intro x hx
      rcases List.mem_cons.1 hx with rfl | hx
      · exact List.mem_range.1 hb
      · exact htlt x hx
    · rintro ⟨hlen, hlt⟩
      cases l with
      | nil => simp at hlen
      | cons b t =>
        refine ⟨b, List.mem_range.2 (hlt b (by simp)), ?_⟩
        rw [List.mem_map]
        exact ⟨t, (ih t).2 ⟨by simpa using hlen,
          fun x hx => hlt x (by simp [hx])⟩, rfl⟩

/-- Does re-encoding `msg` agree with the received stripe at every position
that is not erased? -/
def decodeMatches (m : Nat) (stripe : List Nat) (erase_pos : List Nat)
    (msg : List Nat) : Bool :=
  (List.range stripe.length).all (fun j =>
    erase_pos.contains j
      || ((msg ++ rsRemainder m msg).getD j 0 == stripe.getD j 0))

/-- Modelled from reedsolo `rs_correct_msg` with erasure positions: refuse
overlong stripes and more than m erasures; otherwise return the message
whose re-encoding agrees with the stripe off the erased positions (when a
unique one exists this is the corrected data part that `decode` returns;
when none exists the post-correction syndrome check fails). -/
def rsDecodeStripe (data_blocks parity_blocks : Nat) (stripe : List Nat)
    (erase_pos : List Nat) : Except String (List Nat) :=
  if 255 < stripe.length then Except.error "Message is too long"
  else if parity_blocks < erase_pos.length then
    Except.error "Too many erasures to correct"
  else match (allByteLists data_blocks).find?
      (decodeMatches parity_blocks stripe erase_pos) with
    | some msg => Except.ok msg
    | none => Except.error "Could not correct message"

/-- `ErasureCode.encode`: shard the data into `data_blocks` rows of
`ceil(len/data_blocks)` bytes (zero-padded on the right), then for each byte
column take the reedsolo parity of the column and scatter it into
`parity_blocks` parity shards; the output is all shards concatenated. -/
def ErasureCode.encode (data_blocks parity_blocks : Nat)
    (data : List Nat) : List Nat :=
  let total_size := data.length
  let shard_size := (total_size + data_blocks - 1) / data_blocks
  let padded_data := data
    ++ List.replicate (data_blocks * shard_size - total_size) 0
  let shards := (List.range data_blocks).map
    (fun i => (padded_data.drop (i * shard_size)).take shard_size)
  let parity_shards := (List.range parity_blocks).map
    (fun i => (List.range shard_size).map
      (fun j => (rsRemainder parity_blocks
          ((List.range data_blocks).map
            (fun r => (shards.getD r []).getD j 0))).getD i 0))
  (shards ++ parity_shards).flatten

/-- `ErasureCode.extract_data_blocks`: reconstruct the data from `k + m`
optional shards, decoding each byte column with erasures at the missing
shard indices (missing shards are zero-filled for processing). -/
def extract_data_blocks (data_blocks parity_blocks : Nat)
    (blocks : List (Option (List Nat))) (original_data_size : Nat) :
    Except String (List Nat) :=
  if blocks = [] then Except.error "No blocks provided"
  else match blocks.findSome? id with
  | none => Except.error "All blocks are missing"
  | some valid_block =>
    let shard_size := valid_block.length
    if blocks.length ≠ data_blocks + parity_blocks then
      Except.error ("Expected " ++ toString (data_blocks + parity_blocks)
        ++ " blocks, got " ++ toString blocks.length)
    else
      let erase_pos := (List.range blocks.length).filter
        (fun i => (blocks.getD i none).isNone)
      let shards := blocks.map
        (fun b => b.getD (List.replicate shard_size 0))
      match (List.range shard_size).mapM (fun j =>
          rsDecodeStripe data_blocks parity_blocks
            ((List.range (data_blocks + parity_blocks)).map
              (fun i => (shards.getD i []).getD j 0)) erase_pos) with
      | Except.error e => Except.error ("Decoding error: " ++ e)
      | Except.ok stripes =>
        Except.ok (((List.range data_blocks).map
          (fun i => stripes.map (fun st => st.getD i 0))).flatten.take
            original_data_size)

/-! ### Structural lemmas about `encode` -/

theorem getD_map_range {α : Type} (n j : Nat) (f : Nat → α) (d : α)
    (hj : j < n) : ((List.range n).map f).getD j d = f j := by
  rw [List.getD_eq_getElem?_getD, List.getElem?_map, List.getElem?_range hj]
  rfl

theorem getD_append_of_len {α : Type} (L1 L2 : List α) (d : α) (kk i : Nat)
    (h1 : L1.length = kk) : (L1 ++ L2).getD (kk + i) d = L2.getD i d := by
  subst h1
  rw [List.getD_eq_getElem?_getD, List.getElem?_append_right (by omega),
    Nat.add_sub_cancel_left, ← List.getD_eq_getElem?_getD]

theorem flatten_length_of_uniform (s : Nat) : ∀ L : List (List Nat),
    (∀ l ∈ L, l.length = s) → L.flatten.length = L.length * s := by
  intro L
  induction L with
  | nil => intro _; simp
  | cons a t ih =>
    intro h
    rw [List.flatten_cons, List.length_append, h a (by simp),
      ih (fun l hl => h l (by simp [hl])), List.length_cons]
    ring

theorem flatten_getD_uniform (s : Nat) : ∀ (L : List (List Nat)) (q j : Nat),
    (∀ l ∈ L, l.length = s) → q < L.length → j < s →
    L.flatten.getD (q * s + j) 0 = (L.getD q []).getD j 0 := by
  intro L
  induction L with
  | nil => intro q j _ hq _; simp at hq
  | cons a t ih =>
    intro q j h hq hj
    cases q with
    | zero =>
      rw [List.flatten_cons, Nat.zero_mul, Nat.zero_add, List.getD_cons_zero]
      rw [List.getD_eq_getElem?_getD, List.getD_eq_getElem?_getD,
        List.getElem?_append, if_pos (by rw [h a (by simp)]; omega)]
    | succ q =>
      rw [List.flatten_cons, List.getD_cons_succ]
      have ha : a.length = s := h a (by simp)
      have hle : a.length ≤ (q + 1) * s + j := by
        rw [ha, Nat.succ_mul]
        omega
      rw [List.getD_eq_getElem?_getD, List.getElem?_append_right hle, ha]
      have harith : (q + 1) * s + j - s = q * s + j := by
        rw [Nat.succ_mul]
        omega
      rw [harith, ← List.getD_eq_getElem?_getD]
      exact ih q j (fun l hl => h l (by simp [hl])) (by simpa using hq) hj

theorem chunks_flatten (s : Nat) : ∀ (kk : Nat) (l : List Nat),
    l.length = kk * s →
    ((List.range kk).map (fun i => (l.drop (i * s)).take s)).flatten = l := by
  intro kk
  induction kk with
  | zero =>
    intro l hl
    rw [Nat.zero_mul] at hl
    rw [List.range_zero, List.map_nil, List.flatten_nil]
    exact (List.eq_nil_of_length_eq_zero hl).symm
  | succ kk ih =>
    intro l hl
    rw [List.range_succ_eq_map, List.map_cons, List.flatten_cons,
      Nat.zero_mul, List.drop_zero, List.map_map]
    have hmap : (List.map ((fun i => (l.drop (i * s)).take s) ∘ Nat.succ)
        (List.range kk))
        = (List.range kk).map (fun i => ((l.drop s).drop (i * s)).take s) := by
      refine List.map_congr_left ?_
      intro i _
      show (l.drop ((i + 1) * s)).take s = ((l.drop s).drop (i * s)).take s
      rw [List.drop_drop]
      congr 2
      rw [Nat.succ_mul]
      omega
    rw [hmap, ih (l.drop s) (by rw [List.length_drop, hl, Nat.succ_mul]; omega)]
    exact List.take_append_drop s l

theorem ceil_le_mul (k len : Nat) (hk : 0 < k) :
    len ≤ k * ((len + k - 1) / k) := by
  have h1 := Nat.div_add_mod (len + k - 1) k
  have h2 : (len + k - 1) % k < k := Nat.mod_lt _ hk
  set q := (len + k - 1) / k
  set r := (len + k - 1) % k
  set A := k * q with hA
  omega

theorem ceil_pos (k len : Nat) (hk : 0 < k) (hlen : 0 < len) :
    0 < (len + k - 1) / k := by
  rw [Nat.lt_iff_add_one_le, Nat.zero_add, Nat.one_le_div_iff hk]
  omega

theorem take_drop_length_of (l : List Nat) (s i kk : Nat)
    (hl : l.length = kk * s) (hi : i < kk) :
    ((l.drop (i * s)).take s).length = s := by
  rw [List.length_take, List.length_drop, hl]
  have h2 : i * s + s ≤ kk * s := by
    calc i * s + s = (i + 1) * s := by rw [Nat.succ_mul]
      _ ≤ kk * s := Nat.mul_le_mul_right s hi
  omega

theorem padded_length (k : Nat) (hk : 0 < k) (data : List Nat) :
    (data ++ List.replicate (k * ((data.length + k - 1) / k)
      - data.length) 0).length = k * ((data.length + k - 1) / k) := by
  have hle := ceil_le_mul k data.length hk
  rw [List.length_append, List.length_replicate]
  set A := k * ((data.length + k - 1) / k)
  omega

theorem encode_members_length (k m : Nat) (hk : 0 < k) (data : List Nat) :
    ∀ l ∈ ((List.range k).map
        (fun i => (((data ++ List.replicate
            (k * ((data.length + k - 1) / k) - data.length) 0)).drop
          (i * ((data.length + k - 1) / k))).take
            ((data.length + k - 1) / k)))
      ++ (List.range m).map
        (fun i => (List.range ((data.length + k - 1) / k)).map
          (fun j => (rsRemainder m ((List.range k).map
              (fun r => (((List.range k).map
                (fun i2 => (((data ++ List.replicate
                    (k * ((data.length + k - 1) / k) - data.length) 0)).drop
                  (i2 * ((data.length + k - 1) / k))).take
                    ((data.length + k - 1) / k))).getD r []).getD j 0))).getD
            i 0)),
      l.length = (data.length + k - 1) / k := by
  intro l hl
  rcases List.mem_append.1 hl with h | h
  · rw [List.mem_map] at h
    obtain ⟨i, hi, rfl⟩ := h
    exact take_drop_length_of _ _ _ k (padded_length k hk data)
      (List.mem_range.1 hi)
  · rw [List.mem_map] at h
    obtain ⟨i, _, rfl⟩ := h
    simp

theorem encode_length (k m : Nat) (hk : 0 < k) (data : List Nat) :
    (ErasureCode.encode k m data).length
      = (k + m) * ((data.length + k - 1) / k) := by
  show (_ ++ _ : List (List Nat)).flatten.length = _
  rw [flatten_length_of_uniform _ _ (encode_members_length k m hk data),
    List.length_append, List.length_map, List.length_map, List.length_range,
    List.length_range]

theorem encode_take (k m : Nat) (hk : 0 < k) (data : List Nat) :
    (ErasureCode.encode k m data).take (k * ((data.length + k - 1) / k))
      = data ++ List.replicate (k * ((data.length + k - 1) / k)
          - data.length) 0 := by
  show ((_ ++ _ : List (List Nat)).flatten).take _ = _
  rw [List.flatten_append]
  rw [chunks_flatten _ k _ (padded_length k hk data),
    List.take_left' (padded_length k hk data)]

theorem encode_parity_getD (k m : Nat) (hk : 0 < k) (data : List Nat)
    (i j : Nat) (hi : i < m) (hj : j < (data.length + k - 1) / k) :
    (ErasureCode.encode k m data).getD
        ((k + i) * ((data.length + k - 1) / k) + j) 0
      = (rsRemainder m ((List.range k).map
          (fun r => (data ++ List.replicate
              (k * ((data.length + k - 1) / k) - data.length) 0).getD
            (r * ((data.length + k - 1) / k) + j) 0))).getD i 0 := by
  set s := (data.length + k - 1) / k with hsdef
  set padded := data ++ List.replicate (k * s - data.length) 0 with hpadded
  show ((_ ++ _ : List (List Nat)).flatten).getD _ 0 = _
  rw [flatten_getD_uniform s _ (k + i) j (encode_members_length k m hk data)
    (by rw [List.length_append, List.length_map, List.length_map,
      List.length_range, List.length_range]; omega) hj]
  rw [getD_append_of_len _ _ _ k i
    (by rw [List.length_map, List.length_range])]
  rw [getD_map_range m i _ _ hi, getD_map_range s j _ _ hj]
  congr 2
  refine List.map_congr_left ?_
  intro r hr
  rw [getD_map_range k r _ _ (List.mem_range.1 hr)]
  rw [List.getD_eq_getElem?_getD, List.getD_eq_getElem?_getD,
    List.getElem?_take_of_lt hj, List.getElem?_drop]

/-- C5.  For every k>0, m>0 and every byte string, `ErasureCode.encode`
returns the concatenation of k data shards followed by m parity shards,
each shard exactly `ceil(len/k)` bytes: the output has length `(k+m)·s`,
its first `k·s` bytes are the data zero-padded on the right, and for every
parity shard i and column j the output byte at position `(k+i)·s + j` is
the i-th Reed-Solomon GF(2^8) parity byte of the k data bytes of column j. -/
theorem encode_shard_layout (k m : Nat) (hk : 0 < k) (hm : 0 < m)
    (data : List Nat) :
    (ErasureCode.encode k m data).length
        = (k + m) * ((data.length + k - 1) / k)
    ∧ (ErasureCode.encode k m data).take (k * ((data.length + k - 1) / k))
        = data ++ List.replicate
            (k * ((data.length + k - 1) / k) - data.length) 0
    ∧ ∀ i < m, ∀ j < (data.length + k - 1) / k,
        (ErasureCode.encode k m data).getD
            ((k + i) * ((data.length + k - 1) / k) + j) 0
          = (rsRemainder m ((List.range k).map
              (fun r => (data ++ List.replicate
                  (k * ((data.length + k - 1) / k) - data.length) 0).getD
                (r * ((data.length + k - 1) / k) + j) 0))).getD i 0 :=
  ⟨encode_length k m hk data, encode_take k m hk data,
   fun i hi j hj => encode_parity_getD k m hk data i j hi hj⟩

/-- Witness for C5: the layout at k = 1, m = 1, data = [7]. -/
theorem encode_shard_layout_witness :
    (ErasureCode.encode 1 1 [7]).length
        = (1 + 1) * ((List.length [7] + 1 - 1) / 1)
    ∧ (ErasureCode.encode 1 1 [7]).take (1 * ((List.length [7] + 1 - 1) / 1))
        = [7] ++ List.replicate
            (1 * ((List.length [7] + 1 - 1) / 1) - List.length [7]) 0
    ∧ ∀ i < 1, ∀ j < (List.length [7] + 1 - 1) / 1,
        (ErasureCode.encode 1 1 [7]).getD
            ((1 + i) * ((List.length [7] + 1 - 1) / 1) + j) 0
          = (rsRemainder 1 ((List.range 1).map
              (fun r => ([7] ++ List.replicate
                  (1 * ((List.length [7] + 1 - 1) / 1) - List.length [7]) 0).getD
                (r * ((List.length [7] + 1 - 1) / 1) + j) 0))).getD i 0 :=
  encode_shard_layout 1 1 (by decide) (by decide) [7]

theorem exceptMapM_ok {α β : Type} (f : α → Except String β) (g : α → β) :
    ∀ l : List α, (∀ x ∈ l, f x = Except.ok (g x)) →
    l.mapM f = Except.ok (l.map g) := by
  intro l
  induction l with
  | nil => intro _; rfl
  | cons a t ih =>
    intro h
    rw [List.mapM_cons, h a (by simp), List.map_cons]
    show (Except.ok (g a) >>= fun x =>
      (t.mapM f) >>= fun xs => pure (x :: xs)) = _
    rw [exceptOkBind, ih (fun x hx => h x (by simp [hx])), exceptOkBind]
    rfl

theorem exceptMapM_error_head {α β : Type} (f : α → Except String β) (a : α)
    (t : List α) (e : String) (h : f a = Except.error e) :
    (a :: t).mapM f = Except.error e := by
  rw [List.mapM_cons, h]
  rfl

/-- Decoding an encoded column with at most m erased positions returns
exactly the original column message. -/
theorem rsDecodeStripe_correct (k m : Nat) (hk : 0 < k) (hm : 0 < m)
    (hn : k + m ≤ 255) (msgCol : List Nat) (hlen : msgCol.length = k)
    (hbytes : ∀ b ∈ msgCol, b < 256) (stripe : List Nat)
    (hstripelen : stripe.length = k + m) (erase_pos : List Nat)
    (hcount : erase_pos.length ≤ m)
    (E : Finset (Fin (k + m))) (hEcard : E.card ≤ m)
    (herase : ∀ p : Fin (k + m), (p : Nat) ∈ erase_pos ↔ p ∈ E)
    (hagree : ∀ p : Fin (k + m), p ∉ E →
      stripe.getD (p : Nat) 0
        = (msgCol ++ rsRemainder m msgCol).getD (p : Nat) 0) :
    rsDecodeStripe k m stripe erase_pos = Except.ok msgCol := by
  unfold rsDecodeStripe
  rw [if_neg (by omega), if_neg (by omega)]
  have hmem : msgCol ∈ allByteLists k :=
    (mem_allByteLists k msgCol).2 ⟨hlen, hbytes⟩
  have hmatch : decodeMatches m stripe erase_pos msgCol = true := by
    unfold decodeMatches
    rw [List.all_eq_true]
    intro j hj
    have hjlt : j < k + m := by
      rw [← hstripelen]
      exact List.mem_range.1 hj
    rw [Bool.or_eq_true]
    by_cases hjE : (⟨j, hjlt⟩ : Fin (k + m)) ∈ E
    · left
      rw [List.elem_iff]
      exact (herase ⟨j, hjlt⟩).2 hjE
    · right
      rw [beq_iff_eq]
      exact (hagree ⟨j, hjlt⟩ hjE).symm
  cases hfind : (allByteLists k).find? (decodeMatches m stripe erase_pos) with
  | none =>
    exact absurd hmatch (List.find?_eq_none.1 hfind msgCol hmem)
  | some y =>
    have hy_mem := List.mem_of_find?_eq_some hfind
    have hy_p := List.find?_some hfind
    obtain ⟨hylen, hybytes⟩ := (mem_allByteLists k y).1 hy_mem
    have hyagree : ∀ p : Fin (k + m), p ∉ E →
        (y ++ rsRemainder m y).getD (p : Nat) 0
          = (msgCol ++ rsRemainder m msgCol).getD (p : Nat) 0 := by
      intro p hp
      unfold decodeMatches at hy_p
      rw [List.all_eq_true] at hy_p
      have hpj := hy_p (p : Nat) (List.mem_range.2 (by omega))
      rw [Bool.or_eq_true] at hpj
      rcases hpj with h | h
      · rw [List.elem_iff] at h
        exact absurd ((herase p).1 h) hp
      · rw [beq_iff_eq] at h
        rw [h]
        exact hagree p hp
    have hyeq : y = msgCol :=
      codeword_unique k m hk hm hn y msgCol hylen hlen hybytes hbytes E
        hEcard hyagree
    rw [hyeq]

theorem length_filter_range_mem (n : Nat) (E : Finset Nat)
    (hE : ∀ e ∈ E, e < n) (p : Nat → Bool)
    (hp : ∀ i, i < n → (p i = true ↔ i ∈ E)) :
    ((List.range n).filter p).length = E.card := by
  have hnodup : ((List.range n).filter p).Nodup :=
    List.Nodup.filter _ (List.nodup_range n)
  have hset : ((List.range n).filter p).toFinset = E := by
    ext x
    rw [List.mem_toFinset, List.mem_filter, List.mem_range]
    constructor
    · rintro ⟨hx, hpx⟩
      exact (hp x hx).1 hpx
    · intro hx
      exact ⟨hE x hx, (hp x (hE x hx)).2 hx⟩
  rw [← hset, List.toFinset_card_of_nodup hnodup]

theorem getD_map_of_lt {α β : Type} (l : List α) (f : α → β) (i : Nat)
    (d : β) (d' : α) (hi : i < l.length) :
    (l.map f).getD i d = f (l.getD i d') := by
  rw [List.getD_eq_getElem _ _ (by rw [List.length_map]; omega),
    List.getD_eq_getElem _ _ hi, List.getElem_map]

theorem getD_append_left {α : Type} (l1 l2 : List α) (i : Nat) (d : α)
    (hi : i < l1.length) : (l1 ++ l2).getD i d = l1.getD i d := by
  rw [List.getD_eq_getElem?_getD, List.getElem?_append, if_pos hi,
    ← List.getD_eq_getElem?_getD]

theorem blocks_findSome (n s : Nat) (E : Finset Nat) (shard : Nat → List Nat)
    (hshard : ∀ i < n, (shard i).length = s)
    (blocks : List (Option (List Nat)))
    (hblocks : blocks = (List.range n).map
      (fun i => if i ∈ E then none else some (shard i)))
    (i0 : Nat) (hi0 : i0 < n) (hi0E : i0 ∉ E) :
    ∃ vb, blocks.findSome? id = some vb ∧ vb.length = s := by
  cases hfs : blocks.findSome? id with
  | none =>
    exfalso
    have hmem : some (shard i0) ∈ blocks := by
      rw [hblocks, List.mem_map]
      exact ⟨i0, List.mem_range.2 hi0, by rw [if_neg hi0E]⟩
    have := List.findSome?_eq_none.1 hfs _ hmem
    cases this
  | some vb =>
    refine ⟨vb, rfl, ?_⟩
    obtain ⟨a, ha_mem, ha_eq⟩ := List.exists_of_findSome?_eq_some hfs
    rw [hblocks, List.mem_map] at ha_mem
    obtain ⟨i, hi, rfl⟩ := ha_mem
    by_cases hiE : i ∈ E
    · rw [if_pos hiE] at ha_eq
      cases ha_eq
    · rw [if_neg hiE] at ha_eq
      have : shard i = vb := by
        have := ha_eq
        simpa using this
      rw [← this]
      exact hshard i (List.mem_range.1 hi)

/-- C1, counterexample.  Erasing all `k+m` shards is a case of `|E| > m`,
but `extract_data_blocks` then fails with "All blocks are missing" before
any decoding, not with the insufficient-shards decoding error. -/
theorem erasure_all_missing_counterexample :
    extract_data_blocks 1 1 [none, none] 1
        = Except.error "All blocks are missing"
    ∧ "All blocks are missing" ≠ "Decoding error: Too many erasures to correct" :=
  ⟨by decide, by decide⟩

set_option maxHeartbeats 1000000 in
/-- C1, amended.  Split `ErasureCode.encode k m data` into its `k+m` shards
and replace the shards at indices in `E` by `None`.  If `|E| ≤ m`,
`extract_data_blocks` recovers the data exactly; if `m < |E| < k+m` it
fails with the insufficient-shards error
"Decoding error: Too many erasures to correct"; if `|E| = k+m` (every
shard gone, also a case of `|E| > m`) it fails earlier with
"All blocks are missing". -/
theorem extract_data_blocks_roundtrip (k m : Nat) (hk : 0 < k) (hm : 0 < m)
    (hn : k + m ≤ 255) (data : List Nat) (hne : data ≠ [])
    (hb : ∀ b ∈ data, b < 256) (E : Finset Nat) (hEsub : ∀ e ∈ E, e < k + m)
    (s : Nat) (hs_def : s = (data.length + k - 1) / k)
    (blocks : List (Option (List Nat)))
    (hblocks : blocks = (List.range (k + m)).map
      (fun i => if i ∈ E then none
        else some (((ErasureCode.encode k m data).drop (i * s)).take s))) :
    (E.card ≤ m →
      extract_data_blocks k m blocks data.length = Except.ok data)
    ∧ (m < E.card → E.card < k + m →
      extract_data_blocks k m blocks data.length
        = Except.error "Decoding error: Too many erasures to correct")
    ∧ (E.card = k + m →
      extract_data_blocks k m blocks data.length
        = Except.error "All blocks are missing") := by
  have hdlen : 0 < data.length := by
    cases data with
    | nil => exact absurd rfl hne
    | cons a t => simp
  have hs : 0 < s := by
    rw [hs_def]
    exact ceil_pos k data.length hk hdlen
  set enc := ErasureCode.encode k m data with henc
  have henclen : enc.length = (k + m) * s := by
    rw [henc, hs_def]
    exact encode_length k m hk data
  have hshard_len : ∀ i, i < k + m → ((enc.drop (i * s)).take s).length = s :=
    fun i hi => take_drop_length_of enc s i (k + m) henclen hi
  have hblen : blocks.length = k + m := by rw [hblocks]; simp
  have hbne : blocks ≠ [] := by
    intro h0
    rw [h0] at hblen
    simp at hblen
    omega
  have hbget : ∀ i, i < k + m → blocks.getD i none
      = if i ∈ E then none else some ((enc.drop (i * s)).take s) := by
    intro i hi
    rw [hblocks]
    exact getD_map_range _ i _ none hi
  have herase_len : ((List.range blocks.length).filter
      (fun i => (blocks.getD i none).isNone)).length = E.card := by
    rw [hblen]
    refine length_filter_range_mem (k + m) E hEsub _ ?_
    intro i hi
    rw [hbget i hi]
    by_cases hiE : i ∈ E
    · rw [if_pos hiE]
      simp [hiE]
    · rw [if_neg hiE]
      simp [hiE]
  have herase_mem : ∀ p : Nat, p ∈ (List.range blocks.length).filter
      (fun i => (blocks.getD i none).isNone) ↔ (p < k + m ∧ p ∈ E) := by
    intro p
    rw [List.mem_filter, List.mem_range, hblen]
    constructor
    · rintro ⟨hp, hnone⟩
      rw [hbget p hp] at hnone
      by_cases hpE : p ∈ E
      · exact ⟨hp, hpE⟩
      · rw [if_neg hpE] at hnone
        simp at hnone
    · rintro ⟨hp, hpE⟩
      refine ⟨hp, ?_⟩
      rw [hbget p hp, if_pos hpE]
      rfl
  refine ⟨?_, ?_, ?_⟩
  · -- |E| ≤ m: full recovery
    intro hcard
    obtain ⟨i0, hi0r, hi0E⟩ := Finset.exists_of_ssubset
      (show E ⊂ Finset.range (k + m) from (Finset.ssubset_iff_subset_ne).2
        ⟨fun e he => Finset.mem_range.2 (hEsub e he),
         fun h => by rw [h, Finset.card_range] at hcard; omega⟩)
    obtain ⟨vb, hfs, hvs⟩ := blocks_findSome (k + m) s E
      (fun i => (enc.drop (i * s)).take s) hshard_len blocks hblocks i0
      (Finset.mem_range.1 hi0r) hi0E
    unfold extract_data_blocks
    rw [if_neg hbne, hfs]
    dsimp only
    rw [if_neg (by rw [hblen]; exact fun h => h rfl), hvs]
    set padded := data ++ List.replicate (k * s - data.length) 0 with hpad
    have hpadlen : padded.length = k * s := by
      rw [hpad, hs_def]
      exact padded_length k hk data
    have hpadlt : ∀ x ∈ padded, x < 256 := by
      rw [hpad]
      intro x hx
      rcases List.mem_append.1 hx with h | h
      · exact hb x h
      · rw [List.eq_of_mem_replicate h]
        omega
    have htake : enc.take (k * s) = padded := by
      rw [henc, hpad, hs_def]
      exact encode_take k m hk data
    set msgCol : Nat → List Nat :=
      fun j => (List.range k).map (fun r => padded.getD (r * s + j) 0)
      with hmsgCol
    have hmsgCol_len : ∀ j, (msgCol j).length = k := by
      intro j
      rw [hmsgCol]
      simp
    have hmsgCol_lt : ∀ j, ∀ b ∈ msgCol j, b < 256 := by
      intro j b hbm
      rw [hmsgCol] at hbm
      rw [List.mem_map] at hbm
      obtain ⟨r, _, rfl⟩ := hbm
      exact getD_lt_256 padded hpadlt _
    have hmul_lt : ∀ p j, p < k → j < s → p * s + j < k * s := by
      intro p j hp hj
      have : (p + 1) * s ≤ k * s := Nat.mul_le_mul_right s hp
      rw [Nat.succ_mul] at this
      omega
    have hstripe_eq : ∀ j, j < s → ∀ p : Fin (k + m),
        p ∉ E.attachFin hEsub →
        ((blocks.map (fun b => b.getD (List.replicate s 0))).getD
            (p : Nat) []).getD j 0
          = (msgCol j ++ rsRemainder m (msgCol j)).getD (p : Nat) 0 := by
      intro j hj p hp
      have hpE : (p : Nat) ∉ E := by
        intro hc
        exact hp ((Finset.mem_attachFin hEsub).2 hc)
      rw [getD_map_of_lt blocks _ (p : Nat) [] none (by rw [hblen]; omega),
        hbget (p : Nat) p.isLt, if_neg hpE]
      show ((enc.drop ((p : Nat) * s)).take s).getD j 0 = _
      rw [List.getD_eq_getElem?_getD, List.getElem?_take_of_lt hj,
        List.getElem?_drop, ← List.getD_eq_getElem?_getD]
      rcases Nat.lt_or_ge (p : Nat) k with hpk | hpk
      · have hlt : (p : Nat) * s + j < k * s := hmul_lt _ j hpk hj
        have hencpad : enc.getD ((p : Nat) * s + j) 0
            = padded.getD ((p : Nat) * s + j) 0 := by
          rw [← htake]
          simp only [List.getD_eq_getElem?_getD]
          rw [List.getElem?_take_of_lt hlt]
        rw [hencpad]
        rw [getD_append_left (msgCol j) (rsRemainder m (msgCol j)) (p : Nat) 0
          (by rw [hmsgCol_len j]; omega)]
        rw [show (msgCol j).getD (p : Nat) 0
          = padded.getD ((p : Nat) * s + j) 0 from
            getD_map_range k (p : Nat) _ 0 hpk]
      · obtain ⟨i1, hpi⟩ : ∃ i1, (p : Nat) = k + i1 :=
          ⟨(p : Nat) - k, by omega⟩
        rw [hpi]
        have hi1 : i1 < m := by
          have := p.isLt
          omega
        have hpar := encode_parity_getD k m hk data i1 j hi1
          (by rw [← hs_def]; exact hj)
        rw [← hs_def] at hpar
        rw [← hpad] at hpar
        rw [show (List.range k).map
            (fun r => padded.getD (r * s + j) 0) = msgCol j from rfl] at hpar
        rw [show enc.getD ((k + i1) * s + j) 0
          = (rsRemainder m (msgCol j)).getD i1 0 from hpar]
        rw [getD_append_of_len _ _ _ k i1 (hmsgCol_len j)]
    have hcol : ∀ j ∈ List.range s,
        rsDecodeStripe k m ((List.range (k + m)).map
          (fun i => ((blocks.map
              (fun b => b.getD (List.replicate s 0))).getD i []).getD j 0))
          ((List.range blocks.length).filter
            (fun i => (blocks.getD i none).isNone))
        = Except.ok (msgCol j) := by
      intro j hj
      refine rsDecodeStripe_correct k m hk hm hn (msgCol j) (hmsgCol_len j)
        (hmsgCol_lt j) _ (by rw [List.length_map, List.length_range]) _
        (by rw [herase_len]; exact hcard) (E.attachFin hEsub)
        (by rw [Finset.card_attachFin]; exact hcard) ?_ ?_
      · intro p
        rw [Finset.mem_attachFin hEsub, herase_mem]
        constructor
        · rintro ⟨_, h⟩
          exact h
        · intro h
          exact ⟨p.isLt, h⟩
      · intro p hp
        rw [getD_map_range (k + m) (p : Nat) _ 0 p.isLt]
        exact hstripe_eq j (List.mem_range.1 hj) p hp
    rw [exceptMapM_ok _ msgCol _ hcol]
    dsimp only
    rw [Except.ok.injEq]
    have hshardback : ∀ i, i < k →
        ((List.range s).map msgCol).map (fun st => st.getD i 0)
          = (padded.drop (i * s)).take s := by
      intro i hi
      rw [List.map_map]
      refine List.ext_getElem ?_ ?_
      · rw [List.length_map, List.length_range,
          take_drop_length_of padded s i k hpadlen hi]
      · intro j h1 h2
        rw [List.length_map, List.length_range] at h1
        rw [List.getElem_map, List.getElem_range]
        show (msgCol j).getD i 0 = _
        rw [getD_map_range k i _ 0 hi]
        rw [List.getElem_take, List.getElem_drop]
        rw [List.getD_eq_getElem _ _ (by rw [hpadlen]; exact hmul_lt i j hi h1)]
    have hmapcongr : (List.range k).map
        (fun i => ((List.range s).map msgCol).map (fun st => st.getD i 0))
          = (List.range k).map (fun i => (padded.drop (i * s)).take s) :=
      List.map_congr_left (fun i hi => hshardback i (List.mem_range.1 hi))
    rw [hmapcongr, chunks_flatten s k padded hpadlen, hpad,
      List.take_left' rfl]
  · -- m < |E| < k+m: decoding error on the first column
    intro hcard1 hcard2
    obtain ⟨i0, hi0r, hi0E⟩ := Finset.exists_of_ssubset
      (show E ⊂ Finset.range (k + m) from (Finset.ssubset_iff_subset_ne).2
        ⟨fun e he => Finset.mem_range.2 (hEsub e he),
         fun h => by rw [h, Finset.card_range] at hcard2; omega⟩)
    obtain ⟨vb, hfs, hvs⟩ := blocks_findSome (k + m) s E
      (fun i => (enc.drop (i * s)).take s) hshard_len blocks hblocks i0
      (Finset.mem_range.1 hi0r) hi0E
    unfold extract_data_blocks
    rw [if_neg hbne, hfs]
    dsimp only
    rw [if_neg (by rw [hblen]; exact fun h => h rfl), hvs]
    obtain ⟨s1, hs1⟩ : ∃ s1, s = s1 + 1 := ⟨s - 1, by omega⟩
    rw [hs1, List.range_succ_eq_map]
    have hfail : rsDecodeStripe k m ((List.range (k + m)).map
        (fun i => ((blocks.map
            (fun b => b.getD (List.replicate (s1 + 1) 0))).getD i []).getD 0 0))
        ((List.range blocks.length).filter
          (fun i => (blocks.getD i none).isNone))
        = Except.error "Too many erasures to correct" := by
      unfold rsDecodeStripe
      rw [if_neg (by rw [List.length_map, List.length_range]; omega),
        if_pos (by rw [herase_len]; omega)]
    rw [exceptMapM_error_head _ 0 _ _ hfail]
    show Except.error ("Decoding error: " ++ "Too many erasures to correct")
      = Except.error "Decoding error: Too many erasures to correct"
    rw [show ("Decoding error: " ++ "Too many erasures to correct" : String)
      = "Decoding error: Too many erasures to correct" from by decide]
  · -- |E| = k+m: every block is missing
    intro hcard
    have hEeq : E = Finset.range (k + m) := Finset.eq_of_subset_of_card_le
      (fun e he => Finset.mem_range.2 (hEsub e he))
      (by rw [Finset.card_range, hcard])
    have hallnone : ∀ x ∈ blocks, x = none := by
      rw [hblocks]
      intro x hx
      rw [List.mem_map] at hx
      obtain ⟨i, hi, rfl⟩ := hx
      rw [if_pos (by rw [hEeq]; exact Finset.mem_range.2 (List.mem_range.1 hi))]
    unfold extract_data_blocks
    rw [if_neg hbne, show blocks.findSome? id = none from
      List.findSome?_eq_none.2 (fun x hx => by rw [hallnone x hx]; rfl)]

/-- Witness for C1: with k = m = 1 and data `[7]`, erasing shard 1 (the
parity shard) still recovers `[7]`. -/
theorem extract_data_blocks_roundtrip_witness :
    extract_data_blocks 1 1 ((List.range (1 + 1)).map
      (fun i => if i ∈ ({1} : Finset Nat) then none
        else some (((ErasureCode.encode 1 1 [7]).drop (i * 1)).take 1)))
      (List.length [7]) = Except.ok [7] :=
  (extract_data_blocks_roundtrip 1 1 (by decide) (by decide) (by decide) [7]
    (by decide) (by decide) {1} (by decide) 1 (by decide) _ rfl).1 (by decide)

end Akave
